import Mathlib

/-!
# The infix calculator of `calculator-hint.go`

A shallow embedding of the two-stack expression evaluator.  A Go string is a
sequence of bytes; a byte is written here as the `Char` with the same code, so
that the character literals of the source can be kept.  The global stacks and
the standard output form the record `Globals`, which every function receives
and returns; a panic carries the globals as they are when it is raised.
-/

namespace Calculator

/-! ## Native integers -/

/-- Go's `int` on a 64-bit platform: the result of an arithmetic operation is
reduced to the two's complement range from `-2^63` to `2^63 - 1`. -/
def wrapInt (x : Int) : Int :=
  (x + 9223372036854775808) % 18446744073709551616 - 9223372036854775808

/-- The values an `int` can hold. -/
def InRange (x : Int) : Prop :=
  -9223372036854775808 ≤ x ∧ x < 9223372036854775808

instance (x : Int) : Decidable (InRange x) := by
  unfold InRange; infer_instance

/-! ## Strings -/

/-- The bytes of the UTF-8 encoding of one character, which is how a Go string
stores it. -/
def utf8 (c : Char) : List Char :=
  let n := c.toNat
  if n < 0x80 then [c]
  else if n < 0x800 then [Char.ofNat (0xC0 + n / 64), Char.ofNat (0x80 + n % 64)]
  else if n < 0x10000 then
    [Char.ofNat (0xE0 + n / 4096), Char.ofNat (0x80 + n / 64 % 64), Char.ofNat (0x80 + n % 64)]
  else
    [Char.ofNat (0xF0 + n / 262144), Char.ofNat (0x80 + n / 4096 % 64),
     Char.ofNat (0x80 + n / 64 % 64), Char.ofNat (0x80 + n % 64)]

/-- The byte sequence of a line of text. -/
def bytes (s : String) : List Char :=
  s.data.flatMap utf8

/-- One hexadecimal digit, in lower case. -/
def hexDigit (n : Nat) : Char :=
  if n < 10 then Char.ofNat (48 + n) else Char.ofNat (87 + n)

/-- The verb `%q` of package `fmt` applied to a byte: the byte is taken as a
code point and written as a single-quoted Go character literal, escaped where
it is not printable. -/
def quoteByte (c : Char) : String :=
  let n := c.toNat
  let body : List Char :=
    if c = '\'' ∨ c = '\\' then ['\\', c]
    else if (0x20 ≤ n ∧ n < 0x7F) ∨ (0xA1 ≤ n ∧ n ≠ 0xAD) then [c]
    else if n = 7 then ['\\', 'a']
    else if n = 8 then ['\\', 'b']
    else if n = 12 then ['\\', 'f']
    else if n = 10 then ['\\', 'n']
    else if n = 13 then ['\\', 'r']
    else if n = 9 then ['\\', 't']
    else if n = 11 then ['\\', 'v']
    else if n < 0x20 ∨ n = 0x7F then ['\\', 'x', hexDigit (n / 16), hexDigit (n % 16)]
    else ['\\', 'u', '0', '0', hexDigit (n / 16 % 16), hexDigit (n % 16)]
  String.mk (['\''] ++ body ++ ['\''])

/-! ## Panics -/

/-- The value of a panic: either the string handed to `panic`, or the run-time
error the Go runtime raises for an integer division by zero. -/
inductive Panic where
  | text (s : String)
  | divideByZero
deriving DecidableEq, Repr

/-- What `fmt.Println` writes for the recovered value. -/
def Panic.render : Panic → String
  | .text s => s
  | .divideByZero => "runtime error: integer divide by zero"

/-! ## The stack package -/

/-- Modelled from the spec: the type `Stack` of package `example.com/stack`,
a last-in first-out container.  The top of the stack is the head of the
list. -/
abbrev Stack (α : Type) := List α

/-- Modelled from the spec: `stack.New`, the empty stack. -/
def Stack.New {α : Type} : Stack α := []

/-- Modelled from the spec: `Push` puts the value on top, unconditionally. -/
def Stack.Push {α : Type} (s : Stack α) (v : α) : Stack α := v :: s

/-- Modelled from the spec: `Pop` returns the top value and removes it; on an
empty stack it fails, which the first component `none` stands for (the Go
method then returns the nil value together with an error). -/
def Stack.Pop {α : Type} (s : Stack α) : Option α × Stack α :=
  match s with
  | [] => (none, [])
  | v :: rest => (some v, rest)

/-- Modelled from the spec: `Top` returns the top value without removing it,
and fails on an empty stack. -/
def Stack.Top {α : Type} (s : Stack α) : Option α :=
  match s with
  | [] => none
  | v :: _ => some v

/-- Modelled from the spec: `IsEmpty` tells whether the size is zero. -/
def Stack.IsEmpty {α : Type} (s : Stack α) : Bool :=
  match s with
  | [] => true
  | _ :: _ => false

/-! ## Program state -/

/-- The global variables `operandStack` and `operatorStack`, and the lines
written to the standard output so far. -/
structure Globals where
  operandStack : Stack Int
  operatorStack : Stack Char
  stdout : List String
deriving DecidableEq, Repr

/-- The state `main` sets up before each call of `evaluate`: both stacks new;
nothing printed yet. -/
def fresh : Globals := ⟨Stack.New, Stack.New, []⟩

/-- How a call ends: it returns, it panics, or the step budget of a loop of the
model ran out (which the theorems below exclude). -/
inductive Result (α : Type) where
  | ok (a : α) (g : Globals)
  | panic (p : Panic) (g : Globals)
  | timeout
deriving DecidableEq, Repr

/-! ## The functions of the source -/

/-- The loop of `intPower`: `n` iterations are left and `pow` is the product
so far. -/
def intPower.loop (x : Int) : Nat → Int → Int
  | 0, pow => pow
  | n + 1, pow => intPower.loop x n (wrapInt (pow * x))

/-- `intPower(x, y)`: successive multiplication, once for every `i` from `0`
below `y`. -/
def intPower (x y : Int) : Int :=
  intPower.loop x y.toNat 1

/-- `isDigit(c)`. -/
def isDigit (c : Char) : Bool :=
  decide ('0' ≤ c) && decide (c ≤ '9')

/-- `precedence(op)`; the error is the panic `unknown operator`. -/
def precedence (op : Char) : Except Panic Int :=
  if op = '+' ∨ op = '-' then .ok 0
  else if op = '*' ∨ op = '/' then .ok 1
  else if op = '^' then .ok 2
  else .error (.text "unknown operator")

/-- `isRightAssociative(op)`. -/
def isRightAssociative (op : Char) : Bool :=
  decide (op = '^')

/-- The function `apply`: pop the operator, the right operand and the left
operand, and push the result. -/
def apply (g : Globals) : Result Unit :=
  match g with
  | ⟨operands, operators, out⟩ =>
    match Stack.Pop operators with
    | (none, ops) => .panic (.text "operator stack underflow") ⟨operands, ops, out⟩
    | (some op, ops) =>
      match Stack.Pop operands with
      | (none, s1) => .panic (.text "operand stack underflow") ⟨s1, ops, out⟩
      | (some right, s1) =>
        match Stack.Pop s1 with
        | (none, s2) => .panic (.text "operand stack underflow") ⟨s2, ops, out⟩
        | (some left, s2) =>
          if op = '+' then .ok () ⟨Stack.Push s2 (wrapInt (left + right)), ops, out⟩
          else if op = '-' then .ok () ⟨Stack.Push s2 (wrapInt (left - right)), ops, out⟩
          else if op = '*' then .ok () ⟨Stack.Push s2 (wrapInt (left * right)), ops, out⟩
          else if op = '/' then
            if right = 0 then .panic .divideByZero ⟨s2, ops, out⟩
            else .ok () ⟨Stack.Push s2 (wrapInt (Int.tdiv left right)), ops, out⟩
          else if op = '^' then .ok () ⟨Stack.Push s2 (intPower left right), ops, out⟩
          else .panic (.text "unknown operator") ⟨s2, ops, out⟩

/-- The inner loop of the digit case of `evaluate`: `v` is the value read so
far; the result is the value of the digit run and the input after it. -/
def digitLoop (v : Int) : List Char → Int × List Char
  | [] => (v, [])
  | c :: cs =>
    if isDigit c then
      digitLoop (wrapInt (wrapInt (10 * v) + ((c.toNat + 256 - '0'.toNat) % 256 : Nat))) cs
    else (v, c :: cs)

/-- The condition of the inner loop of the operator case of `evaluate`, for
the operator `op` on top of the stack and the incoming operator `c`. -/
def shouldApply (op c : Char) : Except Panic Bool :=
  match precedence op, precedence c with
  | .error p, _ => .error p
  | .ok _, .error p => .error p
  | .ok p1, .ok p2 => .ok (decide (p1 > p2) || (decide (p1 = p2) && !isRightAssociative op))

/-- The inner loop of the operator case of `evaluate`: apply the pending
operators that bind at least as tightly as the incoming operator `c`. -/
def pendingLoop (c : Char) : Nat → Globals → Result Unit
  | fuel, g =>
    if Stack.IsEmpty g.operatorStack then .ok () g
    else
      match Stack.Top g.operatorStack with
      | none => .ok () g  -- not reached: the stack is not empty
      | some op =>
        match shouldApply op c with
        | .error p => .panic p g
        | .ok false => .ok () g
        | .ok true =>
          match fuel with
          | 0 => .timeout
          | n + 1 =>
            match apply g with
            | .ok _ g1 => pendingLoop c n g1
            | .panic p g1 => .panic p g1
            | .timeout => .timeout

/-- The inner loop of the operator case, with a step budget that suffices:
every iteration removes one operator. -/
def pending (c : Char) (g : Globals) : Result Unit :=
  pendingLoop c g.operatorStack.length g

/-- One iteration of the scan loop of `evaluate`, at the character `c` with the
input `cs` after it; the result is the new flag `operandExpected` and the
input left to scan. -/
def scanStep (operandExpected : Bool) (c : Char) (cs : List Char) (g : Globals) :
    Result (Bool × List Char) :=
  if isDigit c then
    if !operandExpected then .panic (.text "operator expected but operand found") g
    else
      let (v, rest) := digitLoop 0 (c :: cs)
      .ok (false, rest) { g with operandStack := Stack.Push g.operandStack v }
  else if c = '+' ∨ c = '-' ∨ c = '*' ∨ c = '/' ∨ c = '^' then
    if operandExpected then .panic (.text "operand expected but operator found") g
    else
      match pending c g with
      | .ok _ g1 => .ok (true, cs) { g1 with operatorStack := Stack.Push g1.operatorStack c }
      | .panic p g1 => .panic p g1
      | .timeout => .timeout
  else if c = '(' then
    .ok (operandExpected, cs)
      { g with stdout := g.stdout ++ [quoteByte c ++ " is an open parenthesis"] }
  else if c = ')' then
    .ok (operandExpected, cs)
      { g with stdout := g.stdout ++ [quoteByte c ++ " is a close parenthesis"] }
  else if c = ' ' then .ok (operandExpected, cs) g
  else .panic (.text (quoteByte c ++ " is an illegal character")) g

/-- The scan loop of `evaluate`; `rest` is the input from index `i` on. -/
def scanLoop : Nat → Bool → List Char → Globals → Result Unit
  | _, _, [], g => .ok () g
  | 0, _, _ :: _, _ => .timeout
  | fuel + 1, operandExpected, c :: cs, g =>
    match scanStep operandExpected c cs g with
    | .ok (flag, rest) g1 => scanLoop fuel flag rest g1
    | .panic p g1 => .panic p g1
    | .timeout => .timeout

/-- The final loop of `evaluate`: apply the operators that remain. -/
def drainLoop : Nat → Globals → Result Unit
  | fuel, g =>
    if Stack.IsEmpty g.operatorStack then .ok () g
    else
      match fuel with
      | 0 => .timeout
      | n + 1 =>
        match apply g with
        | .ok _ g1 => drainLoop n g1
        | .panic p g1 => .panic p g1
        | .timeout => .timeout

/-- The scan loop from the input `rest` on, with a step budget that suffices:
every iteration consumes at least one character. -/
def scan (operandExpected : Bool) (rest : List Char) (g : Globals) : Result Unit :=
  scanLoop rest.length operandExpected rest g

/-- The final loop, with a step budget that suffices: every iteration removes
one operator. -/
def drain (g : Globals) : Result Unit :=
  drainLoop g.operatorStack.length g

/-- The verb `%v` applied to the result of the final `Pop`: an integer in
decimal, or the nil value that `Pop` returns when it fails. -/
def formatValue : Option Int → String
  | some v => toString v
  | none => "<nil>"

/-- The body of `evaluate`, without the deferred function. -/
def evaluateBody (expr : List Char) (g : Globals) : Result Unit :=
  match scan true expr g with
  | .ok _ g1 =>
    match drain g1 with
    | .ok _ g2 =>
      match Stack.Pop g2.operandStack with
      | (result, s) =>
        let g3 : Globals := { g2 with operandStack := s }
        if !Stack.IsEmpty g3.operandStack then .panic (.text "too many operands") g3
        else .ok () { g3 with stdout := g3.stdout ++ [formatValue result] }
    | .panic p g2 => .panic p g2
    | .timeout => .timeout
  | .panic p g1 => .panic p g1
  | .timeout => .timeout

/-- The function `evaluate`: the body, and the deferred function that recovers
from any panic and prints it. -/
def evaluate (expr : List Char) (g : Globals) : Result Unit :=
  match evaluateBody expr g with
  | .ok _ g1 => .ok () g1
  | .panic p g1 =>
    .ok () { g1 with stdout := g1.stdout ++ ["illegal expression: " ++ p.render] }
  | .timeout => .timeout

/-! ## Well-formed expressions and their conventional value -/

/-- The five operators. -/
inductive Operator where
  | plus | minus | times | divide | power
deriving DecidableEq, Repr

/-- The character of an operator. -/
def Operator.char : Operator → Char
  | .plus => '+'
  | .minus => '-'
  | .times => '*'
  | .divide => '/'
  | .power => '^'

/-- The operators of the lowest precedence. -/
inductive AddOp where
  | plus | minus
deriving DecidableEq, Repr

/-- The operators of the middle precedence. -/
inductive MulOp where
  | times | divide
deriving DecidableEq, Repr

/-- The character of an additive operator. -/
def AddOp.char : AddOp → Char
  | .plus => '+'
  | .minus => '-'

/-- The character of a multiplicative operator. -/
def MulOp.char : MulOp → Char
  | .times => '*'
  | .divide => '/'

/-- The sum or difference of two integers. -/
def AddOp.eval : AddOp → Int → Int → Int
  | .plus, a, b => a + b
  | .minus, a, b => a - b

/-- The product or integer quotient of two natural numbers. -/
def MulOp.eval : MulOp → Nat → Nat → Nat
  | .times, a, b => a * b
  | .divide, a, b => a / b

/-- A literal as it stands in the input: a run of digits, with some spaces
before it and some after it. -/
structure Literal where
  pre : Nat
  digits : List Char
  post : Nat
deriving DecidableEq, Repr

/-- A literal is a non-empty run of decimal digits. -/
def Literal.WellFormed (l : Literal) : Prop :=
  l.digits ≠ [] ∧ ∀ c ∈ l.digits, isDigit c = true

instance (l : Literal) : Decidable l.WellFormed := by
  unfold Literal.WellFormed; infer_instance

/-- The number a run of digits denotes in base ten, continuing from `v`. -/
def digitsValue (v : Nat) (ds : List Char) : Nat :=
  ds.foldl (fun v c => 10 * v + (c.toNat - 48)) v

/-- The number a literal denotes. -/
def Literal.value (l : Literal) : Nat :=
  digitsValue 0 l.digits

/-- The characters of a literal. -/
def Literal.text (l : Literal) : List Char :=
  List.replicate l.pre ' ' ++ (l.digits ++ List.replicate l.post ' ')

/-- The characters of a well-formed expression: a literal followed by pairs of
an operator and a literal. -/
def flatText (first : Literal) (pairs : List (Operator × Literal)) : List Char :=
  first.text ++ pairs.flatMap (fun p => p.1.char :: p.2.text)

/-- A factor `b ^ e1 ^ ... ^ ek`. -/
structure Factor where
  base : Literal
  exponents : List Literal
deriving Repr

/-- A term `f0 * f1 / f2 ...`: a factor followed by pairs of a multiplicative
operator and a factor. -/
structure Term where
  first : Factor
  rest : List (MulOp × Factor)
deriving Repr

/-- An expression `t0 + t1 - t2 ...`: a term followed by pairs of an additive
operator and a term. -/
structure Expression where
  first : Term
  rest : List (AddOp × Term)
deriving Repr

/-- The characters of a factor. -/
def Factor.text (f : Factor) : List Char :=
  f.base.text ++ f.exponents.flatMap (fun e => '^' :: e.text)

/-- The characters of a term. -/
def Term.text (t : Term) : List Char :=
  t.first.text ++ t.rest.flatMap (fun p => p.1.char :: p.2.text)

/-- The characters of an expression. -/
def Expression.text (e : Expression) : List Char :=
  e.first.text ++ e.rest.flatMap (fun p => p.1.char :: p.2.text)

/-- The value of `b ^ e1 ^ ... ^ ek`, grouped to the right. -/
def tower : Nat → List Nat → Nat
  | b, [] => b
  | b, e :: es => b ^ tower e es

/-- Every number of the tower, and every power formed in it, fits an `int`. -/
def towerSafe : Nat → List Nat → Prop
  | b, [] => b < 9223372036854775808
  | b, e :: es => b < 9223372036854775808 ∧ towerSafe e es ∧
      b ^ tower e es < 9223372036854775808

instance towerSafe.decidable : (b : Nat) → (es : List Nat) → Decidable (towerSafe b es)
  | b, [] => by unfold towerSafe; infer_instance
  | b, e :: es => by
    unfold towerSafe
    have := towerSafe.decidable e es
    infer_instance

/-- The value of a factor: exponentiation groups to the right. -/
def Factor.value (f : Factor) : Nat :=
  tower f.base.value (f.exponents.map Literal.value)

/-- No literal or power of the factor overflows. -/
def Factor.Safe (f : Factor) : Prop :=
  towerSafe f.base.value (f.exponents.map Literal.value)

instance (f : Factor) : Decidable f.Safe := by
  unfold Factor.Safe; infer_instance

/-- The value of a product in progress `acc` continued by the pairs of a
multiplicative operator and a factor, from left to right. -/
def termValueFrom (acc : Nat) : List (MulOp × Factor) → Nat
  | [] => acc
  | (o, f) :: rest => termValueFrom (o.eval acc f.value) rest

/-- Along the product: no factor overflows, no divisor is zero and no
product or quotient overflows. -/
def termSafeFrom (acc : Nat) : List (MulOp × Factor) → Prop
  | [] => True
  | (o, f) :: rest =>
    f.Safe ∧ (o = .divide → f.value ≠ 0) ∧ o.eval acc f.value < 9223372036854775808 ∧
      termSafeFrom (o.eval acc f.value) rest

instance termSafeFrom.decidable :
    (acc : Nat) → (l : List (MulOp × Factor)) → Decidable (termSafeFrom acc l)
  | _, [] => by unfold termSafeFrom; infer_instance
  | acc, (o, f) :: rest => by
    unfold termSafeFrom
    have := termSafeFrom.decidable (o.eval acc f.value) rest
    infer_instance

/-- The value of a term: multiplication and division group to the left. -/
def Term.value (t : Term) : Nat :=
  termValueFrom t.first.value t.rest

/-- Nothing in the term overflows or divides by zero. -/
def Term.Safe (t : Term) : Prop :=
  t.first.Safe ∧ termSafeFrom t.first.value t.rest

instance (t : Term) : Decidable t.Safe := by
  unfold Term.Safe; infer_instance

/-- The value of a sum in progress `acc` continued by the pairs of an additive
operator and a term, from left to right. -/
def expressionValueFrom (acc : Int) : List (AddOp × Term) → Int
  | [] => acc
  | (o, t) :: rest => expressionValueFrom (o.eval acc t.value) rest

/-- Along the sum: no term overflows or divides by zero, and no sum or
difference overflows. -/
def expressionSafeFrom (acc : Int) : List (AddOp × Term) → Prop
  | [] => True
  | (o, t) :: rest =>
    t.Safe ∧ InRange (o.eval acc t.value) ∧ expressionSafeFrom (o.eval acc t.value) rest

instance expressionSafeFrom.decidable :
    (acc : Int) → (l : List (AddOp × Term)) → Decidable (expressionSafeFrom acc l)
  | _, [] => by unfold expressionSafeFrom; infer_instance
  | acc, (o, t) :: rest => by
    unfold expressionSafeFrom
    have := expressionSafeFrom.decidable (o.eval acc t.value) rest
    infer_instance

/-- The value of an expression under the conventional rules: addition and
subtraction group to the left, and bind less tightly than the terms. -/
def Expression.value (e : Expression) : Int :=
  expressionValueFrom (e.first.value : Int) e.rest

/-- No literal and no intermediate value of the expression overflows the
native integer, and no division has a zero divisor. -/
def Expression.Safe (e : Expression) : Prop :=
  e.first.Safe ∧ expressionSafeFrom (e.first.value : Int) e.rest

instance (e : Expression) : Decidable e.Safe := by
  unfold Expression.Safe; infer_instance

/-- The expression that starts with the literal `l`, followed by the operator
`o` and the expression `e`, grouped by precedence and associativity. -/
def Expression.cons (l : Literal) (o : Operator) (e : Expression) : Expression :=
  match o with
  | .power =>
    ⟨⟨⟨l, e.first.first.base :: e.first.first.exponents⟩, e.first.rest⟩, e.rest⟩
  | .times => ⟨⟨⟨l, []⟩, (.times, e.first.first) :: e.first.rest⟩, e.rest⟩
  | .divide => ⟨⟨⟨l, []⟩, (.divide, e.first.first) :: e.first.rest⟩, e.rest⟩
  | .plus => ⟨⟨⟨l, []⟩, []⟩, (.plus, e.first) :: e.rest⟩
  | .minus => ⟨⟨⟨l, []⟩, []⟩, (.minus, e.first) :: e.rest⟩

/-- The conventional reading of a literal followed by pairs of an operator and
a literal: `^` binds tighter than `*` and `/`, which bind tighter than `+` and
`-`. -/
def parse (first : Literal) : List (Operator × Literal) → Expression
  | [] => ⟨⟨⟨first, []⟩, []⟩, []⟩
  | (o, l) :: pairs => Expression.cons first o (parse l pairs)

/-- Every literal of the factor is a non-empty run of digits. -/
def Factor.WellFormed (f : Factor) : Prop :=
  f.base.WellFormed ∧ ∀ e ∈ f.exponents, e.WellFormed

/-- Every literal of the term is a non-empty run of digits. -/
def Term.WellFormed (t : Term) : Prop :=
  t.first.WellFormed ∧ ∀ p ∈ t.rest, p.2.WellFormed

/-- Every literal of the expression is a non-empty run of digits. -/
def Expression.WellFormed (e : Expression) : Prop :=
  e.first.WellFormed ∧ ∀ p ∈ e.rest, p.2.WellFormed

/-! ## The stacks during the scan of a well-formed expression -/

/-- The input does not go on with a digit: it is over or its first character is
not a digit. -/
def NoLeadingDigit (rest : List Char) : Prop :=
  ∀ c ∈ rest.head?, isDigit c = false

/-- An incoming `^` leaves the operator on top of the stack alone. -/
def PowStops (ops : Stack Char) : Prop :=
  ∀ op ∈ ops.head?, shouldApply op '^' = .ok false

/-- The operand stack after the numbers have been pushed one by one. -/
def pushAll : List Nat → Stack Int → Stack Int
  | [], s => s
  | x :: xs, s => pushAll xs (Stack.Push s (x : Int))

/-- The stacks when a factor has just been scanned, in terms of the values
they stand for: the sum so far with its pending operator, the product so far
with its pending operator, and the base and exponents of the factor. -/
structure Frame where
  add : Option (Int × AddOp)
  mul : Option (Nat × MulOp)
  base : Nat
  exps : List Nat

/-- The value of the term the frame is in, up to the factor just scanned. -/
def Frame.termValue (f : Frame) : Nat :=
  match f.mul with
  | none => tower f.base f.exps
  | some (acc, o) => o.eval acc (tower f.base f.exps)

/-- The value of the expression up to the factor just scanned. -/
def Frame.value (f : Frame) : Int :=
  match f.add with
  | none => (f.termValue : Int)
  | some (acc, o) => o.eval acc (f.termValue : Int)

/-- The operands below the current term. -/
def Frame.addOperands (f : Frame) : Stack Int :=
  match f.add with
  | none => []
  | some (acc, _) => [acc]

/-- The operators below the current term. -/
def Frame.addOperators (f : Frame) : Stack Char :=
  match f.add with
  | none => []
  | some (_, o) => [o.char]

/-- The operands below the current factor. -/
def Frame.mulOperands (f : Frame) : Stack Int :=
  match f.mul with
  | none => f.addOperands
  | some (acc, _) => (acc : Int) :: f.addOperands

/-- The operators below the current factor. -/
def Frame.mulOperators (f : Frame) : Stack Char :=
  match f.mul with
  | none => f.addOperators
  | some (_, o) => o.char :: f.addOperators

/-- The globals a frame stands for. -/
def Frame.globals (f : Frame) (out : List String) : Globals :=
  ⟨pushAll f.exps (Stack.Push f.mulOperands (f.base : Int)),
    List.replicate f.exps.length '^' ++ f.mulOperators, out⟩

/-- The factor of the frame and the pending product can be computed without
overflow or division by zero. -/
def Frame.SafeTerm (f : Frame) : Prop :=
  towerSafe f.base f.exps ∧
    match f.mul with
    | none => True
    | some (acc, o) =>
      (o = .divide → tower f.base f.exps ≠ 0) ∧
        o.eval acc (tower f.base f.exps) < 9223372036854775808

/-- The whole frame can be computed without overflow or division by zero. -/
def Frame.SafeAll (f : Frame) : Prop :=
  f.SafeTerm ∧ InRange f.value

/-! ## Observing a run -/

/-- The result with the printed lines replaced by `out`. -/
def Result.withOut {α : Type} (out : List String) : Result α → Result α
  | .ok a g => .ok a ⟨g.operandStack, g.operatorStack, out⟩
  | .panic p g => .panic p ⟨g.operandStack, g.operatorStack, out⟩
  | .timeout => .timeout

/-- The result without the printed lines: how the call ended, and the
stacks. -/
def Result.silent {α : Type} (r : Result α) : Result α :=
  r.withOut []

/-- The last line printed by a call that returned. -/
def Result.finalLine {α : Type} : Result α → Option String
  | .ok _ g => g.stdout.getLast?
  | _ => none

/-- The input with every parenthesis replaced by a space. -/
def deparen (expr : List Char) : List Char :=
  expr.map (fun c => if c = '(' ∨ c = ')' then ' ' else c)

/-- The configurations at the top of the scan loop of `evaluate` called on
`expr` with the globals `g0`: the flag `operandExpected`, the input from index
`i` on, and the globals. -/
inductive ScanReaches (expr : List Char) (g0 : Globals) : Bool → List Char → Globals → Prop
  | start : ScanReaches expr g0 true expr g0
  | step {flag : Bool} {c : Char} {cs : List Char} {g : Globals} {flag1 : Bool}
      {rest : List Char} {g1 : Globals} :
      ScanReaches expr g0 flag (c :: cs) g →
      scanStep flag c cs g = .ok (flag1, rest) g1 →
      ScanReaches expr g0 flag1 rest g1

/-- The globals at the top of the inner loop of the operator case, entered
with the globals `g0` for the incoming operator `c`. -/
inductive PendingReaches (c : Char) (g0 : Globals) : Globals → Prop
  | start : PendingReaches c g0 g0
  | step {g g1 : Globals} {op : Char} :
      PendingReaches c g0 g →
      Stack.Top g.operatorStack = some op →
      shouldApply op c = .ok true →
      apply g = .ok () g1 →
      PendingReaches c g0 g1

/-- The globals at the top of the final loop, entered with the globals `g0`. -/
inductive DrainReaches (g0 : Globals) : Globals → Prop
  | start : DrainReaches g0 g0
  | step {g g1 : Globals} :
      DrainReaches g0 g →
      Stack.IsEmpty g.operatorStack = false →
      apply g = .ok () g1 →
      DrainReaches g0 g1

/-- During `evaluate` called on `expr` with the globals `g0`, `apply` is called
with the globals `g`: either from the inner loop of the operator case or from
the final loop. -/
inductive AppliesAt (expr : List Char) (g0 : Globals) : Globals → Prop
  | pending {c : Char} {cs : List Char} {gs g : Globals} {op : Char} :
      ScanReaches expr g0 false (c :: cs) gs →
      (c = '+' ∨ c = '-' ∨ c = '*' ∨ c = '/' ∨ c = '^') →
      PendingReaches c gs g →
      Stack.Top g.operatorStack = some op →
      shouldApply op c = .ok true →
      AppliesAt expr g0 g
  | drain {gs g : Globals} :
      scan true expr g0 = .ok () gs →
      DrainReaches gs g →
      Stack.IsEmpty g.operatorStack = false →
      AppliesAt expr g0 g

/-! ## The rule of the specification for pending operators -/

/-- The precedence table of the specification: `+` and `-` have rank 0, `*`
and `/` rank 1, `^` rank 2. -/
def specRank : Operator → Nat
  | .plus => 0
  | .minus => 0
  | .times => 1
  | .divide => 1
  | .power => 2

/-- The associativity table of the specification: only `^` is
right-associative, all others are left-associative. -/
def specLeftAssociative : Operator → Bool
  | .power => false
  | _ => true

/-- The rule of the specification for an operator already on the stack and an
incoming operator: pop and apply when the precedence of the one on the stack is
strictly greater than that of the incoming one, or equal and the incoming
operator is left-associative. -/
def specShouldApply (top incoming : Operator) : Bool :=
  decide (specRank top > specRank incoming) ||
    (decide (specRank top = specRank incoming) && specLeftAssociative incoming)

/-! ## The shape of the stacks -/

/-- The shape of the stacks at the top of the scan loop: every operator on the
operator stack is one of the five, and the operand stack holds as many values
as the operator stack when an operand is expected, and one more when an
operator is expected. -/
def Balanced (operandExpected : Bool) (g : Globals) : Prop :=
  (∀ op ∈ g.operatorStack, op = '+' ∨ op = '-' ∨ op = '*' ∨ op = '/' ∨ op = '^') ∧
    g.operandStack.length = g.operatorStack.length + (if operandExpected then 0 else 1)

/-! ## The history of a run -/

/-- How a value on the operand stack came about: pushed by the digit case,
pushed by `apply` for `^`, or pushed by `apply` for another operator. -/
inductive Origin where
  | literal
  | power
  | other
deriving DecidableEq, Repr

/-- What has happened so far in a run, next to the globals: the number of
operands pushed by the scan, the number of calls of `apply` that have returned,
the origin of every value on the operand stack (top first), and whether every
literal and every result so far was computed without overflow. -/
structure Ghost where
  pushed : Nat
  applied : Nat
  origins : List Origin
  exact : Bool
deriving DecidableEq, Repr

/-- The history at the start of the evaluation of a line. -/
def Ghost.start : Ghost := ⟨0, 0, [], true⟩

/-- The digit run at the head of the input denotes a number that fits an
`int`. -/
def literalExact (input : List Char) : Bool :=
  decide (digitsValue 0 (input.takeWhile isDigit) < 9223372036854775808)

/-- The operation that `apply` performs for `op` on `left` and `right` does not
overflow: the exact result fits an `int` (for `^` every product on the way to
the power then fits as well). -/
def applyExact (op : Char) (left right : Int) : Bool :=
  if op = '+' then decide (InRange (left + right))
  else if op = '-' then decide (InRange (left - right))
  else if op = '*' then decide (InRange (left * right))
  else if op = '/' then decide (InRange (Int.tdiv left right))
  else if op = '^' then decide (InRange (left ^ right.toNat))
  else true

/-- The history after the scan has pushed a literal. -/
def Ghost.afterPush (gh : Ghost) (e : Bool) : Ghost :=
  ⟨gh.pushed + 1, gh.applied, Origin.literal :: gh.origins, gh.exact && e⟩

/-- The history after a call of `apply` has returned. -/
def Ghost.afterApply (gh : Ghost) (op : Char) (e : Bool) : Ghost :=
  ⟨gh.pushed, gh.applied + 1,
    (if op = '^' then Origin.power else Origin.other) :: gh.origins.drop 2, gh.exact && e⟩

/-- The inner loop of the operator case ends at these globals: the operator
stack is empty or the test fails for the operator on top. -/
def PendingStops (c : Char) (g : Globals) : Prop :=
  ∀ op ∈ Stack.Top g.operatorStack, shouldApply op c = .ok false

/-- The globals and the history at the top of the inner loop of the operator
case, entered with `g0` and `gh0` for the incoming operator `c`. -/
inductive PendingTrace (c : Char) (g0 : Globals) (gh0 : Ghost) : Globals → Ghost → Prop
  | start : PendingTrace c g0 gh0 g0 gh0
  | step {gh : Ghost} {right left : Int} {vs : Stack Int} {op : Char} {ops : Stack Char}
      {out : List String} {g1 : Globals} :
      PendingTrace c g0 gh0 ⟨right :: left :: vs, op :: ops, out⟩ gh →
      shouldApply op c = .ok true →
      apply ⟨right :: left :: vs, op :: ops, out⟩ = .ok () g1 →
      PendingTrace c g0 gh0 g1 (gh.afterApply op (applyExact op left right))

/-- The globals and the history at the top of the final loop, entered with `g0`
and `gh0`. -/
inductive DrainTrace (g0 : Globals) (gh0 : Ghost) : Globals → Ghost → Prop
  | start : DrainTrace g0 gh0 g0 gh0
  | step {gh : Ghost} {right left : Int} {vs : Stack Int} {op : Char} {ops : Stack Char}
      {out : List String} {g1 : Globals} :
      DrainTrace g0 gh0 ⟨right :: left :: vs, op :: ops, out⟩ gh →
      apply ⟨right :: left :: vs, op :: ops, out⟩ = .ok () g1 →
      DrainTrace g0 gh0 g1 (gh.afterApply op (applyExact op left right))

/-- The configurations at the top of the scan loop of `evaluate` called on
`expr` with the globals `g0`, each with the history of the run up to it. -/
inductive ScanTrace (expr : List Char) (g0 : Globals) :
    Bool → List Char → Globals → Ghost → Prop
  | start : ScanTrace expr g0 true expr g0 Ghost.start
  | digit {c : Char} {cs : List Char} {g : Globals} {gh : Ghost} :
      ScanTrace expr g0 true (c :: cs) g gh →
      isDigit c = true →
      ScanTrace expr g0 false (digitLoop 0 (c :: cs)).2
        ⟨Stack.Push g.operandStack (digitLoop 0 (c :: cs)).1, g.operatorStack, g.stdout⟩
        (gh.afterPush (literalExact (c :: cs)))
  | operator {c : Char} {cs : List Char} {g g1 : Globals} {gh gh1 : Ghost} :
      ScanTrace expr g0 false (c :: cs) g gh →
      (c = '+' ∨ c = '-' ∨ c = '*' ∨ c = '/' ∨ c = '^') →
      PendingTrace c g gh g1 gh1 →
      PendingStops c g1 →
      ScanTrace expr g0 true cs
        ⟨g1.operandStack, Stack.Push g1.operatorStack c, g1.stdout⟩ gh1
  | skip {flag : Bool} {c : Char} {cs : List Char} {g g1 : Globals} {gh : Ghost} :
      ScanTrace expr g0 flag (c :: cs) g gh →
      (c = '(' ∨ c = ')' ∨ c = ' ') →
      scanStep flag c cs g = .ok (flag, cs) g1 →
      ScanTrace expr g0 flag cs g1 gh

/-- The instants of an evaluation at the top of one of its loops: the scan
loop, the inner loop of the operator case, or the final loop. -/
inductive LoopInstant (expr : List Char) (g0 : Globals) : Globals → Ghost → Prop
  | scan {flag : Bool} {rest : List Char} {g : Globals} {gh : Ghost} :
      ScanTrace expr g0 flag rest g gh → LoopInstant expr g0 g gh
  | pending {c : Char} {cs : List Char} {gs g : Globals} {ghs gh : Ghost} :
      ScanTrace expr g0 false (c :: cs) gs ghs →
      (c = '+' ∨ c = '-' ∨ c = '*' ∨ c = '/' ∨ c = '^') →
      PendingTrace c gs ghs g gh →
      LoopInstant expr g0 g gh
  | drain {flag : Bool} {gs g : Globals} {ghs gh : Ghost} :
      ScanTrace expr g0 flag [] gs ghs →
      DrainTrace gs ghs g gh →
      LoopInstant expr g0 g gh

/-- The instants of an evaluation: the tops of its loops, and the instant after
the final `Pop` has taken the result off the operand stack, before it is
printed. -/
inductive Instant (expr : List Char) (g0 : Globals) : Globals → Ghost → Prop
  | loop {g : Globals} {gh : Ghost} : LoopInstant expr g0 g gh → Instant expr g0 g gh
  | result {flag : Bool} {gs g : Globals} {ghs gh : Ghost} :
      ScanTrace expr g0 flag [] gs ghs →
      DrainTrace gs ghs g gh →
      Stack.IsEmpty g.operatorStack = true →
      Instant expr g0 ⟨(Stack.Pop g.operandStack).2, g.operatorStack, g.stdout⟩ gh

/-- The instants at which `apply` is called, with the history up to the call;
the flag tells whether the call comes from the final loop after an input that
ended where an operand was expected. -/
inductive ApplyInstant (expr : List Char) (g0 : Globals) : Bool → Globals → Ghost → Prop
  | pending {c : Char} {cs : List Char} {gs g : Globals} {ghs gh : Ghost} {op : Char} :
      ScanTrace expr g0 false (c :: cs) gs ghs →
      (c = '+' ∨ c = '-' ∨ c = '*' ∨ c = '/' ∨ c = '^') →
      PendingTrace c gs ghs g gh →
      Stack.Top g.operatorStack = some op →
      shouldApply op c = .ok true →
      ApplyInstant expr g0 false g gh
  | drain {flag : Bool} {gs g : Globals} {ghs gh : Ghost} :
      ScanTrace expr g0 flag [] gs ghs →
      DrainTrace gs ghs g gh →
      Stack.IsEmpty g.operatorStack = false →
      ApplyInstant expr g0 flag g gh

/-- Every operator above a `^` on the operator stack is a `^`. -/
def PowersOnTop : List Char → Prop
  | a :: b :: rest => (b = '^' → a = '^') ∧ PowersOnTop (b :: rest)
  | _ => True

/-- Each `^` of the list is paired with the origin `literal`. -/
def LeftsLiteral : List Char → List Origin → Prop
  | op :: ops, o :: os => (op = '^' → o = Origin.literal) ∧ LeftsLiteral ops os
  | _, _ => True

/-- Every value whose origin is `literal` is non-negative. -/
def LiteralsNonneg : List Origin → List Int → Prop
  | o :: os, v :: vs => (o = Origin.literal → 0 ≤ v) ∧ LiteralsNonneg os vs
  | _, _ => True

/-- What the histories guarantee about `^` when an operator is expected or a
loop of `apply` calls is running: the `^` operators are on top; the operand
that will be the left operand of a `^` is a literal (in the final loop after
an input that ended where an operand was expected, `shifted`, each operator
meets the operands of the one above it); with `^` on top, the top operand is
a literal or the result of a `^` and, without overflow so far, not negative;
and without overflow so far no literal is negative. -/
def PowerInv (shifted : Bool) (g : Globals) (gh : Ghost) : Prop :=
  gh.origins.length = g.operandStack.length ∧
  PowersOnTop g.operatorStack ∧
  LeftsLiteral (if shifted then g.operatorStack.tail else g.operatorStack) gh.origins.tail ∧
  (g.operatorStack.head? = some '^' →
    ∃ o v os vs, gh.origins = o :: os ∧ g.operandStack = v :: vs ∧
      (o = Origin.literal ∨ o = Origin.power) ∧ (gh.exact = true → 0 ≤ v)) ∧
  (gh.exact = true → LiteralsNonneg gh.origins g.operandStack)

/-- What the histories guarantee about `^` when an operand is expected: the
`^` operators are on top, the operand beneath each `^` is a literal, and
without overflow so far no literal is negative. -/
def GapInv (g : Globals) (gh : Ghost) : Prop :=
  gh.origins.length = g.operandStack.length ∧
  PowersOnTop g.operatorStack ∧
  LeftsLiteral g.operatorStack gh.origins ∧
  (gh.exact = true → LiteralsNonneg gh.origins g.operandStack)

/-! ## Unfolding the loops -/

/-- A call of `apply` that returns has removed exactly one operator. -/
theorem apply_ok_length {g g1 : Globals} {u : Unit} (h : apply g = .ok u g1) :
    g.operatorStack.length = g1.operatorStack.length + 1 := by
  obtain ⟨operands, operators, out⟩ := g
  cases operators with
  | nil => simp [apply, Stack.Pop] at h
  | cons op ops =>
    cases operands with
    | nil => simp [apply, Stack.Pop] at h
    | cons r s1 =>
      cases s1 with
      | nil => simp [apply, Stack.Pop] at h
      | cons l s2 =>
        simp only [apply, Stack.Pop] at h
        split_ifs at h <;> simp at h <;> (obtain ⟨-, rfl⟩ := h; simp)

/-- Any step budget of at least the size of the operator stack gives the same
result for the inner loop of the operator case. -/
theorem pendingLoop_fuel (c : Char) :
    ∀ (n : Nat) (g : Globals), g.operatorStack.length ≤ n →
      pendingLoop c n g = pending c g := by
  intro n
  induction n with
  | zero =>
    intro g hg
    have : g.operatorStack.length = 0 := by omega
    simp [pending, this]
  | succ n ih =>
    intro g hg
    obtain ⟨operands, operators, out⟩ := g
    cases operators with
    | nil => simp [pending, pendingLoop, Stack.IsEmpty]
    | cons op ops =>
      simp only [pending, List.length_cons]
      rw [pendingLoop, pendingLoop]
      simp only [Stack.IsEmpty, Stack.Top]
      cases hs : shouldApply op c with
      | error p => simp
      | ok b =>
        cases b with
        | false => simp
        | true =>
          simp only []
          cases ha : apply ⟨operands, op :: ops, out⟩ with
          | ok u g1 =>
            have hl := apply_ok_length ha
            simp only [List.length_cons] at hl hg
            simp only []
            rw [ih g1 (by omega), pending]
            have : ops.length = g1.operatorStack.length := by omega
            rw [this]
          | panic p g1 => simp
          | timeout => simp

/-- With an empty operator stack the inner loop of the operator case ends at
once. -/
theorem pending_nil (c : Char) (operands : Stack Int) (out : List String) :
    pending c ⟨operands, [], out⟩ = .ok () ⟨operands, [], out⟩ := by
  simp [pending, pendingLoop, Stack.IsEmpty]

/-- One iteration of the inner loop of the operator case, with `op` on top of
the operator stack. -/
theorem pending_cons (c op : Char) (ops : Stack Char) (operands : Stack Int)
    (out : List String) :
    pending c ⟨operands, op :: ops, out⟩ =
      match shouldApply op c with
      | .error p => .panic p ⟨operands, op :: ops, out⟩
      | .ok false => .ok () ⟨operands, op :: ops, out⟩
      | .ok true =>
        match apply ⟨operands, op :: ops, out⟩ with
        | .ok _ g1 => pending c g1
        | .panic p g1 => .panic p g1
        | .timeout => .timeout := by
  simp only [pending, List.length_cons]
  rw [pendingLoop]
  simp only [Stack.IsEmpty, Stack.Top]
  cases hs : shouldApply op c with
  | error p => simp
  | ok b =>
    cases b with
    | false => simp
    | true =>
      simp only []
      cases ha : apply ⟨operands, op :: ops, out⟩ with
      | ok u g1 =>
        have hl := apply_ok_length ha
        simp only [List.length_cons] at hl
        simp only []
        exact pendingLoop_fuel c _ g1 (by omega)
      | panic p g1 => simp
      | timeout => simp

/-- Any step budget of at least the size of the operator stack gives the same
result for the final loop. -/
theorem drainLoop_fuel :
    ∀ (n : Nat) (g : Globals), g.operatorStack.length ≤ n → drainLoop n g = drain g := by
  intro n
  induction n with
  | zero =>
    intro g hg
    have : g.operatorStack.length = 0 := by omega
    simp [drain, this]
  | succ n ih =>
    intro g hg
    obtain ⟨operands, operators, out⟩ := g
    cases operators with
    | nil => simp [drain, drainLoop, Stack.IsEmpty]
    | cons op ops =>
      simp only [drain, List.length_cons]
      rw [drainLoop, drainLoop]
      simp only [Stack.IsEmpty]
      cases ha : apply ⟨operands, op :: ops, out⟩ with
      | ok u g1 =>
        have hl := apply_ok_length ha
        simp only [List.length_cons] at hl hg
        simp only []
        rw [ih g1 (by omega), drain]
        have : ops.length = g1.operatorStack.length := by omega
        simp [this]
      | panic p g1 => simp
      | timeout => simp

/-- With an empty operator stack the final loop ends at once. -/
theorem drain_nil (operands : Stack Int) (out : List String) :
    drain ⟨operands, [], out⟩ = .ok () ⟨operands, [], out⟩ := by
  simp [drain, drainLoop, Stack.IsEmpty]

/-- One iteration of the final loop. -/
theorem drain_cons (op : Char) (ops : Stack Char) (operands : Stack Int)
    (out : List String) :
    drain ⟨operands, op :: ops, out⟩ =
      match apply ⟨operands, op :: ops, out⟩ with
      | .ok _ g1 => drain g1
      | .panic p g1 => .panic p g1
      | .timeout => .timeout := by
  simp only [drain, List.length_cons]
  rw [drainLoop]
  simp only [Stack.IsEmpty]
  cases ha : apply ⟨operands, op :: ops, out⟩ with
  | ok u g1 =>
    have hl := apply_ok_length ha
    simp only [List.length_cons] at hl
    simp only []
    exact drainLoop_fuel _ g1 (by omega)
  | panic p g1 => simp
  | timeout => simp

/-- The digit loop returns a suffix of its input. -/
theorem digitLoop_length (v : Int) (l : List Char) :
    (digitLoop v l).2.length ≤ l.length := by
  induction l generalizing v with
  | nil => simp [digitLoop]
  | cons c cs ih =>
    rw [digitLoop]
    split_ifs
    · exact Nat.le_succ_of_le (ih _)
    · simp

theorem isDigit_of_operator {c : Char}
    (h : c = '+' ∨ c = '-' ∨ c = '*' ∨ c = '/' ∨ c = '^') : isDigit c = false := by
  rcases h with h | h | h | h | h <;> subst h <;> decide

/-- The digit case when an operand is expected: the whole digit run is consumed
and its value pushed. -/
theorem scanStep_digit {c : Char} (hd : isDigit c = true) (cs : List Char) (g : Globals) :
    scanStep true c cs g =
      .ok (false, (digitLoop 0 (c :: cs)).2)
        ⟨Stack.Push g.operandStack (digitLoop 0 (c :: cs)).1, g.operatorStack, g.stdout⟩ := by
  rw [scanStep, if_pos hd]; rfl

/-- The digit case when an operator is expected. -/
theorem scanStep_digit_unexpected {c : Char} (hd : isDigit c = true) (cs : List Char)
    (g : Globals) :
    scanStep false c cs g = .panic (.text "operator expected but operand found") g := by
  rw [scanStep, if_pos hd]; rfl

/-- The operator case when an operator is expected. -/
theorem scanStep_operator {c : Char}
    (hc : c = '+' ∨ c = '-' ∨ c = '*' ∨ c = '/' ∨ c = '^') (cs : List Char) (g : Globals) :
    scanStep false c cs g =
      match pending c g with
      | .ok _ g1 => .ok (true, cs) ⟨g1.operandStack, Stack.Push g1.operatorStack c, g1.stdout⟩
      | .panic p g1 => .panic p g1
      | .timeout => .timeout := by
  rw [scanStep, if_neg (by simp [isDigit_of_operator hc]), if_pos hc]; rfl

/-- The operator case when an operand is expected. -/
theorem scanStep_operator_unexpected {c : Char}
    (hc : c = '+' ∨ c = '-' ∨ c = '*' ∨ c = '/' ∨ c = '^') (cs : List Char) (g : Globals) :
    scanStep true c cs g = .panic (.text "operand expected but operator found") g := by
  rw [scanStep, if_neg (by simp [isDigit_of_operator hc]), if_pos hc]; rfl

/-- The case of an open parenthesis. -/
theorem scanStep_open (oe : Bool) (cs : List Char) (g : Globals) :
    scanStep oe '(' cs g =
      .ok (oe, cs) ⟨g.operandStack, g.operatorStack,
        g.stdout ++ ["'(' is an open parenthesis"]⟩ := by
  rw [scanStep, if_neg (by decide), if_neg (by decide), if_pos rfl]
  congr 2

/-- The case of a close parenthesis. -/
theorem scanStep_close (oe : Bool) (cs : List Char) (g : Globals) :
    scanStep oe ')' cs g =
      .ok (oe, cs) ⟨g.operandStack, g.operatorStack,
        g.stdout ++ ["')' is a close parenthesis"]⟩ := by
  rw [scanStep, if_neg (by decide), if_neg (by decide), if_neg (by decide), if_pos rfl]
  congr 2

/-- The case of a space. -/
theorem scanStep_space (oe : Bool) (cs : List Char) (g : Globals) :
    scanStep oe ' ' cs g = .ok (oe, cs) g := by
  rw [scanStep, if_neg (by decide), if_neg (by decide), if_neg (by decide),
    if_neg (by decide), if_pos rfl]

/-- An iteration of the scan loop that goes on consumes at least the character
it looked at. -/
theorem scanStep_length {oe : Bool} {c : Char} {cs : List Char} {g g1 : Globals}
    {flag : Bool} {rest : List Char}
    (h : scanStep oe c cs g = .ok (flag, rest) g1) : rest.length ≤ cs.length := by
  by_cases hd : isDigit c = true
  · cases oe with
    | false => rw [scanStep_digit_unexpected hd] at h; cases h
    | true =>
      rw [scanStep_digit hd] at h
      simp only [Result.ok.injEq, Prod.mk.injEq] at h
      rw [← h.1.2, digitLoop, if_pos hd]
      exact digitLoop_length _ cs
  · by_cases hc : c = '+' ∨ c = '-' ∨ c = '*' ∨ c = '/' ∨ c = '^'
    · cases oe with
      | true => rw [scanStep_operator_unexpected hc] at h; cases h
      | false =>
        rw [scanStep_operator hc] at h
        cases hp : pending c g with
        | ok u g2 =>
          rw [hp] at h
          simp only [Result.ok.injEq, Prod.mk.injEq] at h
          rw [← h.1.2]
        | panic p g2 => rw [hp] at h; cases h
        | timeout => rw [hp] at h; cases h
    · rw [scanStep, if_neg hd, if_neg hc] at h
      split_ifs at h <;>
        first
          | (simp only [Result.ok.injEq, Prod.mk.injEq] at h; rw [← h.1.2])

theorem scanLoop_fuel_eq :
    ∀ (n m : Nat) (oe : Bool) (rest : List Char) (g : Globals),
      rest.length ≤ n → rest.length ≤ m → scanLoop n oe rest g = scanLoop m oe rest g := by
  intro n
  induction n with
  | zero =>
    intro m oe rest g h _
    have : rest = [] := List.length_eq_zero.mp (by omega)
    subst this; simp [scanLoop]
  | succ n ih =>
    intro m oe rest g h hm
    cases rest with
    | nil => simp [scanLoop]
    | cons c cs =>
      cases m with
      | zero => simp at hm
      | succ m =>
        rw [scanLoop, scanLoop]
        cases hs : scanStep oe c cs g with
        | ok a g1 =>
          obtain ⟨flag, rest1⟩ := a
          have hl := scanStep_length hs
          simp only [List.length_cons] at h hm
          exact ih m flag rest1 g1 (by omega) (by omega)
        | panic p g1 => rfl
        | timeout => rfl

/-- Any step budget of at least the length of the input gives the same result
for the scan loop. -/
theorem scanLoop_fuel (n : Nat) (oe : Bool) (rest : List Char) (g : Globals)
    (h : rest.length ≤ n) : scanLoop n oe rest g = scan oe rest g :=
  scanLoop_fuel_eq n rest.length oe rest g h (le_refl _)

/-- At the end of the input the scan loop returns. -/
theorem scan_nil (oe : Bool) (g : Globals) : scan oe [] g = .ok () g := by
  simp [scan, scanLoop]

/-- One iteration of the scan loop. -/
theorem scan_cons (oe : Bool) (c : Char) (cs : List Char) (g : Globals) :
    scan oe (c :: cs) g =
      match scanStep oe c cs g with
      | .ok (flag, rest) g1 => scan flag rest g1
      | .panic p g1 => .panic p g1
      | .timeout => .timeout := by
  simp only [scan, List.length_cons]
  rw [scanLoop]
  cases hs : scanStep oe c cs g with
  | ok a g1 =>
    obtain ⟨flag, rest1⟩ := a
    simp only []
    exact scanLoop_fuel _ flag rest1 g1 (scanStep_length hs)
  | panic p g1 => simp
  | timeout => simp

/-! ## Exact arithmetic -/

/-- A value in range is not changed by the reduction to 64 bits. -/
theorem wrapInt_of_inRange {x : Int} (h : InRange x) : wrapInt x = x := by
  unfold InRange at h
  unfold wrapInt
  omega

theorem inRange_natCast {n : Nat} (h : n < 9223372036854775808) : InRange (n : Int) := by
  unfold InRange
  omega

theorem isDigit_bounds {c : Char} (h : isDigit c = true) : 48 ≤ c.toNat ∧ c.toNat ≤ 57 := by
  simp only [isDigit, Bool.and_eq_true, decide_eq_true_eq] at h
  obtain ⟨h1, h2⟩ := h
  have h1' : '0'.val ≤ c.val := h1
  have h2' : c.val ≤ '9'.val := h2
  rw [UInt32.le_def] at h1' h2'
  constructor
  · exact h1'
  · exact h2'

theorem le_digitsValue (ds : List Char) (v : Nat) : v ≤ digitsValue v ds := by
  induction ds generalizing v with
  | nil => simp [digitsValue]
  | cons c cs ih =>
    have := ih (10 * v + (c.toNat - 48))
    simp only [digitsValue, List.foldl_cons] at this ⊢
    omega

/-- The digit loop on a digit run whose value fits an `int`: the value is
exact. -/
theorem digitLoop_digits (rest : List Char) (hr : NoLeadingDigit rest) :
    ∀ (ds : List Char) (v : Nat), (∀ c ∈ ds, isDigit c = true) →
      digitsValue v ds < 9223372036854775808 →
      digitLoop (v : Int) (ds ++ rest) = (((digitsValue v ds : Nat) : Int), rest) := by
  intro ds
  induction ds with
  | nil =>
    intro v _ _
    cases rest with
    | nil => simp [digitLoop, digitsValue]
    | cons c cs =>
      have : isDigit c = false := hr c (by simp)
      simp [digitLoop, digitsValue, this]
  | cons d ds ih =>
    intro v hd hv
    have hdig : isDigit d = true := hd d (by simp)
    have hb := isDigit_bounds hdig
    have hle := le_digitsValue ds (10 * v + (d.toNat - 48))
    have hv' : digitsValue (10 * v + (d.toNat - 48)) ds < 9223372036854775808 := by
      simpa [digitsValue] using hv
    have h0 : '0'.toNat = 48 := rfl
    have e1 : wrapInt (10 * (v : Int)) = 10 * (v : Int) :=
      wrapInt_of_inRange (by unfold InRange; omega)
    have e2 : (d.toNat + 256 - '0'.toNat) % 256 = d.toNat - 48 := by omega
    have e3 : wrapInt (10 * (v : Int) + ((d.toNat - 48 : Nat) : Int))
        = ((10 * v + (d.toNat - 48) : Nat) : Int) := by
      rw [wrapInt_of_inRange (by unfold InRange; omega)]
      push_cast; rfl
    rw [List.cons_append, digitLoop, if_pos hdig, e1, e2, e3]
    rw [ih _ (fun c hc => hd c (by simp [hc])) hv']
    simp [digitsValue]


theorem intPower_loop_nat (b : Nat) :
    ∀ (k pow : Nat), pow * b ^ k < 9223372036854775808 →
      intPower.loop (b : Int) k (pow : Int) = ((pow * b ^ k : Nat) : Int) := by
  intro k
  induction k with
  | zero => intro pow _; simp [intPower.loop]
  | succ k ih =>
    intro pow h
    have hb : pow * b ≤ pow * b ^ (k + 1) := by
      rcases Nat.eq_zero_or_pos b with h0 | h0
      · subst h0; simp
      · apply Nat.mul_le_mul_left
        calc b = b ^ 1 := (pow_one b).symm
          _ ≤ b ^ (k + 1) := Nat.pow_le_pow_right h0 (by omega)
    have e : wrapInt ((pow : Int) * (b : Int)) = ((pow * b : Nat) : Int) := by
      rw [wrapInt_of_inRange]
      · push_cast; rfl
      · have : ((pow * b : Nat) : Int) < 9223372036854775808 := by exact_mod_cast (by omega)
        unfold InRange
        push_cast at this
        constructor
        · have : (0 : Int) ≤ (pow : Int) * (b : Int) := by positivity
          omega
        · exact this
    rw [intPower.loop, e, ih (pow * b) (by rw [Nat.mul_assoc, ← Nat.pow_succ']; exact h)]
    rw [Nat.mul_assoc, ← Nat.pow_succ']

/-- `intPower` is exact when the power fits an `int`. -/
theorem intPower_nat (b n : Nat) (h : b ^ n < 9223372036854775808) :
    intPower (b : Int) (n : Int) = ((b ^ n : Nat) : Int) := by
  have := intPower_loop_nat b n 1 (by simpa using h)
  simpa [intPower] using this

theorem apply_power (x y : Int) (vs : Stack Int) (ops : Stack Char) (out : List String) :
    apply ⟨y :: x :: vs, '^' :: ops, out⟩ = .ok () ⟨intPower x y :: vs, ops, out⟩ := by
  simp [apply, Stack.Pop, Stack.Push]

theorem apply_plus (x y : Int) (vs : Stack Int) (ops : Stack Char) (out : List String) :
    apply ⟨y :: x :: vs, '+' :: ops, out⟩ = .ok () ⟨wrapInt (x + y) :: vs, ops, out⟩ := by
  simp [apply, Stack.Pop, Stack.Push]

theorem apply_minus (x y : Int) (vs : Stack Int) (ops : Stack Char) (out : List String) :
    apply ⟨y :: x :: vs, '-' :: ops, out⟩ = .ok () ⟨wrapInt (x - y) :: vs, ops, out⟩ := by
  simp [apply, Stack.Pop, Stack.Push]

theorem apply_times (x y : Int) (vs : Stack Int) (ops : Stack Char) (out : List String) :
    apply ⟨y :: x :: vs, '*' :: ops, out⟩ = .ok () ⟨wrapInt (x * y) :: vs, ops, out⟩ := by
  simp [apply, Stack.Pop, Stack.Push]

theorem apply_divide (x y : Int) (hy : y ≠ 0) (vs : Stack Int) (ops : Stack Char)
    (out : List String) :
    apply ⟨y :: x :: vs, '/' :: ops, out⟩ = .ok () ⟨wrapInt (Int.tdiv x y) :: vs, ops, out⟩ := by
  simp [apply, Stack.Pop, Stack.Push, hy]

theorem apply_divide_zero (x : Int) (vs : Stack Int) (ops : Stack Char) (out : List String) :
    apply ⟨0 :: x :: vs, '/' :: ops, out⟩ = .panic .divideByZero ⟨vs, ops, out⟩ := by
  simp [apply, Stack.Pop]

/-! ## Scanning literals and powers -/

theorem scan_space (oe : Bool) (cs : List Char) (g : Globals) :
    scan oe (' ' :: cs) g = scan oe cs g := by
  rw [scan_cons, scanStep_space]

theorem scan_spaces (oe : Bool) (n : Nat) (rest : List Char) (g : Globals) :
    scan oe (List.replicate n ' ' ++ rest) g = scan oe rest g := by
  induction n with
  | zero => simp
  | succ n ih => rw [List.replicate_succ, List.cons_append, scan_space, ih]

theorem noLeadingDigit_nil : NoLeadingDigit [] := by
  intro c hc; simp at hc

theorem noLeadingDigit_cons {c : Char} (h : isDigit c = false) (cs : List Char) :
    NoLeadingDigit (c :: cs) := by
  intro d hd
  simp only [List.head?_cons, Option.mem_def, Option.some.injEq] at hd
  rw [← hd]; exact h

theorem noLeadingDigit_spaces (n : Nat) {rest : List Char} (h : NoLeadingDigit rest) :
    NoLeadingDigit (List.replicate n ' ' ++ rest) := by
  cases n with
  | zero => simpa using h
  | succ n => rw [List.replicate_succ, List.cons_append]; exact noLeadingDigit_cons (by decide) _

/-- Scanning a literal whose value fits an `int` pushes that value. -/
theorem scan_literal (l : Literal) (hw : l.WellFormed) (hv : l.value < 9223372036854775808)
    (rest : List Char) (hr : NoLeadingDigit rest) (g : Globals) :
    scan true (l.text ++ rest) g =
      scan false rest ⟨Stack.Push g.operandStack (l.value : Int), g.operatorStack, g.stdout⟩ := by
  obtain ⟨pre, digits, post⟩ := l
  obtain ⟨hne, hd⟩ := hw
  simp only at hne hd
  cases digits with
  | nil => exact absurd rfl hne
  | cons d ds =>
    have h1 := digitLoop_digits (List.replicate post ' ' ++ rest) (noLeadingDigit_spaces post hr)
      (d :: ds) 0 hd hv
    simp only [Literal.text, List.append_assoc]
    rw [scan_spaces, List.cons_append, scan_cons, scanStep_digit (hd d (by simp))]
    simp only [Nat.cast_zero, List.cons_append] at h1
    rw [h1]
    simp only [List.append_assoc]
    rw [scan_spaces]
    rfl


theorem shouldApply_power {c : Char} (hc : c = '+' ∨ c = '-' ∨ c = '*' ∨ c = '/') :
    shouldApply '^' c = .ok true := by
  rcases hc with h | h | h | h <;> subst h <;> rfl

theorem shouldApply_mul {c : Char} (o : MulOp) (hc : c = '+' ∨ c = '-' ∨ c = '*' ∨ c = '/') :
    shouldApply o.char c = .ok true := by
  cases o <;> rcases hc with h | h | h | h <;> subst h <;> rfl

theorem shouldApply_add_add (o : AddOp) (c : AddOp) :
    shouldApply o.char c.char = .ok true := by
  cases o <;> cases c <;> rfl

theorem shouldApply_add_mul (o : AddOp) (c : MulOp) :
    shouldApply o.char c.char = .ok false := by
  cases o <;> cases c <;> rfl

theorem replicate_succ_append (n : Nat) (ops : List Char) :
    List.replicate (n + 1) '^' ++ ops = List.replicate n '^' ++ ('^' :: ops) := by
  rw [List.replicate_succ', List.append_assoc]; rfl

theorem tower_lt_of_safe {b : Nat} {es : List Nat} (h : towerSafe b es) :
    tower b es < 9223372036854775808 := by
  cases es with
  | nil => exact h
  | cons e es => exact h.2.2

/-- An incoming operator other than `^` first applies all the pending `^`, from
the right. -/
theorem pending_power_collapse {c : Char} (hc : c = '+' ∨ c = '-' ∨ c = '*' ∨ c = '/')
    (out : List String) :
    ∀ (es : List Nat) (b : Nat) (vs : Stack Int) (ops : Stack Char), towerSafe b es →
      pending c ⟨pushAll es (Stack.Push vs (b : Int)), List.replicate es.length '^' ++ ops, out⟩
        = pending c ⟨(tower b es : Int) :: vs, ops, out⟩ := by
  intro es
  induction es with
  | nil => intro b vs ops _; rfl
  | cons e es ih =>
    intro b vs ops hs
    obtain ⟨_, hs2, hs3⟩ := hs
    rw [List.length_cons, replicate_succ_append, pushAll, ih e _ _ hs2]
    rw [pending_cons, shouldApply_power hc]
    simp only [Stack.Push]
    rw [apply_power, intPower_nat b (tower e es) hs3]
    rfl

/-- The final loop first applies all the pending `^`, from the right. -/
theorem drain_power_collapse (out : List String) :
    ∀ (es : List Nat) (b : Nat) (vs : Stack Int) (ops : Stack Char), towerSafe b es →
      drain ⟨pushAll es (Stack.Push vs (b : Int)), List.replicate es.length '^' ++ ops, out⟩
        = drain ⟨(tower b es : Int) :: vs, ops, out⟩ := by
  intro es
  induction es with
  | nil => intro b vs ops _; rfl
  | cons e es ih =>
    intro b vs ops hs
    obtain ⟨_, hs2, hs3⟩ := hs
    rw [List.length_cons, replicate_succ_append, pushAll, ih e _ _ hs2]
    rw [drain_cons]
    simp only [Stack.Push]
    rw [apply_power, intPower_nat b (tower e es) hs3]
    rfl

theorem pending_power_stops {ops : Stack Char} (h : PowStops ops) (vs : Stack Int)
    (out : List String) : pending '^' ⟨vs, ops, out⟩ = .ok () ⟨vs, ops, out⟩ := by
  cases ops with
  | nil => exact pending_nil _ _ _
  | cons op ops =>
    rw [pending_cons, h op (by simp)]

theorem powStops_power (ops : Stack Char) : PowStops ('^' :: ops) := by
  intro op hop
  simp only [List.head?_cons, Option.mem_def, Option.some.injEq] at hop
  subst hop; rfl

theorem powStops_nil : PowStops [] := by
  intro op hop; simp at hop

theorem powStops_mul (o : MulOp) (ops : Stack Char) : PowStops (o.char :: ops) := by
  intro op hop
  simp only [List.head?_cons, Option.mem_def, Option.some.injEq] at hop
  subst hop; cases o <;> rfl

theorem powStops_add (o : AddOp) (ops : Stack Char) : PowStops (o.char :: ops) := by
  intro op hop
  simp only [List.head?_cons, Option.mem_def, Option.some.injEq] at hop
  subst hop; cases o <;> rfl

theorem noLeadingDigit_exponents (es : List Literal) {rest : List Char}
    (hr : NoLeadingDigit rest) :
    NoLeadingDigit (es.flatMap (fun e => '^' :: e.text) ++ rest) := by
  cases es with
  | nil => simpa using hr
  | cons e es =>
    simp only [List.flatMap_cons, List.cons_append]
    exact noLeadingDigit_cons (by decide) _

/-- Scanning `^ e1 ^ ... ^ ek` pushes every exponent and every `^`, applying
nothing. -/
theorem scan_exponents (rest : List Char) (hr : NoLeadingDigit rest) (out : List String) :
    ∀ (es : List Literal) (vs : Stack Int) (ops : Stack Char),
      (∀ e ∈ es, e.WellFormed) → (∀ e ∈ es, e.value < 9223372036854775808) → PowStops ops →
      scan false (es.flatMap (fun e => '^' :: e.text) ++ rest) ⟨vs, ops, out⟩ =
        scan false rest
          ⟨pushAll (es.map Literal.value) vs, List.replicate es.length '^' ++ ops, out⟩ := by
  intro es
  induction es with
  | nil => intro vs ops _ _ _; rfl
  | cons e es ih =>
    intro vs ops hw hv hp
    simp only [List.flatMap_cons, List.cons_append, List.append_assoc]
    rw [scan_cons, scanStep_operator (by decide), pending_power_stops hp]
    simp only []
    rw [scan_literal e (hw e (by simp)) (hv e (by simp)) _ (noLeadingDigit_exponents es hr)]
    simp only [Stack.Push]
    rw [ih _ _ (fun x hx => hw x (by simp [hx])) (fun x hx => hv x (by simp [hx]))
      (powStops_power ops)]
    simp only [List.map_cons, pushAll, List.length_cons, replicate_succ_append, Stack.Push]

/-! ## Reducing a frame -/

theorem towerSafe_base {b : Nat} {es : List Nat} (h : towerSafe b es) :
    b < 9223372036854775808 := by
  cases es with
  | nil => exact h
  | cons e es => exact h.1

theorem towerSafe_exps : ∀ {es : List Nat} {b : Nat}, towerSafe b es →
    ∀ e ∈ es, e < 9223372036854775808 := by
  intro es
  induction es with
  | nil => intro b _ e he; simp at he
  | cons x xs ih =>
    intro b h e he
    rcases List.mem_cons.mp he with rfl | he
    · exact towerSafe_base h.2.1
    · exact ih h.2.1 e he

/-- Scanning a factor pushes its base, its exponents and its `^` operators. -/
theorem scan_factor (f : Factor) (hw : f.WellFormed) (hs : f.Safe) (rest : List Char)
    (hr : NoLeadingDigit rest) (vs : Stack Int) (ops : Stack Char) (hp : PowStops ops)
    (out : List String) :
    scan true (f.text ++ rest) ⟨vs, ops, out⟩ =
      scan false rest
        ⟨pushAll (f.exponents.map Literal.value) (Stack.Push vs (f.base.value : Int)),
          List.replicate f.exponents.length '^' ++ ops, out⟩ := by
  unfold Factor.Safe at hs
  rw [Factor.text, List.append_assoc,
    scan_literal f.base hw.1 (towerSafe_base hs) _ (noLeadingDigit_exponents _ hr)]
  simp only []
  rw [scan_exponents rest hr out f.exponents _ ops hw.2 _ hp]
  intro e he
  exact towerSafe_exps hs _ (List.mem_map_of_mem Literal.value he)

theorem wrapInt_mul_nat {a b : Nat} (h : a * b < 9223372036854775808) :
    wrapInt ((a : Int) * (b : Int)) = ((a * b : Nat) : Int) := by
  have h1 : ((a * b : Nat) : Int) < 9223372036854775808 := by exact_mod_cast h
  have h2 : (0 : Int) ≤ ((a * b : Nat) : Int) := Int.natCast_nonneg _
  rw [← Nat.cast_mul]
  exact wrapInt_of_inRange ⟨by omega, h1⟩

theorem wrapInt_tdiv_nat {a b : Nat} (h : a / b < 9223372036854775808) :
    wrapInt (Int.tdiv (a : Int) (b : Int)) = ((a / b : Nat) : Int) := by
  have h1 : ((a / b : Nat) : Int) < 9223372036854775808 := by exact_mod_cast h
  have h2 : (0 : Int) ≤ ((a / b : Nat) : Int) := Int.natCast_nonneg _
  rw [← Int.ofNat_tdiv]
  exact wrapInt_of_inRange ⟨by omega, h1⟩

theorem apply_mulOp (o : MulOp) (acc x : Nat) (hz : o = .divide → x ≠ 0)
    (hv : o.eval acc x < 9223372036854775808) (vs : Stack Int) (ops : Stack Char)
    (out : List String) :
    apply ⟨(x : Int) :: (acc : Int) :: vs, o.char :: ops, out⟩ =
      .ok () ⟨((o.eval acc x : Nat) : Int) :: vs, ops, out⟩ := by
  cases o with
  | times =>
    simp only [MulOp.char, MulOp.eval] at hv ⊢
    rw [apply_times, wrapInt_mul_nat hv]
  | divide =>
    simp only [MulOp.char, MulOp.eval] at hv ⊢
    rw [apply_divide _ _ (by exact_mod_cast hz rfl), wrapInt_tdiv_nat hv]

theorem apply_addOp (o : AddOp) (acc x : Int) (hv : InRange (o.eval acc x))
    (vs : Stack Int) (ops : Stack Char) (out : List String) :
    apply ⟨x :: acc :: vs, o.char :: ops, out⟩ = .ok () ⟨o.eval acc x :: vs, ops, out⟩ := by
  cases o with
  | plus =>
    simp only [AddOp.char, AddOp.eval] at hv ⊢
    rw [apply_plus, wrapInt_of_inRange hv]
  | minus =>
    simp only [AddOp.char, AddOp.eval] at hv ⊢
    rw [apply_minus, wrapInt_of_inRange hv]

theorem Frame.termValue_lt {f : Frame} (h : f.SafeTerm) :
    f.termValue < 9223372036854775808 := by
  obtain ⟨add, mul, base, exps⟩ := f
  cases mul with
  | none => exact tower_lt_of_safe h.1
  | some p => exact h.2.2

theorem pending_term_collapse {c : Char} (hc : c = '+' ∨ c = '-' ∨ c = '*' ∨ c = '/')
    (f : Frame) (hs : f.SafeTerm) (out : List String) :
    pending c (f.globals out) =
      pending c ⟨(f.termValue : Int) :: f.addOperands, f.addOperators, out⟩ := by
  obtain ⟨add, mul, base, exps⟩ := f
  rw [Frame.globals, pending_power_collapse hc out exps base _ _ hs.1]
  cases mul with
  | none => rfl
  | some p =>
    obtain ⟨acc, o⟩ := p
    simp only [Frame.mulOperands, Frame.mulOperators, Frame.termValue]
    rw [pending_cons, shouldApply_mul o hc]
    simp only []
    rw [apply_mulOp o acc _ hs.2.1 hs.2.2]

theorem drain_term_collapse (f : Frame) (hs : f.SafeTerm) (out : List String) :
    drain (f.globals out) =
      drain ⟨(f.termValue : Int) :: f.addOperands, f.addOperators, out⟩ := by
  obtain ⟨add, mul, base, exps⟩ := f
  rw [Frame.globals, drain_power_collapse out exps base _ _ hs.1]
  cases mul with
  | none => rfl
  | some p =>
    obtain ⟨acc, o⟩ := p
    simp only [Frame.mulOperands, Frame.mulOperators, Frame.termValue]
    rw [drain_cons, apply_mulOp o acc _ hs.2.1 hs.2.2]

/-- An incoming `*` or `/` reduces the stacks of a frame to the value of its
term. -/
theorem pending_mul (c : MulOp) (f : Frame) (hs : f.SafeTerm) (out : List String) :
    pending c.char (f.globals out) =
      .ok () ⟨(f.termValue : Int) :: f.addOperands, f.addOperators, out⟩ := by
  rw [pending_term_collapse (by cases c <;> simp [MulOp.char]) f hs]
  obtain ⟨add, mul, base, exps⟩ := f
  cases add with
  | none => exact pending_nil _ _ _
  | some p =>
    obtain ⟨acc, o⟩ := p
    simp only [Frame.addOperands, Frame.addOperators]
    rw [pending_cons, shouldApply_add_mul]

/-- An incoming `+` or `-` reduces the stacks of a frame to its value. -/
theorem pending_add (c : AddOp) (f : Frame) (hs : f.SafeAll) (out : List String) :
    pending c.char (f.globals out) = .ok () ⟨[f.value], [], out⟩ := by
  rw [pending_term_collapse (by cases c <;> simp [AddOp.char]) f hs.1]
  have hv := hs.2
  obtain ⟨add, mul, base, exps⟩ := f
  cases add with
  | none => exact pending_nil _ _ _
  | some p =>
    obtain ⟨acc, o⟩ := p
    simp only [Frame.addOperands, Frame.addOperators, Frame.value] at hv ⊢
    rw [pending_cons, shouldApply_add_add]
    simp only []
    rw [apply_addOp o acc _ hv]
    exact pending_nil _ _ _

/-- The final loop reduces the stacks of a frame to its value. -/
theorem drain_frame (f : Frame) (hs : f.SafeAll) (out : List String) :
    drain (f.globals out) = .ok () ⟨[f.value], [], out⟩ := by
  rw [drain_term_collapse f hs.1]
  have hv := hs.2
  obtain ⟨add, mul, base, exps⟩ := f
  cases add with
  | none => exact drain_nil _ _
  | some p =>
    obtain ⟨acc, o⟩ := p
    simp only [Frame.addOperands, Frame.addOperators, Frame.value] at hv ⊢
    rw [drain_cons, apply_addOp o acc _ hv]
    exact drain_nil _ _

/-! ## Scanning terms and expressions -/

theorem isDigit_mulOp (o : MulOp) : isDigit o.char = false := by cases o <;> rfl

theorem isDigit_addOp (o : AddOp) : isDigit o.char = false := by cases o <;> rfl

theorem operator_mulOp (o : MulOp) :
    o.char = '+' ∨ o.char = '-' ∨ o.char = '*' ∨ o.char = '/' ∨ o.char = '^' := by
  cases o <;> simp [MulOp.char]

theorem operator_addOp (o : AddOp) :
    o.char = '+' ∨ o.char = '-' ∨ o.char = '*' ∨ o.char = '/' ∨ o.char = '^' := by
  cases o <;> simp [AddOp.char]

theorem noLeadingDigit_termTail (tail : List (MulOp × Factor)) {rest : List Char}
    (hr : NoLeadingDigit rest) :
    NoLeadingDigit (tail.flatMap (fun p => p.1.char :: p.2.text) ++ rest) := by
  cases tail with
  | nil => simpa using hr
  | cons p tail =>
    simp only [List.flatMap_cons, List.cons_append]
    exact noLeadingDigit_cons (isDigit_mulOp _) _

theorem noLeadingDigit_expressionTail (tail : List (AddOp × Term)) {rest : List Char}
    (hr : NoLeadingDigit rest) :
    NoLeadingDigit (tail.flatMap (fun p => p.1.char :: p.2.text) ++ rest) := by
  cases tail with
  | nil => simpa using hr
  | cons p tail =>
    simp only [List.flatMap_cons, List.cons_append]
    exact noLeadingDigit_cons (isDigit_addOp _) _

theorem powStops_addOperators (f : Frame) : PowStops f.addOperators := by
  obtain ⟨add, mul, base, exps⟩ := f
  cases add with
  | none => exact powStops_nil
  | some p => exact powStops_add _ _

/-- Scanning the pairs of a multiplicative operator and a factor that continue
a term. -/
theorem scan_term_tail (rest : List Char) (hr : NoLeadingDigit rest) (out : List String) :
    ∀ (tail : List (MulOp × Factor)) (f : Frame),
      (∀ p ∈ tail, p.2.WellFormed) → f.SafeTerm → termSafeFrom f.termValue tail →
      ∃ f1 : Frame,
        scan false (tail.flatMap (fun p => p.1.char :: p.2.text) ++ rest) (f.globals out) =
          scan false rest (f1.globals out) ∧
        f1.SafeTerm ∧ f1.add = f.add ∧ f1.termValue = termValueFrom f.termValue tail := by
  intro tail
  induction tail with
  | nil => intro f _ hs _; exact ⟨f, rfl, hs, rfl, rfl⟩
  | cons p tail ih =>
    intro f hw hs hsafe
    obtain ⟨o, x⟩ := p
    obtain ⟨hx, hz, hv, hrest⟩ := hsafe
    let f0 : Frame := ⟨f.add, some (f.termValue, o), x.base.value, x.exponents.map Literal.value⟩
    have hs0 : f0.SafeTerm := ⟨hx, hz, hv⟩
    have hv0 : f0.termValue = o.eval f.termValue x.value := rfl
    obtain ⟨f1, h1, h2, h3, h4⟩ :=
      ih f0 (fun q hq => hw q (by simp [hq])) hs0 (by rw [hv0]; exact hrest)
    refine ⟨f1, ?_, h2, h3, ?_⟩
    · rw [← h1]
      simp only [List.flatMap_cons, List.cons_append, List.append_assoc]
      rw [scan_cons, scanStep_operator (operator_mulOp o), pending_mul o f hs]
      simp only [Stack.Push]
      rw [scan_factor x (hw (o, x) (by simp)) hx _ (noLeadingDigit_termTail tail hr) _ _
        (powStops_mul o _)]
      simp only [Frame.globals, Frame.mulOperands, Frame.mulOperators, Frame.addOperands,
        Frame.addOperators, Stack.Push, List.length_map, f0]
    · rw [h4, hv0]; rfl

/-- Scanning a term, on top of the sum so far and its pending operator. -/
theorem scan_term (t : Term) (hw : t.WellFormed) (hs : t.Safe) (rest : List Char)
    (hr : NoLeadingDigit rest) (add : Option (Int × AddOp)) (out : List String) :
    ∃ f1 : Frame,
      scan true (t.text ++ rest)
          ⟨(⟨add, none, 0, []⟩ : Frame).addOperands, (⟨add, none, 0, []⟩ : Frame).addOperators,
            out⟩ =
        scan false rest (f1.globals out) ∧
      f1.SafeTerm ∧ f1.add = add ∧ f1.termValue = t.value := by
  let f0 : Frame := ⟨add, none, t.first.base.value, t.first.exponents.map Literal.value⟩
  have hs0 : f0.SafeTerm := ⟨hs.1, trivial⟩
  obtain ⟨f1, h1, h2, h3, h4⟩ := scan_term_tail rest hr out t.rest f0 hw.2 hs0 hs.2
  refine ⟨f1, ?_, h2, h3, h4⟩
  rw [← h1, Term.text, List.append_assoc,
    scan_factor t.first hw.1 hs.1 _ (noLeadingDigit_termTail t.rest hr) _ _
      (powStops_addOperators _)]
  simp only [Frame.globals, Frame.mulOperands, Frame.mulOperators, Frame.addOperands,
    Frame.addOperators, Stack.Push, List.length_map, f0]

/-- Scanning the pairs of an additive operator and a term that continue an
expression. -/
theorem scan_expression_tail (out : List String) :
    ∀ (tail : List (AddOp × Term)) (f : Frame),
      (∀ p ∈ tail, p.2.WellFormed) → f.SafeAll → expressionSafeFrom f.value tail →
      ∃ f1 : Frame,
        scan false (tail.flatMap (fun p => p.1.char :: p.2.text)) (f.globals out) =
          .ok () (f1.globals out) ∧
        f1.SafeAll ∧ f1.value = expressionValueFrom f.value tail := by
  intro tail
  induction tail with
  | nil => intro f _ hs _; exact ⟨f, scan_nil _ _, hs, rfl⟩
  | cons p tail ih =>
    intro f hw hs hsafe
    obtain ⟨o, t⟩ := p
    obtain ⟨ht, hv, hrest⟩ := hsafe
    obtain ⟨f0, h1, h2, h3, h4⟩ := scan_term t (hw (o, t) (by simp)) ht
      (tail.flatMap (fun p => p.1.char :: p.2.text))
      (by simpa using noLeadingDigit_expressionTail tail noLeadingDigit_nil)
      (some (f.value, o)) out
    have hv0 : f0.value = o.eval f.value t.value := by
      simp only [Frame.value, h3, h4]
    have hs0 : f0.SafeAll := ⟨h2, by rw [hv0]; exact hv⟩
    obtain ⟨f1, k1, k2, k3⟩ :=
      ih f0 (fun q hq => hw q (by simp [hq])) hs0 (by rw [hv0]; exact hrest)
    refine ⟨f1, ?_, k2, ?_⟩
    · rw [← k1, ← h1]
      simp only [List.flatMap_cons, List.cons_append, List.append_assoc]
      rw [scan_cons, scanStep_operator (operator_addOp o), pending_add o f hs]
      rfl
    · rw [k3, hv0]; rfl

/-! ## The value of a well-formed expression -/

/-- Scanning a whole well-formed expression from empty stacks. -/
theorem scan_expression (e : Expression) (hw : e.WellFormed) (hs : e.Safe)
    (out : List String) :
    ∃ f : Frame, scan true e.text ⟨[], [], out⟩ = .ok () (f.globals out) ∧
      f.SafeAll ∧ f.value = e.value := by
  obtain ⟨f0, h1, h2, h3, h4⟩ := scan_term e.first hw.1 hs.1
    (e.rest.flatMap (fun p => p.1.char :: p.2.text))
    (by simpa using noLeadingDigit_expressionTail e.rest noLeadingDigit_nil) none out
  have hv0 : f0.value = (e.first.value : Int) := by
    simp only [Frame.value, h3, h4]
  have hs0 : f0.SafeAll := by
    refine ⟨h2, ?_⟩
    rw [hv0, ← h4]
    exact inRange_natCast (Frame.termValue_lt h2)
  obtain ⟨f1, k1, k2, k3⟩ := scan_expression_tail out e.rest f0 hw.2 hs0 (by rw [hv0]; exact hs.2)
  refine ⟨f1, ?_, k2, ?_⟩
  · rw [← k1, ← h1]; rfl
  · rw [k3, hv0]; rfl

/-- The body of `evaluate` on a well-formed expression prints its value and
leaves both stacks empty. -/
theorem evaluateBody_expression (e : Expression) (hw : e.WellFormed) (hs : e.Safe)
    (out : List String) :
    evaluateBody e.text ⟨[], [], out⟩ = .ok () ⟨[], [], out ++ [toString e.value]⟩ := by
  obtain ⟨f, h1, h2, h3⟩ := scan_expression e hw hs out
  simp only [evaluateBody, h1, drain_frame f h2 out, h3, Stack.Pop, Stack.IsEmpty, formatValue]
  rfl

theorem Expression.cons_text (l : Literal) (o : Operator) (e : Expression) :
    (Expression.cons l o e).text = l.text ++ o.char :: e.text := by
  cases o <;>
    simp [Expression.cons, Expression.text, Term.text, Factor.text, Operator.char, MulOp.char,
      AddOp.char]

/-- The conventional reading of a flat expression has the same characters. -/
theorem parse_text : ∀ (pairs : List (Operator × Literal)) (first : Literal),
    (parse first pairs).text = flatText first pairs := by
  intro pairs
  induction pairs with
  | nil => intro first; simp [parse, flatText, Expression.text, Term.text, Factor.text]
  | cons p pairs ih =>
    intro first
    obtain ⟨o, l⟩ := p
    rw [parse, Expression.cons_text, ih]
    simp [flatText]

theorem Expression.cons_wellFormed {l : Literal} (hl : l.WellFormed) (o : Operator)
    {e : Expression} (he : e.WellFormed) : (Expression.cons l o e).WellFormed := by
  obtain ⟨⟨⟨h1, h2⟩, h3⟩, h4⟩ := he
  cases o
  · exact ⟨⟨⟨hl, by intro p hp; cases hp⟩, by intro p hp; cases hp⟩, by
      intro p hp
      rcases List.mem_cons.mp hp with rfl | hp
      · exact ⟨⟨h1, h2⟩, h3⟩
      · exact h4 p hp⟩
  · exact ⟨⟨⟨hl, by intro p hp; cases hp⟩, by intro p hp; cases hp⟩, by
      intro p hp
      rcases List.mem_cons.mp hp with rfl | hp
      · exact ⟨⟨h1, h2⟩, h3⟩
      · exact h4 p hp⟩
  · exact ⟨⟨⟨hl, by intro p hp; cases hp⟩, by
      intro p hp
      rcases List.mem_cons.mp hp with rfl | hp
      · exact ⟨h1, h2⟩
      · exact h3 p hp⟩, h4⟩
  · exact ⟨⟨⟨hl, by intro p hp; cases hp⟩, by
      intro p hp
      rcases List.mem_cons.mp hp with rfl | hp
      · exact ⟨h1, h2⟩
      · exact h3 p hp⟩, h4⟩
  · exact ⟨⟨⟨hl, by
      intro x hx
      rcases List.mem_cons.mp hx with rfl | hx
      · exact h1
      · exact h2 x hx⟩, h3⟩, h4⟩

/-- The conventional reading of well-formed literals is well-formed. -/
theorem parse_wellFormed : ∀ (pairs : List (Operator × Literal)) (first : Literal),
    first.WellFormed → (∀ p ∈ pairs, p.2.WellFormed) → (parse first pairs).WellFormed := by
  intro pairs
  induction pairs with
  | nil =>
    intro first h _
    exact ⟨⟨⟨h, by intro p hp; cases hp⟩, by intro p hp; cases hp⟩, by intro p hp; cases hp⟩
  | cons p pairs ih =>
    intro first h hp
    obtain ⟨o, l⟩ := p
    exact Expression.cons_wellFormed h o
      (ih l (hp (o, l) (by simp)) (fun q hq => hp q (by simp [hq])))

/-- C1: for every well-formed expression (a literal followed by pairs of an
operator and a literal, with any number of spaces around the literals) in which
no literal and no intermediate value overflows and no divisor is zero,
`evaluate` started from fresh stacks returns with both stacks empty and prints
exactly one line, the value of the expression under the conventional reading
`parse`: `^` groups to the right and binds tightest, `*` and `/` group to the
left, `+` and `-` group to the left and bind least. -/
theorem evaluate_conventional (first : Literal) (pairs : List (Operator × Literal))
    (hw : first.WellFormed ∧ ∀ p ∈ pairs, p.2.WellFormed)
    (hs : (parse first pairs).Safe) :
    evaluate (flatText first pairs) fresh =
      .ok () ⟨[], [], [toString (parse first pairs).value]⟩ := by
  have h := evaluateBody_expression (parse first pairs)
    (parse_wellFormed pairs first hw.1 hw.2) hs []
  rw [parse_text] at h
  simp only [evaluate, fresh, Stack.New, h]
  rfl

/-- The instances of C1 for `2+3*4`, `2^3^2` and `10-3-2`, and for the last
with spaces added. -/
theorem evaluate_conventional_witness :
    evaluate (bytes "2+3*4") fresh = .ok () ⟨[], [], ["14"]⟩ ∧
    evaluate (bytes "2^3^2") fresh = .ok () ⟨[], [], ["512"]⟩ ∧
    evaluate (bytes "10-3-2") fresh = .ok () ⟨[], [], ["5"]⟩ ∧
    evaluate (bytes " 10 - 3-2 ") fresh = .ok () ⟨[], [], ["5"]⟩ :=
  ⟨evaluate_conventional ⟨0, ['2'], 0⟩ [(.plus, ⟨0, ['3'], 0⟩), (.times, ⟨0, ['4'], 0⟩)]
      (by decide) (by decide),
   evaluate_conventional ⟨0, ['2'], 0⟩ [(.power, ⟨0, ['3'], 0⟩), (.power, ⟨0, ['2'], 0⟩)]
      (by decide) (by decide),
   evaluate_conventional ⟨0, ['1', '0'], 0⟩ [(.minus, ⟨0, ['3'], 0⟩), (.minus, ⟨0, ['2'], 0⟩)]
      (by decide) (by decide),
   evaluate_conventional ⟨1, ['1', '0'], 1⟩ [(.minus, ⟨1, ['3'], 0⟩), (.minus, ⟨0, ['2'], 1⟩)]
      (by decide) (by decide)⟩

/-! ## The printed lines do not steer the run -/

/-- A call of `apply` with a non-empty operator stack removes the top operator
and does not look at the printed lines. -/
theorem apply_cases (vs : Stack Int) (op : Char) (ops : Stack Char) (out : List String) :
    (∃ vs1, apply ⟨vs, op :: ops, out⟩ = .ok () ⟨vs1, ops, out⟩ ∧
        apply ⟨vs, op :: ops, []⟩ = .ok () ⟨vs1, ops, []⟩) ∨
    (∃ p vs1, apply ⟨vs, op :: ops, out⟩ = .panic p ⟨vs1, ops, out⟩ ∧
        apply ⟨vs, op :: ops, []⟩ = .panic p ⟨vs1, ops, []⟩) := by
  cases vs with
  | nil => right; exact ⟨_, _, rfl, rfl⟩
  | cons r s1 =>
    cases s1 with
    | nil => right; exact ⟨_, _, rfl, rfl⟩
    | cons l s2 =>
      simp only [apply, Stack.Pop]
      split_ifs <;> first | (left; exact ⟨_, rfl, rfl⟩) | (right; exact ⟨_, _, rfl, rfl⟩)

theorem apply_nil (vs : Stack Int) (out : List String) :
    apply ⟨vs, [], out⟩ = .panic (.text "operator stack underflow") ⟨vs, [], out⟩ := rfl

theorem apply_ne_timeout (g : Globals) : apply g ≠ .timeout := by
  obtain ⟨vs, ops, out⟩ := g
  cases ops with
  | nil => rw [apply_nil]; simp
  | cons op ops =>
    rcases apply_cases vs op ops out with ⟨vs1, h, _⟩ | ⟨p, vs1, h, _⟩ <;> rw [h] <;> simp

/-- The inner loop of the operator case does not look at the printed lines and
prints nothing. -/
theorem pending_withOut (c : Char) (out : List String) :
    ∀ (ops : Stack Char) (vs : Stack Int),
      pending c ⟨vs, ops, out⟩ = (pending c ⟨vs, ops, []⟩).withOut out := by
  intro ops
  induction ops with
  | nil => intro vs; rw [pending_nil, pending_nil]; rfl
  | cons op ops ih =>
    intro vs
    rw [pending_cons, pending_cons]
    cases hs : shouldApply op c with
    | error p => rfl
    | ok b =>
      cases b with
      | false => rfl
      | true =>
        rcases apply_cases vs op ops out with ⟨vs1, h1, h2⟩ | ⟨p, vs1, h1, h2⟩
        · simp only [h1, h2]; exact ih vs1
        · simp only [h1, h2]; rfl

/-- The final loop does not look at the printed lines and prints nothing. -/
theorem drain_withOut (out : List String) :
    ∀ (ops : Stack Char) (vs : Stack Int),
      drain ⟨vs, ops, out⟩ = (drain ⟨vs, ops, []⟩).withOut out := by
  intro ops
  induction ops with
  | nil => intro vs; rw [drain_nil, drain_nil]; rfl
  | cons op ops ih =>
    intro vs
    rw [drain_cons, drain_cons]
    rcases apply_cases vs op ops out with ⟨vs1, h1, h2⟩ | ⟨p, vs1, h1, h2⟩
    · simp only [h1, h2]; exact ih vs1
    · simp only [h1, h2]; rfl

theorem pending_ne_timeout (c : Char) :
    ∀ (ops : Stack Char) (vs : Stack Int) (out : List String),
      pending c ⟨vs, ops, out⟩ ≠ .timeout := by
  intro ops
  induction ops with
  | nil => intro vs out; rw [pending_nil]; simp
  | cons op ops ih =>
    intro vs out
    rw [pending_cons]
    cases hs : shouldApply op c with
    | error p => simp
    | ok b =>
      cases b with
      | false => simp
      | true =>
        rcases apply_cases vs op ops out with ⟨vs1, h1, _⟩ | ⟨p, vs1, h1, _⟩
        · simp only [h1]; exact ih vs1 out
        · simp only [h1]; simp

theorem drain_ne_timeout :
    ∀ (ops : Stack Char) (vs : Stack Int) (out : List String),
      drain ⟨vs, ops, out⟩ ≠ .timeout := by
  intro ops
  induction ops with
  | nil => intro vs out; rw [drain_nil]; simp
  | cons op ops ih =>
    intro vs out
    rw [drain_cons]
    rcases apply_cases vs op ops out with ⟨vs1, h1, _⟩ | ⟨p, vs1, h1, _⟩
    · simp only [h1]; exact ih vs1 out
    · simp only [h1]; simp

theorem scanStep_ne_timeout (oe : Bool) (c : Char) (cs : List Char) (g : Globals) :
    scanStep oe c cs g ≠ .timeout := by
  by_cases hd : isDigit c = true
  · cases oe with
    | false => rw [scanStep_digit_unexpected hd]; simp
    | true => rw [scanStep_digit hd]; simp
  · by_cases hc : c = '+' ∨ c = '-' ∨ c = '*' ∨ c = '/' ∨ c = '^'
    · cases oe with
      | true => rw [scanStep_operator_unexpected hc]; simp
      | false =>
        rw [scanStep_operator hc]
        cases hp : pending c g with
        | ok u g2 => simp
        | panic p g2 => simp
        | timeout => exact absurd hp (pending_ne_timeout c _ _ _)
    · rw [scanStep, if_neg hd, if_neg hc]
      split_ifs <;> simp

/-- The scan loop never exhausts its step budget. -/
theorem scan_ne_timeout :
    ∀ (n : Nat) (rest : List Char), rest.length ≤ n → ∀ (oe : Bool) (g : Globals),
      scan oe rest g ≠ .timeout := by
  intro n
  induction n with
  | zero =>
    intro rest h oe g
    have : rest = [] := List.length_eq_zero.mp (by omega)
    subst this; rw [scan_nil]; simp
  | succ n ih =>
    intro rest h oe g
    cases rest with
    | nil => rw [scan_nil]; simp
    | cons c cs =>
      rw [scan_cons]
      cases hs : scanStep oe c cs g with
      | ok a g1 =>
        obtain ⟨flag, rest1⟩ := a
        have hl := scanStep_length hs
        simp only [List.length_cons] at h
        exact ih rest1 (by omega) flag g1
      | panic p g1 => simp
      | timeout => exact absurd hs (scanStep_ne_timeout _ _ _ _)

/-- The body of `evaluate` never exhausts a step budget. -/
theorem evaluateBody_ne_timeout (expr : List Char) (g : Globals) :
    evaluateBody expr g ≠ .timeout := by
  unfold evaluateBody
  cases hs : scan true expr g with
  | ok u g1 =>
    simp only []
    cases hd : drain g1 with
    | ok u2 g2 =>
      simp only []
      split_ifs <;> simp
    | panic p g2 => simp
    | timeout => exact absurd hd (drain_ne_timeout _ _ _)
  | panic p g1 => simp
  | timeout => exact absurd hs (scan_ne_timeout _ _ (le_refl _) _ _)

/-- The function `evaluate` always returns. -/
theorem evaluate_returns (expr : List Char) (g : Globals) :
    ∃ g1, evaluate expr g = .ok () g1 := by
  unfold evaluate
  cases h : evaluateBody expr g with
  | ok u g1 => exact ⟨g1, rfl⟩
  | panic p g1 => exact ⟨_, rfl⟩
  | timeout => exact absurd h (evaluateBody_ne_timeout _ _)

/-! ## Parentheses and spaces -/

theorem deparen_cons (c : Char) (cs : List Char) :
    deparen (c :: cs) = (if c = '(' ∨ c = ')' then ' ' else c) :: deparen cs := rfl

theorem deparen_cons_of_not {c : Char} (h : ¬(c = '(' ∨ c = ')')) (cs : List Char) :
    deparen (c :: cs) = c :: deparen cs := by
  rw [deparen_cons, if_neg h]

theorem not_paren_of_digit {c : Char} (h : isDigit c = true) : ¬(c = '(' ∨ c = ')') := by
  rintro (rfl | rfl) <;> exact absurd h (by decide)

/-- The digit loop commutes with replacing parentheses by spaces. -/
theorem digitLoop_deparen : ∀ (l : List Char) (v : Int),
    digitLoop v (deparen l) = ((digitLoop v l).1, deparen (digitLoop v l).2) := by
  intro l
  induction l with
  | nil => intro v; rfl
  | cons c cs ih =>
    intro v
    by_cases hd : isDigit c = true
    · rw [deparen_cons_of_not (not_paren_of_digit hd), digitLoop, digitLoop, if_pos hd,
        if_pos hd, ih]
    · by_cases hp : c = '(' ∨ c = ')'
      · rw [deparen_cons, if_pos hp, digitLoop, digitLoop, if_neg hd, if_neg (by decide),
          deparen_cons, if_pos hp]
      · rw [deparen_cons_of_not hp, digitLoop, digitLoop, if_neg hd, if_neg hd,
          deparen_cons_of_not hp]

/-- The scan loop ends the same way, with the same stacks, on the input with
its parentheses replaced by spaces. -/
theorem scan_deparen :
    ∀ (n : Nat) (expr : List Char), expr.length ≤ n →
      ∀ (oe : Bool) (vs : Stack Int) (ops : Stack Char) (out out1 : List String),
        (scan oe expr ⟨vs, ops, out⟩).silent = (scan oe (deparen expr) ⟨vs, ops, out1⟩).silent := by
  intro n
  induction n with
  | zero =>
    intro expr h oe vs ops out out1
    have : expr = [] := List.length_eq_zero.mp (by omega)
    subst this; rfl
  | succ n ih =>
    intro expr h oe vs ops out out1
    cases expr with
    | nil => rfl
    | cons c cs =>
      simp only [List.length_cons] at h
      by_cases hd : isDigit c = true
      · rw [deparen_cons_of_not (not_paren_of_digit hd), scan_cons, scan_cons]
        cases oe with
        | false =>
          rw [scanStep_digit_unexpected hd, scanStep_digit_unexpected hd]; rfl
        | true =>
          rw [scanStep_digit hd, scanStep_digit hd]
          have e := digitLoop_deparen (c :: cs) 0
          rw [deparen_cons_of_not (not_paren_of_digit hd)] at e
          rw [e]
          simp only []
          have hl := digitLoop_length 0 (c :: cs)
          rw [digitLoop, if_pos hd] at hl ⊢
          exact ih _ (le_trans (digitLoop_length _ cs) (by omega)) _ _ _ _ _
      · by_cases hc : c = '+' ∨ c = '-' ∨ c = '*' ∨ c = '/' ∨ c = '^'
        · have hp : ¬(c = '(' ∨ c = ')') := by
            rcases hc with h | h | h | h | h <;> subst h <;> decide
          rw [deparen_cons_of_not hp, scan_cons, scan_cons]
          cases oe with
          | true =>
            rw [scanStep_operator_unexpected hc, scanStep_operator_unexpected hc]; rfl
          | false =>
            rw [scanStep_operator hc, scanStep_operator hc, pending_withOut c out,
              pending_withOut c out1]
            cases hq : pending c ⟨vs, ops, []⟩ with
            | ok u g1 => exact ih cs (by omega) _ _ _ _ _
            | panic p g1 => rfl
            | timeout => rfl
        · by_cases ho : c = '('
          · subst ho
            rw [deparen_cons, if_pos (by decide), scan_cons, scan_cons, scanStep_open,
              scanStep_space]
            exact ih cs (by omega) _ _ _ _ _
          · by_cases hcl : c = ')'
            · subst hcl
              rw [deparen_cons, if_pos (by decide), scan_cons, scan_cons, scanStep_close,
                scanStep_space]
              exact ih cs (by omega) _ _ _ _ _
            · have hp : ¬(c = '(' ∨ c = ')') := by
                rintro (h | h)
                · exact ho h
                · exact hcl h
              rw [deparen_cons_of_not hp, scan_cons, scan_cons]
              by_cases hsp : c = ' '
              · subst hsp
                rw [scanStep_space, scanStep_space]
                exact ih cs (by omega) _ _ _ _ _
              · rw [scanStep, scanStep, if_neg hd, if_neg hc, if_neg ho, if_neg hcl,
                  if_neg hsp, if_neg hd, if_neg hc, if_neg ho, if_neg hcl, if_neg hsp]
                rfl

theorem silent_ok_inv {u u1 : Unit} {g g1 : Globals}
    (h : (Result.ok u g).silent = (Result.ok u1 g1).silent) :
    g.operandStack = g1.operandStack ∧ g.operatorStack = g1.operatorStack := by
  simp only [Result.silent, Result.withOut, Result.ok.injEq, Globals.mk.injEq] at h
  exact ⟨h.2.1, h.2.2.1⟩

/-- Two scans that end the same way with the same stacks lead to the same final
line. -/
theorem finish_of_scan_silent {e1 e2 : List Char} {g1 g2 : Globals}
    (h : (scan true e1 g1).silent = (scan true e2 g2).silent) :
    (evaluateBody e1 g1).silent = (evaluateBody e2 g2).silent ∧
      (evaluate e1 g1).finalLine = (evaluate e2 g2).finalLine := by
  unfold evaluate evaluateBody
  cases h1 : scan true e1 g1 with
  | timeout =>
    cases h2 : scan true e2 g2 with
    | timeout => exact ⟨rfl, rfl⟩
    | ok u g => rw [h1, h2] at h; cases h
    | panic p g => rw [h1, h2] at h; cases h
  | panic p g =>
    cases h2 : scan true e2 g2 with
    | timeout => rw [h1, h2] at h; cases h
    | ok u g => rw [h1, h2] at h; cases h
    | panic p1 g3 =>
      rw [h1, h2] at h
      simp only [Result.silent, Result.withOut, Result.panic.injEq, Globals.mk.injEq] at h
      obtain ⟨rfl, h3, h4, -⟩ := h
      simp [Result.silent, Result.withOut, Result.finalLine, h3, h4]
  | ok u g =>
    cases h2 : scan true e2 g2 with
    | timeout => rw [h1, h2] at h; cases h
    | panic p g => rw [h1, h2] at h; cases h
    | ok u1 g3 =>
      rw [h1, h2] at h
      obtain ⟨h3, h4⟩ := silent_ok_inv h
      obtain ⟨vs, ops, out⟩ := g
      obtain ⟨vs1, ops1, out1⟩ := g3
      simp only at h3 h4
      subst h3 h4
      simp only []
      rw [drain_withOut out, drain_withOut out1]
      cases hd : drain ⟨vs, ops, []⟩ with
      | timeout => exact ⟨rfl, rfl⟩
      | panic p g =>
        simp [Result.silent, Result.withOut, Result.finalLine]
      | ok u2 g =>
        simp only [Result.withOut]
        split_ifs <;> simp [Result.silent, Result.withOut, Result.finalLine]

/-! ## Reaching a configuration -/

/-- The function `evaluate` always prints a final line. -/
theorem evaluate_finalLine (expr : List Char) (g : Globals) :
    ∃ line, (evaluate expr g).finalLine = some line := by
  unfold evaluate evaluateBody
  cases hs : scan true expr g with
  | ok u g1 =>
    simp only []
    cases hd : drain g1 with
    | ok u2 g2 =>
      simp only []
      split_ifs <;> simp [Result.finalLine]
    | panic p g2 => simp [Result.finalLine]
    | timeout => exact absurd hd (drain_ne_timeout _ _ _)
  | panic p g1 => simp [Result.finalLine]
  | timeout => exact absurd hs (scan_ne_timeout _ _ (le_refl _) _ _)

/-- C2: replacing every parenthesis of the input by a space changes neither the
final line that `evaluate` prints from fresh stacks (the result or the error)
nor the way the body ends and the stacks it leaves; a parenthesis only prints
its line, leaving both stacks and the flag as they are.  So `(1+2)` gives 3
and `(1+2)*3` gives 7, the value of `1+2*3`. -/
theorem parentheses_are_spaces (expr : List Char) :
    (evaluate expr fresh).finalLine = (evaluate (deparen expr) fresh).finalLine ∧
    (∃ line, (evaluate expr fresh).finalLine = some line) ∧
    (evaluateBody expr fresh).silent = (evaluateBody (deparen expr) fresh).silent ∧
    (∀ (flag : Bool) (cs : List Char) (g : Globals),
      scanStep flag '(' cs g = .ok (flag, cs)
        ⟨g.operandStack, g.operatorStack, g.stdout ++ ["'(' is an open parenthesis"]⟩ ∧
      scanStep flag ')' cs g = .ok (flag, cs)
        ⟨g.operandStack, g.operatorStack, g.stdout ++ ["')' is a close parenthesis"]⟩) ∧
    (evaluate (bytes "(1+2)") fresh).finalLine = some "3" ∧
    (evaluate (bytes "(1+2)*3") fresh).finalLine = some "7" ∧
    (evaluate (bytes "1+2*3") fresh).finalLine = some "7" := by
  have h := finish_of_scan_silent
    (scan_deparen expr.length expr (le_refl _) true fresh.operandStack fresh.operatorStack [] [])
  exact ⟨h.2, evaluate_finalLine _ _, h.1,
    fun flag cs g => ⟨scanStep_open flag cs g, scanStep_close flag cs g⟩, rfl, rfl, rfl⟩

/-- The scan from a configuration that is reached ends as the whole scan does.
-/
theorem scan_of_reaches {expr : List Char} {g0 : Globals} {flag : Bool} {rest : List Char}
    {g : Globals} (h : ScanReaches expr g0 flag rest g) :
    scan true expr g0 = scan flag rest g := by
  induction h with
  | start => rfl
  | step _ hs ih => rw [ih, scan_cons, hs]

theorem evaluateBody_of_scan_panic {expr : List Char} {g0 g : Globals} {p : Panic}
    (h : scan true expr g0 = .panic p g) : evaluateBody expr g0 = .panic p g := by
  simp only [evaluateBody, h]

theorem evaluate_of_body_panic {expr : List Char} {g0 g : Globals} {p : Panic}
    (h : evaluateBody expr g0 = .panic p g) :
    evaluate expr g0 =
      .ok () ⟨g.operandStack, g.operatorStack, g.stdout ++ ["illegal expression: " ++ p.render]⟩ := by
  simp only [evaluate, h]

/-! ## Misplaced tokens and empty lines -/

/-- The digit loop on a digit run followed by something else consumes exactly
the run. -/
theorem digitLoop_run (rest : List Char) (hr : NoLeadingDigit rest) :
    ∀ (ds : List Char) (v : Int), (∀ c ∈ ds, isDigit c = true) →
      digitLoop v (ds ++ rest) = ((digitLoop v ds).1, rest) := by
  intro ds
  induction ds with
  | nil =>
    intro v _
    cases rest with
    | nil => rfl
    | cons c cs =>
      have : isDigit c = false := hr c (by simp)
      simp [digitLoop, this]
  | cons d ds ih =>
    intro v hd
    have hdig : isDigit d = true := hd d (by simp)
    rw [List.cons_append, digitLoop, digitLoop, if_pos hdig, if_pos hdig]
    exact ih _ (fun c hc => hd c (by simp [hc]))

/-- C3, refuted as stated: on `3 4` the evaluation does not fail with `too many
operands`; the second operand is rejected when it is scanned, with the operand
3 on the stack. -/
theorem two_operands_not_too_many :
    evaluateBody (bytes "3 4") fresh =
      .panic (.text "operator expected but operand found") ⟨[3], [], []⟩ ∧
    evaluate (bytes "3 4") fresh =
      .ok () ⟨[3], [], ["illegal expression: operator expected but operand found"]⟩ ∧
    (evaluate (bytes "3 4") fresh).finalLine ≠ some "illegal expression: too many operands" := by
  refine ⟨rfl, rfl, ?_⟩
  decide

/-- C3, amended: for every input made of two non-empty digit runs separated by
one or more spaces, `evaluate` started from fresh stacks fails with the error
`operator expected but operand found`, raised when the second run is reached,
with the value of the first run as the only operand on the stack. -/
theorem two_operands_operator_expected (d1 d2 : List Char) (k : Nat)
    (h1 : d1 ≠ [] ∧ ∀ c ∈ d1, isDigit c = true)
    (h2 : d2 ≠ [] ∧ ∀ c ∈ d2, isDigit c = true) (hk : 1 ≤ k) :
    evaluateBody (d1 ++ List.replicate k ' ' ++ d2) fresh =
      .panic (.text "operator expected but operand found") ⟨[(digitLoop 0 d1).1], [], []⟩ ∧
    evaluate (d1 ++ List.replicate k ' ' ++ d2) fresh =
      .ok () ⟨[(digitLoop 0 d1).1], [],
        ["illegal expression: operator expected but operand found"]⟩ := by
  have hb : evaluateBody (d1 ++ List.replicate k ' ' ++ d2) fresh =
      .panic (.text "operator expected but operand found") ⟨[(digitLoop 0 d1).1], [], []⟩ := by
    apply evaluateBody_of_scan_panic
    obtain ⟨hne1, hd1⟩ := h1
    obtain ⟨hne2, hd2⟩ := h2
    cases d1 with
    | nil => exact absurd rfl hne1
    | cons c cs =>
      cases d2 with
      | nil => exact absurd rfl hne2
      | cons e es =>
        have hnl : NoLeadingDigit (List.replicate k ' ' ++ e :: es) := by
          obtain ⟨j, rfl⟩ : ∃ j, k = j + 1 := ⟨k - 1, by omega⟩
          rw [List.replicate_succ, List.cons_append]
          exact noLeadingDigit_cons (by decide) _
        have hrun := digitLoop_run _ hnl (c :: cs) 0 hd1
        rw [List.append_assoc, List.cons_append, scan_cons, scanStep_digit (hd1 c (by simp))]
        rw [List.cons_append] at hrun
        rw [hrun]
        simp only []
        rw [scan_spaces, scan_cons, scanStep_digit_unexpected (hd2 e (by simp))]
        rfl
  exact ⟨hb, evaluate_of_body_panic hb⟩

/-- The instance of the amended C3 for `3 4`. -/
theorem two_operands_operator_expected_witness :
    evaluateBody (bytes "3 4") fresh =
      .panic (.text "operator expected but operand found") ⟨[3], [], []⟩ ∧
    evaluate (bytes "3 4") fresh =
      .ok () ⟨[3], [], ["illegal expression: operator expected but operand found"]⟩ :=
  two_operands_operator_expected ['3'] ['4'] 1 (by decide) (by decide) (by decide)

/-- C5, the behaviour of the code on a line without operand: the final `Pop`
fails, its error is discarded, and the nil value is printed as the result; no
stack underflow is reported. -/
theorem empty_line_prints_nil :
    evaluateBody (bytes "") fresh = .ok () ⟨[], [], ["<nil>"]⟩ ∧
    evaluate (bytes "") fresh = .ok () ⟨[], [], ["<nil>"]⟩ ∧
    evaluate (bytes "  ") fresh = .ok () ⟨[], [], ["<nil>"]⟩ :=
  ⟨rfl, rfl, rfl⟩

/-- C6, the behaviour of the code on the line `()`: after the two lines for
the parentheses, the final line is `<nil>`, which is neither a decimal integer
nor an `illegal expression: ` line. -/
theorem parentheses_only_final_line :
    evaluate (bytes "()") fresh =
      .ok () ⟨[], [],
        ["'(' is an open parenthesis", "')' is a close parenthesis", "<nil>"]⟩ :=
  rfl

/-- C7, refuted as stated: on `)1` the scan reaches `)` at the start of the
line, where an operand is expected, and the evaluation ends without error,
printing 1; likewise `1+)2` prints 3. -/
theorem close_paren_is_not_an_error :
    ScanReaches (bytes ")1") fresh true (')' :: ['1']) fresh ∧
    evaluateBody (bytes ")1") fresh = .ok () ⟨[], [], ["')' is a close parenthesis", "1"]⟩ ∧
    evaluateBody (bytes "1+)2") fresh = .ok () ⟨[], [], ["')' is a close parenthesis", "3"]⟩ :=
  ⟨ScanReaches.start, rfl, rfl⟩

/-- C7, amended: when the scan reaches a `)` while an operand is expected, no
error is raised for it: the line for the parenthesis is printed, and the scan
goes on after it with both stacks unchanged and an operand still expected. -/
theorem close_paren_when_operand_expected (expr cs : List Char) (g0 g : Globals)
    (h : ScanReaches expr g0 true (')' :: cs) g) :
    ScanReaches expr g0 true cs
      ⟨g.operandStack, g.operatorStack, g.stdout ++ ["')' is a close parenthesis"]⟩ ∧
    scan true expr g0 =
      scan true cs
        ⟨g.operandStack, g.operatorStack, g.stdout ++ ["')' is a close parenthesis"]⟩ := by
  have hr := ScanReaches.step h (scanStep_close true cs g)
  exact ⟨hr, scan_of_reaches hr⟩

/-- The instance of the amended C7 for `)1`. -/
theorem close_paren_when_operand_expected_witness :
    ScanReaches (bytes ")1") fresh true ['1'] ⟨[], [], ["')' is a close parenthesis"]⟩ ∧
    scan true (bytes ")1") fresh =
      scan true ['1'] ⟨[], [], ["')' is a close parenthesis"]⟩ :=
  close_paren_when_operand_expected (bytes ")1") ['1'] fresh fresh ScanReaches.start

/-- C8: if the scan reaches a digit while an operator is expected, the body of
`evaluate` panics with `operator expected but operand found`, with the globals
as they are when the digit is reached (no operand is pushed), and `evaluate`
prints that error. -/
theorem digit_when_operator_expected (expr cs : List Char) (c : Char) (g0 g : Globals)
    (h : ScanReaches expr g0 false (c :: cs) g) (hd : isDigit c = true) :
    evaluateBody expr g0 = .panic (.text "operator expected but operand found") g ∧
    evaluate expr g0 =
      .ok () ⟨g.operandStack, g.operatorStack,
        g.stdout ++ ["illegal expression: operator expected but operand found"]⟩ := by
  have hb : evaluateBody expr g0 = .panic (.text "operator expected but operand found") g := by
    apply evaluateBody_of_scan_panic
    rw [scan_of_reaches h, scan_cons, scanStep_digit_unexpected hd]
  exact ⟨hb, evaluate_of_body_panic hb⟩

/-- The instances of C8 for `3 4` and `1(2`. -/
theorem digit_when_operator_expected_witness :
    (evaluateBody (bytes "3 4") fresh =
        .panic (.text "operator expected but operand found") ⟨[3], [], []⟩ ∧
      evaluate (bytes "3 4") fresh =
        .ok () ⟨[3], [], ["illegal expression: operator expected but operand found"]⟩) ∧
    (evaluateBody (bytes "1(2") fresh =
        .panic (.text "operator expected but operand found")
          ⟨[1], [], ["'(' is an open parenthesis"]⟩ ∧
      evaluate (bytes "1(2") fresh =
        .ok () ⟨[1], [], ["'(' is an open parenthesis",
          "illegal expression: operator expected but operand found"]⟩) :=
  ⟨digit_when_operator_expected (bytes "3 4") [] '4' fresh ⟨[3], [], []⟩
      (ScanReaches.step
        (ScanReaches.step (ScanReaches.start : ScanReaches _ _ true ('3' :: [' ', '4']) fresh)
          (rfl : scanStep true '3' [' ', '4'] fresh = .ok (false, ' ' :: ['4']) ⟨[3], [], []⟩))
        (rfl : scanStep false ' ' ['4'] ⟨[3], [], []⟩ = .ok (false, ['4']) ⟨[3], [], []⟩))
      (by decide),
   digit_when_operator_expected (bytes "1(2") [] '2' fresh
      ⟨[1], [], ["'(' is an open parenthesis"]⟩
      (ScanReaches.step
        (ScanReaches.step (ScanReaches.start : ScanReaches _ _ true ('1' :: ['(', '2']) fresh)
          (rfl : scanStep true '1' ['(', '2'] fresh = .ok (false, '(' :: ['2']) ⟨[1], [], []⟩))
        (rfl : scanStep false '(' ['2'] ⟨[1], [], []⟩ =
          .ok (false, ['2']) ⟨[1], [], ["'(' is an open parenthesis"]⟩))
      (by decide)⟩

/-- C9: if the scan reaches one of `+ - * / ^` while an operand is expected,
the body of `evaluate` panics with `operand expected but operator found`, with
the globals as they are when the character is reached (no operator is applied
or pushed), and `evaluate` prints that error. -/
theorem operator_when_operand_expected (expr cs : List Char) (c : Char) (g0 g : Globals)
    (h : ScanReaches expr g0 true (c :: cs) g)
    (hc : c = '+' ∨ c = '-' ∨ c = '*' ∨ c = '/' ∨ c = '^') :
    evaluateBody expr g0 = .panic (.text "operand expected but operator found") g ∧
    evaluate expr g0 =
      .ok () ⟨g.operandStack, g.operatorStack,
        g.stdout ++ ["illegal expression: operand expected but operator found"]⟩ := by
  have hb : evaluateBody expr g0 = .panic (.text "operand expected but operator found") g := by
    apply evaluateBody_of_scan_panic
    rw [scan_of_reaches h, scan_cons, scanStep_operator_unexpected hc]
  exact ⟨hb, evaluate_of_body_panic hb⟩

/-- The instances of C9 for `+1` and `1++2`. -/
theorem operator_when_operand_expected_witness :
    (evaluateBody (bytes "+1") fresh =
        .panic (.text "operand expected but operator found") ⟨[], [], []⟩ ∧
      evaluate (bytes "+1") fresh =
        .ok () ⟨[], [], ["illegal expression: operand expected but operator found"]⟩) ∧
    (evaluateBody (bytes "1++2") fresh =
        .panic (.text "operand expected but operator found") ⟨[1], ['+'], []⟩ ∧
      evaluate (bytes "1++2") fresh =
        .ok () ⟨[1], ['+'], ["illegal expression: operand expected but operator found"]⟩) :=
  ⟨operator_when_operand_expected (bytes "+1") ['1'] '+' fresh fresh ScanReaches.start
      (by decide),
   operator_when_operand_expected (bytes "1++2") ['2'] '+' fresh ⟨[1], ['+'], []⟩
      (ScanReaches.step
        (ScanReaches.step (ScanReaches.start : ScanReaches _ _ true ('1' :: ['+', '+', '2']) fresh)
          (rfl : scanStep true '1' ['+', '+', '2'] fresh =
            .ok (false, '+' :: ['+', '2']) ⟨[1], [], []⟩))
        (rfl : scanStep false '+' ['+', '2'] ⟨[1], [], []⟩ =
          .ok (true, '+' :: ['2']) ⟨[1], ['+'], []⟩))
      (by decide)⟩

/-! ## Division by zero -/

/-- The inner loop of the operator case from a state it reaches ends as the
whole loop does. -/
theorem pending_of_reaches {c : Char} {g0 g : Globals} (h : PendingReaches c g0 g) :
    pending c g0 = pending c g := by
  induction h with
  | start => rfl
  | @step g g1 op _ htop hsa hap ih =>
    obtain ⟨vs, ops, out⟩ := g
    cases ops with
    | nil => simp [Stack.Top] at htop
    | cons op1 ops =>
      simp only [Stack.Top, Option.some.injEq] at htop
      subst htop
      rw [ih, pending_cons, hsa]
      simp only [hap]

/-- The final loop from a state it reaches ends as the whole loop does. -/
theorem drain_of_reaches {g0 g : Globals} (h : DrainReaches g0 g) : drain g0 = drain g := by
  induction h with
  | start => rfl
  | @step g g1 _ hne hap ih =>
    obtain ⟨vs, ops, out⟩ := g
    cases ops with
    | nil => simp [Stack.IsEmpty] at hne
    | cons op1 ops =>
      rw [ih, drain_cons]
      simp only [hap]

/-- C4, refuted as stated: on `5/0` the final loop applies `/` with the right
operand 0, and the run-time panic of the division is recovered by the deferred
function of `evaluate` like any other panic: the line ends normally, with an
`illegal expression: ` line. -/
theorem division_by_zero_is_caught :
    AppliesAt (bytes "5/0") fresh ⟨[0, 5], ['/'], []⟩ ∧
    apply ⟨[0, 5], ['/'], []⟩ = .panic .divideByZero ⟨[], [], []⟩ ∧
    evaluate (bytes "5/0") fresh =
      .ok () ⟨[], [], ["illegal expression: runtime error: integer divide by zero"]⟩ :=
  ⟨AppliesAt.drain (rfl : scan true (bytes "5/0") fresh = .ok () ⟨[0, 5], ['/'], []⟩)
      DrainReaches.start rfl, rfl, rfl⟩

/-- C4, amended: whenever the evaluation calls `apply` with `/` on top of the
operator stack, 0 on top of the operand stack and a left operand beneath it,
the division raises the run-time panic for a division by zero, the body of
`evaluate` ends with that panic and the stacks without the operator and its
operands, and the deferred function recovers it like any other panic: it
prints `illegal expression: runtime error: integer divide by zero` and
`evaluate` returns. -/
theorem division_by_zero_is_recovered (expr : List Char) (g0 : Globals) (left : Int)
    (vs : Stack Int) (ops : Stack Char) (out : List String)
    (h : AppliesAt expr g0 ⟨0 :: left :: vs, '/' :: ops, out⟩) :
    apply ⟨0 :: left :: vs, '/' :: ops, out⟩ = .panic .divideByZero ⟨vs, ops, out⟩ ∧
    evaluateBody expr g0 = .panic .divideByZero ⟨vs, ops, out⟩ ∧
    evaluate expr g0 =
      .ok () ⟨vs, ops,
        out ++ ["illegal expression: runtime error: integer divide by zero"]⟩ := by
  have hb : evaluateBody expr g0 = .panic .divideByZero ⟨vs, ops, out⟩ := by
    cases h with
    | @pending c cs gs _ op hsr hc hpr htop hsa =>
      apply evaluateBody_of_scan_panic
      simp only [Stack.Top, Option.some.injEq] at htop
      subst htop
      rw [scan_of_reaches hsr, scan_cons, scanStep_operator hc, pending_of_reaches hpr,
        pending_cons, hsa]
      simp only [apply_divide_zero]
    | @drain gs _ hs hdr _ =>
      simp only [evaluateBody, hs]
      rw [drain_of_reaches hdr, drain_cons]
      simp only [apply_divide_zero]
  exact ⟨apply_divide_zero _ _ _ _, hb, evaluate_of_body_panic hb⟩

/-- The instance of the amended C4 for `5/0`. -/
theorem division_by_zero_is_recovered_witness :
    apply ⟨[0, 5], ['/'], []⟩ = .panic .divideByZero ⟨[], [], []⟩ ∧
    evaluateBody (bytes "5/0") fresh = .panic .divideByZero ⟨[], [], []⟩ ∧
    evaluate (bytes "5/0") fresh =
      .ok () ⟨[], [], ["illegal expression: runtime error: integer divide by zero"]⟩ :=
  division_by_zero_is_recovered (bytes "5/0") fresh 5 [] [] []
    (AppliesAt.drain (rfl : scan true (bytes "5/0") fresh = .ok () ⟨[0, 5], ['/'], []⟩)
      DrainReaches.start rfl)

/-! ## A trailing operator -/

/-- With one of the five operators on top and two operands, `apply` returns
with one operand less, or the division is by zero. -/
theorem apply_operator_cases {op : Char}
    (hop : op = '+' ∨ op = '-' ∨ op = '*' ∨ op = '/' ∨ op = '^') (y x : Int)
    (vs : Stack Int) (ops : Stack Char) (out : List String) :
    (∃ v, apply ⟨y :: x :: vs, op :: ops, out⟩ = .ok () ⟨v :: vs, ops, out⟩) ∨
      apply ⟨y :: x :: vs, op :: ops, out⟩ = .panic .divideByZero ⟨vs, ops, out⟩ := by
  rcases hop with h | h | h | h | h <;> subst h
  · exact Or.inl ⟨_, apply_plus _ _ _ _ _⟩
  · exact Or.inl ⟨_, apply_minus _ _ _ _ _⟩
  · exact Or.inl ⟨_, apply_times _ _ _ _ _⟩
  · by_cases hy : y = 0
    · subst hy; exact Or.inr (apply_divide_zero _ _ _ _)
    · exact Or.inl ⟨_, apply_divide _ _ hy _ _ _⟩
  · exact Or.inl ⟨_, apply_power _ _ _ _ _⟩

theorem shouldApply_operators {op c : Char}
    (hop : op = '+' ∨ op = '-' ∨ op = '*' ∨ op = '/' ∨ op = '^')
    (hc : c = '+' ∨ c = '-' ∨ c = '*' ∨ c = '/' ∨ c = '^') :
    ∃ b, shouldApply op c = .ok b := by
  rcases hop with h | h | h | h | h <;> subst h <;>
    rcases hc with h | h | h | h | h <;> subst h <;> exact ⟨_, rfl⟩

/-- With one operand more than operators, the inner loop of the operator case
keeps that shape, or a division is by zero. -/
theorem pending_balanced {c : Char} (hc : c = '+' ∨ c = '-' ∨ c = '*' ∨ c = '/' ∨ c = '^')
    (out : List String) :
    ∀ (ops : Stack Char) (vs : Stack Int),
      (∀ op ∈ ops, op = '+' ∨ op = '-' ∨ op = '*' ∨ op = '/' ∨ op = '^') →
      vs.length = ops.length + 1 →
      (∃ g1, pending c ⟨vs, ops, out⟩ = .panic .divideByZero g1) ∨
      (∃ vs1 ops1, pending c ⟨vs, ops, out⟩ = .ok () ⟨vs1, ops1, out⟩ ∧
        (∀ op ∈ ops1, op = '+' ∨ op = '-' ∨ op = '*' ∨ op = '/' ∨ op = '^') ∧
        vs1.length = ops1.length + 1) := by
  intro ops
  induction ops with
  | nil =>
    intro vs hops hl
    exact Or.inr ⟨vs, [], pending_nil _ _ _, hops, hl⟩
  | cons op ops ih =>
    intro vs hops hl
    obtain ⟨b, hb⟩ := shouldApply_operators (hops op (by simp)) hc
    rw [pending_cons, hb]
    cases b with
    | false => exact Or.inr ⟨vs, op :: ops, rfl, hops, hl⟩
    | true =>
      cases vs with
      | nil => simp at hl
      | cons y vs =>
        cases vs with
        | nil => simp at hl
        | cons x vs =>
          simp only [List.length_cons] at hl
          rcases apply_operator_cases (hops op (by simp)) y x vs ops out with ⟨v, h⟩ | h
          · simp only [h]
            exact ih (v :: vs) (fun o ho => hops o (by simp [ho]))
              (by simp only [List.length_cons]; omega)
          · simp only [h]
            exact Or.inl ⟨_, rfl⟩

theorem DrainReaches.head {g0 g1 g : Globals} (hne : Stack.IsEmpty g0.operatorStack = false)
    (hap : apply g0 = .ok () g1) (h : DrainReaches g1 g) : DrainReaches g0 g := by
  induction h with
  | start => exact DrainReaches.step DrainReaches.start hne hap
  | step _ hne1 hap1 ih => exact DrainReaches.step ih hne1 hap1

/-- With as many operands as operators, the final loop ends in the underflow of
the operand stack raised by `apply`, or a division is by zero. -/
theorem drain_balanced (out : List String) :
    ∀ (ops : Stack Char) (op : Char) (vs : Stack Int),
      (∀ o ∈ op :: ops, o = '+' ∨ o = '-' ∨ o = '*' ∨ o = '/' ∨ o = '^') →
      vs.length = ops.length + 1 →
      (∃ g1, drain ⟨vs, op :: ops, out⟩ = .panic .divideByZero g1) ∨
      (∃ g, DrainReaches ⟨vs, op :: ops, out⟩ g ∧
        apply g = .panic (.text "operand stack underflow") ⟨[], [], out⟩ ∧
        drain ⟨vs, op :: ops, out⟩ = .panic (.text "operand stack underflow") ⟨[], [], out⟩) := by
  intro ops
  induction ops with
  | nil =>
    intro op vs _ hl
    cases vs with
    | nil => simp at hl
    | cons x vs =>
      have : vs = [] := List.length_eq_zero.mp (by simpa using hl)
      subst this
      refine Or.inr ⟨_, DrainReaches.start, rfl, ?_⟩
      rw [drain_cons]; rfl
  | cons op2 ops ih =>
    intro op vs hops hl
    cases vs with
    | nil => simp at hl
    | cons y vs =>
      cases vs with
      | nil => simp at hl
      | cons x vs =>
        simp only [List.length_cons] at hl
        rw [drain_cons]
        rcases apply_operator_cases (hops op (by simp)) y x vs (op2 :: ops) out with ⟨v, h⟩ | h
        · simp only [h]
          rcases ih op2 (v :: vs) (fun o ho => hops o (by simp [ho]))
            (by simp only [List.length_cons]; omega) with h1 | ⟨g, h1, h2, h3⟩
          · exact Or.inl h1
          · exact Or.inr ⟨g, DrainReaches.head rfl h h1, h2, h3⟩
        · simp only [h]
          exact Or.inl ⟨_, rfl⟩

/-- Scanning a literal pushes the value the digit loop computes for it. -/
theorem scan_literal_any (l : Literal) (hw : l.WellFormed) (rest : List Char)
    (hr : NoLeadingDigit rest) (g : Globals) :
    scan true (l.text ++ rest) g =
      scan false rest
        ⟨Stack.Push g.operandStack (digitLoop 0 l.digits).1, g.operatorStack, g.stdout⟩ := by
  obtain ⟨pre, digits, post⟩ := l
  obtain ⟨hne, hd⟩ := hw
  simp only at hne hd
  cases digits with
  | nil => exact absurd rfl hne
  | cons d ds =>
    have h1 := digitLoop_run (List.replicate post ' ' ++ rest) (noLeadingDigit_spaces post hr)
      (d :: ds) 0 hd
    simp only [Literal.text, List.append_assoc]
    rw [scan_spaces, List.cons_append, scan_cons, scanStep_digit (hd d (by simp))]
    rw [List.cons_append] at h1
    rw [h1]
    simp only []
    rw [scan_spaces]

theorem isDigit_operator (o : Operator) : isDigit o.char = false := by cases o <;> rfl

theorem operator_char (o : Operator) :
    o.char = '+' ∨ o.char = '-' ∨ o.char = '*' ∨ o.char = '/' ∨ o.char = '^' := by
  cases o <;> simp [Operator.char]

theorem noLeadingDigit_pairs (pairs : List (Operator × Literal)) {rest : List Char}
    (hr : NoLeadingDigit rest) :
    NoLeadingDigit (pairs.flatMap (fun p => p.1.char :: p.2.text) ++ rest) := by
  cases pairs with
  | nil => simpa using hr
  | cons p pairs =>
    simp only [List.flatMap_cons, List.cons_append]
    exact noLeadingDigit_cons (isDigit_operator _) _

/-- Scanning pairs of an operator and a literal keeps one operand more than
operators, or a division is by zero. -/
theorem scan_pairs (rest : List Char) (hr : NoLeadingDigit rest) (out : List String) :
    ∀ (pairs : List (Operator × Literal)) (vs : Stack Int) (ops : Stack Char),
      (∀ p ∈ pairs, p.2.WellFormed) →
      (∀ op ∈ ops, op = '+' ∨ op = '-' ∨ op = '*' ∨ op = '/' ∨ op = '^') →
      vs.length = ops.length + 1 →
      (∃ g1, scan false (pairs.flatMap (fun p => p.1.char :: p.2.text) ++ rest) ⟨vs, ops, out⟩ =
        .panic .divideByZero g1) ∨
      (∃ vs1 ops1,
        scan false (pairs.flatMap (fun p => p.1.char :: p.2.text) ++ rest) ⟨vs, ops, out⟩ =
          scan false rest ⟨vs1, ops1, out⟩ ∧
        (∀ op ∈ ops1, op = '+' ∨ op = '-' ∨ op = '*' ∨ op = '/' ∨ op = '^') ∧
        vs1.length = ops1.length + 1) := by
  intro pairs
  induction pairs with
  | nil => intro vs ops _ hops hl; exact Or.inr ⟨vs, ops, rfl, hops, hl⟩
  | cons p pairs ih =>
    intro vs ops hw hops hl
    obtain ⟨o, l⟩ := p
    simp only [List.flatMap_cons, List.cons_append, List.append_assoc]
    rw [scan_cons, scanStep_operator (operator_char o)]
    rcases pending_balanced (operator_char o) out ops vs hops hl with ⟨g1, h⟩ | ⟨vs1, ops1, h, h1, h2⟩
    · simp only [h]; exact Or.inl ⟨_, rfl⟩
    · simp only [h]
      rw [scan_literal_any l (hw (o, l) (by simp)) _ (noLeadingDigit_pairs pairs hr)]
      simp only [Stack.Push]
      exact ih _ _ (fun q hq => hw q (by simp [hq]))
        (by
          intro op hop
          rcases List.mem_cons.mp hop with rfl | hop
          · exact operator_char o
          · exact h1 op hop)
        (by simp only [List.length_cons]; omega)

/-- C10: for every well-formed expression followed by one trailing operator
(and any number of spaces), if the evaluation from fresh stacks does not end in
a division by zero, then the scan returns normally, and in the final loop
`apply` panics with `operand stack underflow`, with both stacks empty then;
`evaluate` prints that error, not `operator expected but operand found`. -/
theorem trailing_operator_underflow (first : Literal) (pairs : List (Operator × Literal))
    (o : Operator) (k : Nat)
    (hw : first.WellFormed ∧ ∀ p ∈ pairs, p.2.WellFormed)
    (hz : ∀ g, evaluateBody (flatText first pairs ++ o.char :: List.replicate k ' ') fresh ≠
      .panic .divideByZero g) :
    ∃ g1 g,
      scan true (flatText first pairs ++ o.char :: List.replicate k ' ') fresh = .ok () g1 ∧
      DrainReaches g1 g ∧
      apply g = .panic (.text "operand stack underflow") ⟨[], [], []⟩ ∧
      evaluateBody (flatText first pairs ++ o.char :: List.replicate k ' ') fresh =
        .panic (.text "operand stack underflow") ⟨[], [], []⟩ ∧
      evaluate (flatText first pairs ++ o.char :: List.replicate k ' ') fresh =
        .ok () ⟨[], [], ["illegal expression: operand stack underflow"]⟩ := by
  have hnl : NoLeadingDigit (o.char :: List.replicate k ' ') :=
    noLeadingDigit_cons (isDigit_operator o) _
  have hscan : scan true (flatText first pairs ++ o.char :: List.replicate k ' ') fresh =
      scan false (pairs.flatMap (fun p => p.1.char :: p.2.text) ++ o.char :: List.replicate k ' ')
        ⟨[(digitLoop 0 first.digits).1], [], []⟩ := by
    rw [flatText, List.append_assoc, scan_literal_any first hw.1 _ (noLeadingDigit_pairs pairs hnl)]
    rfl
  rcases scan_pairs _ hnl [] pairs [(digitLoop 0 first.digits).1] [] hw.2 (by simp) rfl with
    ⟨g1, h⟩ | ⟨vs1, ops1, h, h1, h2⟩
  · exact absurd (evaluateBody_of_scan_panic (hscan.trans h)) (hz g1)
  · rw [h, scan_cons, scanStep_operator (operator_char o)] at hscan
    rcases pending_balanced (operator_char o) [] ops1 vs1 h1 h2 with
      ⟨g1, h3⟩ | ⟨vs2, ops2, h3, h4, h5⟩
    · simp only [h3] at hscan
      exact absurd (evaluateBody_of_scan_panic hscan) (hz g1)
    · simp only [h3, Stack.Push] at hscan
      have hsp := scan_spaces true k [] ⟨vs2, o.char :: ops2, []⟩
      rw [List.append_nil, scan_nil] at hsp
      rw [hsp] at hscan
      rcases drain_balanced [] ops2 o.char vs2
          (by
            intro op hop
            rcases List.mem_cons.mp hop with rfl | hop
            · exact operator_char o
            · exact h4 op hop) h5 with ⟨g1, h6⟩ | ⟨g, h6, h7, h8⟩
      · have : evaluateBody (flatText first pairs ++ o.char :: List.replicate k ' ') fresh =
            .panic .divideByZero g1 := by
          simp only [evaluateBody, hscan, h6]
        exact absurd this (hz g1)
      · have hb : evaluateBody (flatText first pairs ++ o.char :: List.replicate k ' ') fresh =
            .panic (.text "operand stack underflow") ⟨[], [], []⟩ := by
          simp only [evaluateBody, hscan, h8]
        exact ⟨_, g, hscan, h6, h7, hb, evaluate_of_body_panic hb⟩

/-- The instance of C10 for `1+`. -/
theorem trailing_operator_underflow_witness :
    ∃ g1 g,
      scan true (bytes "1+") fresh = .ok () g1 ∧
      DrainReaches g1 g ∧
      apply g = .panic (.text "operand stack underflow") ⟨[], [], []⟩ ∧
      evaluateBody (bytes "1+") fresh =
        .panic (.text "operand stack underflow") ⟨[], [], []⟩ ∧
      evaluate (bytes "1+") fresh =
        .ok () ⟨[], [], ["illegal expression: operand stack underflow"]⟩ :=
  trailing_operator_underflow ⟨0, ['1'], 0⟩ [] .plus 0 (by decide)
    (by
      intro g h
      have e : evaluateBody (flatText ⟨0, ['1'], 0⟩ [] ++ Operator.plus.char :: List.replicate 0 ' ')
          fresh = .panic (.text "operand stack underflow") ⟨[], [], []⟩ := rfl
      rw [e] at h
      cases h)

/-! ## Illegal characters and the function apply -/

/-- The default case of the scan loop. -/
theorem scanStep_illegal {c : Char} (hd : isDigit c = false)
    (hc : ¬(c = '+' ∨ c = '-' ∨ c = '*' ∨ c = '/' ∨ c = '^'))
    (hp : c ≠ '(' ∧ c ≠ ')') (hs : c ≠ ' ') (flag : Bool) (cs : List Char) (g : Globals) :
    scanStep flag c cs g = .panic (.text (quoteByte c ++ " is an illegal character")) g := by
  rw [scanStep, if_neg (by simp [hd]), if_neg hc, if_neg hp.1, if_neg hp.2, if_neg hs]

/-- C11, refuted as stated: on `2#3` the error names the character in single
quotes, as the verb `%q` writes a byte, not in double quotes. -/
theorem illegal_character_single_quotes :
    evaluateBody (bytes "2#3") fresh =
      .panic (.text "'#' is an illegal character") ⟨[2], [], []⟩ ∧
    evaluateBody (bytes "2#3") fresh ≠
      .panic (.text "\"#\" is an illegal character") ⟨[2], [], []⟩ ∧
    evaluate (bytes "2#3") fresh =
      .ok () ⟨[2], [], ["illegal expression: '#' is an illegal character"]⟩ := by
  refine ⟨rfl, ?_, rfl⟩
  decide

/-- C11, amended: if the scan reaches a character that is not a digit, one of
`+ - * / ^`, a parenthesis or a space, then whatever the stacks and the flag
hold, the body of `evaluate` panics with the text made of that byte written as
a single-quoted character literal followed by ` is an illegal character`, with
the globals as they are when the character is reached, and `evaluate` prints
that error. -/
theorem illegal_character (expr cs : List Char) (c : Char) (flag : Bool) (g0 g : Globals)
    (h : ScanReaches expr g0 flag (c :: cs) g)
    (hd : isDigit c = false)
    (hc : ¬(c = '+' ∨ c = '-' ∨ c = '*' ∨ c = '/' ∨ c = '^'))
    (hp : c ≠ '(' ∧ c ≠ ')') (hs : c ≠ ' ') :
    evaluateBody expr g0 = .panic (.text (quoteByte c ++ " is an illegal character")) g ∧
    evaluate expr g0 =
      .ok () ⟨g.operandStack, g.operatorStack,
        g.stdout ++ ["illegal expression: " ++ (quoteByte c ++ " is an illegal character")]⟩ := by
  have hb : evaluateBody expr g0 =
      .panic (.text (quoteByte c ++ " is an illegal character")) g := by
    apply evaluateBody_of_scan_panic
    rw [scan_of_reaches h, scan_cons, scanStep_illegal hd hc hp hs]
  exact ⟨hb, evaluate_of_body_panic hb⟩

/-- The instance of the amended C11 for `2#3`. -/
theorem illegal_character_witness :
    evaluateBody (bytes "2#3") fresh =
      .panic (.text "'#' is an illegal character") ⟨[2], [], []⟩ ∧
    evaluate (bytes "2#3") fresh =
      .ok () ⟨[2], [], ["illegal expression: '#' is an illegal character"]⟩ :=
  illegal_character (bytes "2#3") ['3'] '#' false fresh ⟨[2], [], []⟩
    (ScanReaches.step (ScanReaches.start : ScanReaches _ _ true ('2' :: ['#', '3']) fresh)
      (rfl : scanStep true '2' ['#', '3'] fresh = .ok (false, '#' :: ['3']) ⟨[2], [], []⟩))
    (by decide) (by decide) (by decide) (by decide)

/-- C12: with one of `+ - * / ^` on top of the operator stack, `b` on top of the
operand stack and `a` directly beneath (and `b` not 0 for `/`), `apply` returns
with the operator, `b` and `a` removed and the single value `a op b` pushed,
computed in the native integers with `a` as the left and `b` as the right
operand (the quotient truncated toward zero, the power by `intPower`);
everything beneath on both stacks and the printed lines are unchanged. -/
theorem apply_computes (a b : Int) (vs : Stack Int) (ops : Stack Char) (out : List String)
    (hb : b ≠ 0) :
    apply ⟨b :: a :: vs, '+' :: ops, out⟩ = .ok () ⟨wrapInt (a + b) :: vs, ops, out⟩ ∧
    apply ⟨b :: a :: vs, '-' :: ops, out⟩ = .ok () ⟨wrapInt (a - b) :: vs, ops, out⟩ ∧
    apply ⟨b :: a :: vs, '*' :: ops, out⟩ = .ok () ⟨wrapInt (a * b) :: vs, ops, out⟩ ∧
    apply ⟨b :: a :: vs, '/' :: ops, out⟩ =
      .ok () ⟨wrapInt (Int.tdiv a b) :: vs, ops, out⟩ ∧
    apply ⟨b :: a :: vs, '^' :: ops, out⟩ = .ok () ⟨intPower a b :: vs, ops, out⟩ ∧
    apply ⟨0 :: a :: vs, '+' :: ops, out⟩ = .ok () ⟨wrapInt (a + 0) :: vs, ops, out⟩ ∧
    apply ⟨0 :: a :: vs, '-' :: ops, out⟩ = .ok () ⟨wrapInt (a - 0) :: vs, ops, out⟩ ∧
    apply ⟨0 :: a :: vs, '*' :: ops, out⟩ = .ok () ⟨wrapInt (a * 0) :: vs, ops, out⟩ ∧
    apply ⟨0 :: a :: vs, '^' :: ops, out⟩ = .ok () ⟨intPower a 0 :: vs, ops, out⟩ :=
  ⟨apply_plus _ _ _ _ _, apply_minus _ _ _ _ _, apply_times _ _ _ _ _,
    apply_divide _ _ hb _ _ _, apply_power _ _ _ _ _, apply_plus _ _ _ _ _,
    apply_minus _ _ _ _ _, apply_times _ _ _ _ _, apply_power _ _ _ _ _⟩

/-- The instance of C12 for the operands 7 and 2 over the stacks `[1]` and
`['+']`: 9, 5, 14, 3 and 49. -/
theorem apply_computes_witness :
    apply ⟨[2, 7, 1], ['+', '+'], []⟩ = .ok () ⟨[wrapInt (7 + 2), 1], ['+'], []⟩ ∧
    apply ⟨[2, 7, 1], ['-', '+'], []⟩ = .ok () ⟨[wrapInt (7 - 2), 1], ['+'], []⟩ ∧
    apply ⟨[2, 7, 1], ['*', '+'], []⟩ = .ok () ⟨[wrapInt (7 * 2), 1], ['+'], []⟩ ∧
    apply ⟨[2, 7, 1], ['/', '+'], []⟩ = .ok () ⟨[wrapInt (Int.tdiv 7 2), 1], ['+'], []⟩ ∧
    apply ⟨[2, 7, 1], ['^', '+'], []⟩ = .ok () ⟨[intPower 7 2, 1], ['+'], []⟩ ∧
    apply ⟨[0, 7, 1], ['+', '+'], []⟩ = .ok () ⟨[wrapInt (7 + 0), 1], ['+'], []⟩ ∧
    apply ⟨[0, 7, 1], ['-', '+'], []⟩ = .ok () ⟨[wrapInt (7 - 0), 1], ['+'], []⟩ ∧
    apply ⟨[0, 7, 1], ['*', '+'], []⟩ = .ok () ⟨[wrapInt (7 * 0), 1], ['+'], []⟩ ∧
    apply ⟨[0, 7, 1], ['^', '+'], []⟩ = .ok () ⟨[intPower 7 0, 1], ['+'], []⟩ :=
  apply_computes 7 2 [1] ['+'] [] (by decide)

/-- C13: `apply` panics with `operator stack underflow` exactly when the
operator stack is empty when it is called, and with `operand stack underflow`
exactly when the operator stack is not empty and the operand stack holds fewer
than two values; so it reports an underflow if and only if the operator stack
is empty or fewer than two operands are there. -/
theorem apply_underflow_iff (g : Globals) :
    ((∃ g1, apply g = .panic (.text "operator stack underflow") g1) ↔
      g.operatorStack = []) ∧
    ((∃ g1, apply g = .panic (.text "operand stack underflow") g1) ↔
      (g.operatorStack ≠ [] ∧ g.operandStack.length < 2)) ∧
    ((∃ g1, apply g = .panic (.text "operator stack underflow") g1 ∨
        apply g = .panic (.text "operand stack underflow") g1) ↔
      (g.operatorStack = [] ∨ g.operandStack.length < 2)) := by
  obtain ⟨vs, ops, out⟩ := g
  cases ops with
  | nil =>
    have e : apply ⟨vs, [], out⟩ =
        .panic (.text "operator stack underflow") ⟨vs, [], out⟩ := rfl
    refine ⟨⟨fun _ => rfl, fun _ => ⟨_, e⟩⟩, ⟨?_, ?_⟩,
      ⟨fun _ => Or.inl rfl, fun _ => ⟨_, Or.inl e⟩⟩⟩
    · rintro ⟨g1, h⟩
      rw [e] at h
      simp only [Result.panic.injEq, Panic.text.injEq] at h
      exact absurd h.1 (by decide)
    · rintro ⟨h, _⟩; exact absurd rfl h
  | cons op ops =>
    cases vs with
    | nil =>
      have e : apply ⟨[], op :: ops, out⟩ =
          .panic (.text "operand stack underflow") ⟨[], ops, out⟩ := rfl
      refine ⟨⟨?_, fun h => by cases h⟩,
        ⟨fun _ => ⟨by simp, by simp⟩, fun _ => ⟨_, e⟩⟩,
        ⟨fun _ => Or.inr (by simp), fun _ => ⟨_, Or.inr e⟩⟩⟩
      rintro ⟨g1, h⟩
      rw [e] at h
      simp only [Result.panic.injEq, Panic.text.injEq] at h
      exact absurd h.1 (by decide)
    | cons y vs =>
      cases vs with
      | nil =>
        have e : apply ⟨[y], op :: ops, out⟩ =
            .panic (.text "operand stack underflow") ⟨[], ops, out⟩ := rfl
        refine ⟨⟨?_, fun h => by cases h⟩,
          ⟨fun _ => ⟨by simp, by simp⟩, fun _ => ⟨_, e⟩⟩,
          ⟨fun _ => Or.inr (by simp), fun _ => ⟨_, Or.inr e⟩⟩⟩
        rintro ⟨g1, h⟩
        rw [e] at h
        simp only [Result.panic.injEq, Panic.text.injEq] at h
        exact absurd h.1 (by decide)
      | cons x vs =>
        have hno : ∀ (s : String), s = "operator stack underflow" ∨ s = "operand stack underflow" →
            ∀ g1, apply ⟨y :: x :: vs, op :: ops, out⟩ ≠ .panic (.text s) g1 := by
          intro s hs g1 h
          simp only [apply, Stack.Pop] at h
          split_ifs at h <;>
            simp only [Result.panic.injEq, Panic.text.injEq, reduceCtorEq, false_and] at h
          rcases hs with rfl | rfl
          · exact absurd h.1 (by decide)
          · exact absurd h.1 (by decide)
        have hlen : ¬((y :: x :: vs).length < 2) := by simp
        refine ⟨⟨?_, fun h => by cases h⟩, ⟨?_, ?_⟩, ⟨?_, ?_⟩⟩
        · rintro ⟨g1, h⟩; exact absurd h (hno _ (Or.inl rfl) g1)
        · rintro ⟨g1, h⟩; exact absurd h (hno _ (Or.inr rfl) g1)
        · rintro ⟨_, h⟩; exact absurd h hlen
        · rintro ⟨g1, h | h⟩
          · exact absurd h (hno _ (Or.inl rfl) g1)
          · exact absurd h (hno _ (Or.inr rfl) g1)
        · rintro (h | h)
          · cases h
          · exact absurd h hlen

/-! ## The power function and the pending-operator rule -/

/-- The reduction to 64 bits does not see a multiple of `2^64`. -/
theorem wrapInt_add_mul (z k : Int) : wrapInt (z + 18446744073709551616 * k) = wrapInt z := by
  unfold wrapInt
  omega

/-- A product may be reduced to 64 bits before or after its left factor is. -/
theorem wrapInt_mul_wrapInt (a b : Int) : wrapInt (wrapInt a * b) = wrapInt (a * b) := by
  obtain ⟨q, hq⟩ : ∃ q : Int, wrapInt a = a + 18446744073709551616 * q := by
    refine ⟨-((a + 9223372036854775808) / 18446744073709551616), ?_⟩
    unfold wrapInt
    omega
  rw [hq, show (a + 18446744073709551616 * q) * b = a * b + 18446744073709551616 * (q * b) by ring]
  exact wrapInt_add_mul _ _

/-- The loop of `intPower` computes the product in the native integers. -/
theorem intPower_loop_wrap (x : Int) :
    ∀ (n : Nat) (pow : Int), intPower.loop x n (wrapInt pow) = wrapInt (pow * x ^ n) := by
  intro n
  induction n with
  | zero => intro pow; simp [intPower.loop]
  | succ n ih =>
    intro pow
    rw [intPower.loop, wrapInt_mul_wrapInt, ih, pow_succ']
    congr 1; ring

/-- C14: for `y ≥ 0`, `intPower(x, y)` is `x` to the power `y`, the product of
`y` copies of `x`, computed in the native integers (so it is the exact power
whenever that fits an `int`, and `intPower(x, 0) = 1`); for `y < 0` it is 1. -/
theorem intPower_spec (x y : Int) :
    (0 ≤ y → intPower x y = wrapInt (x ^ y.toNat)) ∧
    (0 ≤ y → InRange (x ^ y.toNat) → intPower x y = x ^ y.toNat) ∧
    intPower x 0 = 1 ∧
    (y < 0 → intPower x y = 1) := by
  have h : intPower x y = wrapInt (x ^ y.toNat) := by
    have := intPower_loop_wrap x y.toNat 1
    rw [show wrapInt 1 = 1 from rfl, one_mul] at this
    exact this
  refine ⟨fun _ => h, fun _ hr => ?_, rfl, fun hy => ?_⟩
  · rw [h, wrapInt_of_inRange hr]
  · have : y.toNat = 0 := Int.toNat_eq_zero.mpr (le_of_lt hy)
    rw [intPower, this]; rfl

/-- The instances of C14 for `2^10`, `(-3)^3`, `2^64` (which wraps to 0) and
the exponent `-2`. -/
theorem intPower_spec_witness :
    intPower 2 10 = 1024 ∧ intPower (-3) 3 = -27 ∧ intPower 2 64 = 0 ∧ intPower 5 (-2) = 1 :=
  ⟨(intPower_spec 2 10).2.1 (by decide) (by decide),
   (intPower_spec (-3) 3).2.1 (by decide) (by decide),
   (intPower_spec 2 64).1 (by decide),
   (intPower_spec 5 (-2)).2.2.2 (by decide)⟩

/-- C15: for every operator `top` on the stack and every incoming operator, the
test of the scan loop (the precedence of `top` is greater, or it is equal and
`top` is not right-associative) gives the answer of the rule of the
specification (the precedence of `top` is greater, or it is equal and the
incoming operator is left-associative); the precedences and the associativity
of the code are those of the tables of the specification. -/
theorem shouldApply_refines_spec (top incoming : Operator) :
    shouldApply top.char incoming.char = .ok (specShouldApply top incoming) ∧
    precedence top.char = .ok (specRank top : Int) ∧
    isRightAssociative top.char = !specLeftAssociative top := by
  cases top <;> cases incoming <;> exact ⟨rfl, rfl, rfl⟩

/-! ## Balanced stacks -/

/-- A call of `apply` that returns found an operator and two operands, and
has replaced the two operands by one value. -/
theorem apply_ok_shape {g g1 : Globals} (h : apply g = .ok () g1) :
    ∃ (y x : Int) (vs : Stack Int) (op : Char) (ops : Stack Char) (out : List String)
      (v : Int), g = ⟨y :: x :: vs, op :: ops, out⟩ ∧ g1 = ⟨v :: vs, ops, out⟩ := by
  obtain ⟨vs, ops, out⟩ := g
  cases ops with
  | nil => rw [apply_nil] at h; cases h
  | cons op ops =>
    cases vs with
    | nil => cases h
    | cons y vs =>
      cases vs with
      | nil => cases h
      | cons x vs =>
        simp only [apply, Stack.Pop, Stack.Push] at h
        split_ifs at h <;>
          (simp only [Result.ok.injEq, true_and] at h
           exact ⟨y, x, vs, op, ops, out, _, rfl, h.symm⟩)

/-- A call of `apply` that returns keeps the shape of the stacks. -/
theorem apply_balanced {flag : Bool} {g g1 : Globals} (hb : Balanced flag g)
    (h : apply g = .ok () g1) : Balanced flag g1 := by
  obtain ⟨y, x, vs, op, ops, out, v, rfl, rfl⟩ := apply_ok_shape h
  obtain ⟨h1, h2⟩ := hb
  refine ⟨fun o ho => h1 o (by simp [ho]), ?_⟩
  simp only [List.length_cons] at h2 ⊢
  omega

/-- The inner loop of the operator case keeps the shape of the stacks. -/
theorem pendingReaches_balanced {c : Char} {flag : Bool} {g0 g : Globals}
    (hb : Balanced flag g0) (h : PendingReaches c g0 g) : Balanced flag g := by
  induction h with
  | start => exact hb
  | step _ _ _ hap ih => exact apply_balanced ih hap

/-- The final loop keeps the shape of the stacks. -/
theorem drainReaches_balanced {flag : Bool} {g0 g : Globals}
    (hb : Balanced flag g0) (h : DrainReaches g0 g) : Balanced flag g := by
  induction h with
  | start => exact hb
  | step _ _ hap ih => exact apply_balanced ih hap

/-- An iteration of the scan loop keeps the shape of the stacks. -/
theorem scanStep_balanced {flag flag1 : Bool} {c : Char} {cs rest : List Char}
    {g g1 : Globals} (hb : Balanced flag g)
    (h : scanStep flag c cs g = .ok (flag1, rest) g1) : Balanced flag1 g1 := by
  obtain ⟨h1, h2⟩ := hb
  by_cases hd : isDigit c = true
  · cases flag with
    | false => rw [scanStep_digit_unexpected hd] at h; cases h
    | true =>
      rw [scanStep_digit hd] at h
      simp only [Result.ok.injEq, Prod.mk.injEq] at h
      obtain ⟨⟨rfl, -⟩, rfl⟩ := h
      refine ⟨h1, ?_⟩
      simp only [Stack.Push, List.length_cons] at h2 ⊢
      simpa using h2
  · by_cases hc : c = '+' ∨ c = '-' ∨ c = '*' ∨ c = '/' ∨ c = '^'
    · cases flag with
      | true => rw [scanStep_operator_unexpected hc] at h; cases h
      | false =>
        rw [scanStep_operator hc] at h
        obtain ⟨vs, ops, out⟩ := g
        rcases pending_balanced hc out ops vs h1 (by simpa using h2) with
          ⟨g2, hp⟩ | ⟨vs1, ops1, hp, k1, k2⟩
        · rw [hp] at h; cases h
        · rw [hp] at h
          simp only [Result.ok.injEq, Prod.mk.injEq] at h
          obtain ⟨⟨rfl, -⟩, rfl⟩ := h
          refine ⟨?_, ?_⟩
          · intro op hop
            rcases List.mem_cons.mp hop with rfl | hop
            · exact hc
            · exact k1 op hop
          · simp only [Stack.Push, List.length_cons]
            simpa using k2
    · rw [scanStep, if_neg hd, if_neg hc] at h
      split_ifs at h <;>
        (simp only [Result.ok.injEq, Prod.mk.injEq] at h
         obtain ⟨⟨rfl, -⟩, rfl⟩ := h
         exact ⟨h1, h2⟩)

/-- Every configuration at the top of the scan loop has balanced stacks. -/
theorem reaches_balanced {expr : List Char} {g0 : Globals} (hb : Balanced true g0)
    {flag : Bool} {rest : List Char} {g : Globals}
    (h : ScanReaches expr g0 flag rest g) : Balanced flag g := by
  induction h with
  | start => exact hb
  | step _ hs ih => exact scanStep_balanced ih hs

/-- Fresh stacks are balanced. -/
theorem balanced_fresh : Balanced true fresh :=
  ⟨fun _ hop => absurd hop (List.not_mem_nil _), rfl⟩

/-- A scan that returns has reached the end of the input. -/
theorem scan_ok_reaches {expr : List Char} {g0 gs : Globals} :
    ∀ (n : Nat) (rest : List Char), rest.length ≤ n → ∀ (flag : Bool) (g : Globals),
      ScanReaches expr g0 flag rest g → scan flag rest g = .ok () gs →
      ∃ flag1, ScanReaches expr g0 flag1 [] gs := by
  intro n
  induction n with
  | zero =>
    intro rest hl flag g hr hs
    have : rest = [] := List.length_eq_zero.mp (by omega)
    subst this
    rw [scan_nil] at hs
    simp only [Result.ok.injEq, true_and] at hs
    subst hs
    exact ⟨flag, hr⟩
  | succ n ih =>
    intro rest hl flag g hr hs
    cases rest with
    | nil =>
      rw [scan_nil] at hs
      simp only [Result.ok.injEq, true_and] at hs
      subst hs
      exact ⟨flag, hr⟩
    | cons c cs =>
      rw [scan_cons] at hs
      cases hst : scanStep flag c cs g with
      | ok a g1 =>
        obtain ⟨flag1, rest1⟩ := a
        rw [hst] at hs
        have hlen := scanStep_length hst
        simp only [List.length_cons] at hl
        exact ih rest1 (by omega) flag1 g1 (ScanReaches.step hr hst) hs
      | panic p g1 => rw [hst] at hs; cases hs
      | timeout => rw [hst] at hs; cases hs

/-- A final loop that returns has emptied the operator stack, through the
states it reaches. -/
theorem drain_ok_reaches :
    ∀ (ops : Stack Char) (vs : Stack Int) (out : List String) (g2 : Globals),
      drain ⟨vs, ops, out⟩ = .ok () g2 →
      DrainReaches ⟨vs, ops, out⟩ g2 ∧ g2.operatorStack = [] := by
  intro ops
  induction ops with
  | nil =>
    intro vs out g2 h
    rw [drain_nil] at h
    simp only [Result.ok.injEq, true_and] at h
    subst h
    exact ⟨DrainReaches.start, rfl⟩
  | cons op ops ih =>
    intro vs out g2 h
    rw [drain_cons] at h
    cases hap : apply ⟨vs, op :: ops, out⟩ with
    | ok u g1 =>
      rw [hap] at h
      obtain ⟨y, x, vs1, op1, ops1, out1, v, he, rfl⟩ := apply_ok_shape hap
      simp only [Globals.mk.injEq, List.cons.injEq] at he
      obtain ⟨-, ⟨-, rfl⟩, rfl⟩ := he
      obtain ⟨k1, k2⟩ := ih _ _ _ h
      exact ⟨DrainReaches.head rfl hap k1, k2⟩
    | panic p g1 => rw [hap] at h; cases h
    | timeout => rw [hap] at h; cases h

/-! ## The panics of an evaluation -/

/-- The text of an illegal-character panic starts with a single quote. -/
theorem illegal_text_head (c : Char) :
    (quoteByte c ++ " is an illegal character").data.head? = some '\'' := by
  simp [quoteByte, String.data_append]

/-- The text of an illegal-character panic differs from every text that does
not start with a single quote. -/
theorem illegal_text_ne (c : Char) {s : String} (hs : s.data.head? ≠ some '\'') :
    Panic.text (quoteByte c ++ " is an illegal character") ≠ Panic.text s := by
  intro h
  simp only [Panic.text.injEq] at h
  exact hs (h ▸ illegal_text_head c)

/-- With balanced stacks, an iteration of the scan loop can only panic for a
misplaced operand, a misplaced operator, an illegal character or a division by
zero. -/
theorem scanStep_panic_cases {flag : Bool} {c : Char} {cs : List Char} {g g1 : Globals}
    {p : Panic} (hb : Balanced flag g) (h : scanStep flag c cs g = .panic p g1) :
    p = .text "operator expected but operand found" ∨
    p = .text "operand expected but operator found" ∨
    (∃ d, p = .text (quoteByte d ++ " is an illegal character")) ∨
    p = .divideByZero := by
  obtain ⟨h1, h2⟩ := hb
  by_cases hd : isDigit c = true
  · cases flag with
    | false =>
      rw [scanStep_digit_unexpected hd] at h
      simp only [Result.panic.injEq] at h
      exact Or.inl h.1.symm
    | true => rw [scanStep_digit hd] at h; cases h
  · by_cases hc : c = '+' ∨ c = '-' ∨ c = '*' ∨ c = '/' ∨ c = '^'
    · cases flag with
      | true =>
        rw [scanStep_operator_unexpected hc] at h
        simp only [Result.panic.injEq] at h
        exact Or.inr (Or.inl h.1.symm)
      | false =>
        rw [scanStep_operator hc] at h
        obtain ⟨vs, ops, out⟩ := g
        rcases pending_balanced hc out ops vs h1 (by simpa using h2) with
          ⟨g2, hp⟩ | ⟨vs1, ops1, hp, -, -⟩
        · rw [hp] at h
          simp only [Result.panic.injEq] at h
          exact Or.inr (Or.inr (Or.inr h.1.symm))
        · rw [hp] at h; cases h
    · rw [scanStep, if_neg hd, if_neg hc] at h
      split_ifs at h
      simp only [Result.panic.injEq] at h
      exact Or.inr (Or.inr (Or.inl ⟨c, h.1.symm⟩))

/-- With balanced stacks, the scan loop can only panic for a misplaced operand,
a misplaced operator, an illegal character or a division by zero. -/
theorem scan_panic_cases {p : Panic} {g1 : Globals} :
    ∀ (n : Nat) (rest : List Char), rest.length ≤ n → ∀ (flag : Bool) (g : Globals),
      Balanced flag g → scan flag rest g = .panic p g1 →
      p = .text "operator expected but operand found" ∨
      p = .text "operand expected but operator found" ∨
      (∃ d, p = .text (quoteByte d ++ " is an illegal character")) ∨
      p = .divideByZero := by
  intro n
  induction n with
  | zero =>
    intro rest hl flag g _ hs
    have : rest = [] := List.length_eq_zero.mp (by omega)
    subst this
    rw [scan_nil] at hs; cases hs
  | succ n ih =>
    intro rest hl flag g hb hs
    cases rest with
    | nil => rw [scan_nil] at hs; cases hs
    | cons c cs =>
      rw [scan_cons] at hs
      cases hst : scanStep flag c cs g with
      | ok a g2 =>
        obtain ⟨flag1, rest1⟩ := a
        rw [hst] at hs
        have hlen := scanStep_length hst
        simp only [List.length_cons] at hl
        exact ih rest1 (by omega) flag1 g2 (scanStep_balanced hb hst) hs
      | panic q g2 =>
        rw [hst] at hs
        simp only [Result.panic.injEq] at hs
        obtain ⟨rfl, -⟩ := hs
        exact scanStep_panic_cases hb hst
      | timeout => rw [hst] at hs; cases hs

/-- With one operand more than operators, the final loop ends with a single
operand and no operator, or a division is by zero. -/
theorem drain_balanced_false (out : List String) :
    ∀ (ops : Stack Char) (vs : Stack Int),
      (∀ op ∈ ops, op = '+' ∨ op = '-' ∨ op = '*' ∨ op = '/' ∨ op = '^') →
      vs.length = ops.length + 1 →
      (∃ g1, drain ⟨vs, ops, out⟩ = .panic .divideByZero g1) ∨
      (∃ v, drain ⟨vs, ops, out⟩ = .ok () ⟨[v], [], out⟩) := by
  intro ops
  induction ops with
  | nil =>
    intro vs _ hl
    cases vs with
    | nil => simp at hl
    | cons v vs =>
      have : vs = [] := List.length_eq_zero.mp (by simpa using hl)
      subst this
      exact Or.inr ⟨v, drain_nil _ _⟩
  | cons op ops ih =>
    intro vs hops hl
    cases vs with
    | nil => simp at hl
    | cons y vs =>
      cases vs with
      | nil => simp at hl
      | cons x vs =>
        simp only [List.length_cons] at hl
        rw [drain_cons]
        rcases apply_operator_cases (hops op (by simp)) y x vs ops out with ⟨v, h⟩ | h
        · simp only [h]
          exact ih (v :: vs) (fun o ho => hops o (by simp [ho]))
            (by simp only [List.length_cons]; omega)
        · simp only [h]
          exact Or.inl ⟨_, rfl⟩

/-- The body of `evaluate` started from fresh stacks can only panic for a
misplaced operand, a misplaced operator, an illegal character, a division by
zero, or the underflow of the operand stack. -/
theorem evaluateBody_panic_cases {expr : List Char} {p : Panic} {g : Globals}
    (h : evaluateBody expr fresh = .panic p g) :
    p = .text "operator expected but operand found" ∨
    p = .text "operand expected but operator found" ∨
    (∃ d, p = .text (quoteByte d ++ " is an illegal character")) ∨
    p = .divideByZero ∨
    p = .text "operand stack underflow" := by
  unfold evaluateBody at h
  cases hs : scan true expr fresh with
  | timeout => rw [hs] at h; cases h
  | panic q g1 =>
    rw [hs] at h
    simp only [Result.panic.injEq] at h
    obtain ⟨rfl, -⟩ := h
    rcases scan_panic_cases _ _ (le_refl _) _ _ balanced_fresh hs with k | k | k | k
    · exact Or.inl k
    · exact Or.inr (Or.inl k)
    · exact Or.inr (Or.inr (Or.inl k))
    · exact Or.inr (Or.inr (Or.inr (Or.inl k)))
  | ok u gs =>
    rw [hs] at h
    simp only [] at h
    obtain ⟨flag, hr⟩ := scan_ok_reaches _ _ (le_refl _) _ _ ScanReaches.start hs
    obtain ⟨h1, h2⟩ := reaches_balanced balanced_fresh hr
    obtain ⟨vs, ops, out⟩ := gs
    cases flag with
    | false =>
      rcases drain_balanced_false out ops vs h1 (by simpa using h2) with ⟨g1, hd⟩ | ⟨v, hd⟩
      · rw [hd] at h
        simp only [Result.panic.injEq] at h
        exact Or.inr (Or.inr (Or.inr (Or.inl h.1.symm)))
      · rw [hd] at h
        simp [Stack.Pop, Stack.IsEmpty] at h
    | true =>
      cases ops with
      | nil =>
        have : vs = [] := List.length_eq_zero.mp (by simpa using h2)
        subst this
        rw [drain_nil] at h
        simp [Stack.Pop, Stack.IsEmpty] at h
      | cons op ops =>
        rcases drain_balanced out ops op vs h1 (by simpa using h2) with
          ⟨g1, hd⟩ | ⟨g1, -, -, hd⟩
        · rw [hd] at h
          simp only [Result.panic.injEq] at h
          exact Or.inr (Or.inr (Or.inr (Or.inl h.1.symm)))
        · rw [hd] at h
          simp only [Result.panic.injEq] at h
          exact Or.inr (Or.inr (Or.inr (Or.inr h.1.symm)))

/-! ## Invariants of the stacks -/

/-- C16: in every evaluation started from fresh stacks, at the top of every
iteration of the scan loop, of the inner loop of the operator case and of the
final loop, the operator stack holds only characters among `+ - * / ^` (the
operand stack holds integers by its type), and the body of `evaluate` never
panics with `unknown operator`. -/
theorem operators_only (expr : List Char) :
    (∀ (flag : Bool) (rest : List Char) (g : Globals),
      ScanReaches expr fresh flag rest g →
      ∀ op ∈ g.operatorStack, op = '+' ∨ op = '-' ∨ op = '*' ∨ op = '/' ∨ op = '^') ∧
    (∀ (c : Char) (cs : List Char) (gs g : Globals),
      ScanReaches expr fresh false (c :: cs) gs → PendingReaches c gs g →
      ∀ op ∈ g.operatorStack, op = '+' ∨ op = '-' ∨ op = '*' ∨ op = '/' ∨ op = '^') ∧
    (∀ (gs g : Globals), scan true expr fresh = .ok () gs → DrainReaches gs g →
      ∀ op ∈ g.operatorStack, op = '+' ∨ op = '-' ∨ op = '*' ∨ op = '/' ∨ op = '^') ∧
    (∀ g, evaluateBody expr fresh ≠ .panic (.text "unknown operator") g) := by
  refine ⟨fun flag rest g h => (reaches_balanced balanced_fresh h).1,
    fun c cs gs g h hp => (pendingReaches_balanced (reaches_balanced balanced_fresh h) hp).1,
    fun gs g hs hd => ?_, fun g h => ?_⟩
  · obtain ⟨flag, hr⟩ := scan_ok_reaches _ _ (le_refl _) _ _ ScanReaches.start hs
    exact (drainReaches_balanced (reaches_balanced balanced_fresh hr) hd).1
  · rcases evaluateBody_panic_cases h with k | k | ⟨d, k⟩ | k | k
    · exact absurd k (by decide)
    · exact absurd k (by decide)
    · exact illegal_text_ne d (by decide) k.symm
    · exact absurd k (by decide)
    · exact absurd k (by decide)

/-- The instance of C16 for `2*3+4`: when the `+` is reached the operator stack
holds `*`, and the evaluation does not end in `unknown operator`. -/
theorem operators_only_witness :
    (∀ op ∈ ['*'], op = '+' ∨ op = '-' ∨ op = '*' ∨ op = '/' ∨ op = '^') ∧
    evaluateBody (bytes "2*3+4") fresh ≠ .panic (.text "unknown operator") fresh :=
  ⟨(operators_only (bytes "2*3+4")).1 false ['+', '4'] ⟨[3, 2], ['*'], []⟩
      (ScanReaches.step
        (ScanReaches.step
          (ScanReaches.step
            (ScanReaches.start : ScanReaches _ _ true ('2' :: ['*', '3', '+', '4']) fresh)
            (rfl : scanStep true '2' ['*', '3', '+', '4'] fresh =
              .ok (false, '*' :: ['3', '+', '4']) ⟨[2], [], []⟩))
          (rfl : scanStep false '*' ['3', '+', '4'] ⟨[2], [], []⟩ =
            .ok (true, '3' :: ['+', '4']) ⟨[2], ['*'], []⟩))
        (rfl : scanStep true '3' ['+', '4'] ⟨[2], ['*'], []⟩ =
          .ok (false, ['+', '4']) ⟨[3, 2], ['*'], []⟩)),
   (operators_only (bytes "2*3+4")).2.2.2 fresh⟩

/-- C17: an evaluation started from fresh stacks never panics with `too many
operands`: whenever the scan and the final loop both return, at most one value
is on the operand stack. -/
theorem never_too_many_operands (expr : List Char) :
    (∀ g, evaluateBody expr fresh ≠ .panic (.text "too many operands") g) ∧
    (∀ (gs g2 : Globals), scan true expr fresh = .ok () gs → drain gs = .ok () g2 →
      g2.operandStack.length ≤ 1) := by
  refine ⟨fun g h => ?_, fun gs g2 hs hd => ?_⟩
  · rcases evaluateBody_panic_cases h with k | k | ⟨d, k⟩ | k | k
    · exact absurd k (by decide)
    · exact absurd k (by decide)
    · exact illegal_text_ne d (by decide) k.symm
    · exact absurd k (by decide)
    · exact absurd k (by decide)
  · obtain ⟨flag, hr⟩ := scan_ok_reaches _ _ (le_refl _) _ _ ScanReaches.start hs
    obtain ⟨vs, ops, out⟩ := gs
    obtain ⟨k1, k2⟩ := drain_ok_reaches ops vs out g2 hd
    have hb := (drainReaches_balanced (reaches_balanced balanced_fresh hr) k1).2
    rw [k2] at hb
    cases flag
    · simp only [List.length_nil, Bool.false_eq_true, if_false, zero_add] at hb
      omega
    · simp only [List.length_nil, if_true, add_zero] at hb
      omega

/-- The instance of C17 for `1+2*3`: after the final loop the operand stack
holds the single value 7. -/
theorem never_too_many_operands_witness :
    evaluateBody (bytes "1+2*3") fresh ≠ .panic (.text "too many operands") fresh ∧
    [(7 : Int)].length ≤ 1 :=
  ⟨(never_too_many_operands (bytes "1+2*3")).1 fresh,
   (never_too_many_operands (bytes "1+2*3")).2 ⟨[3, 2, 1], ['*', '+'], []⟩ ⟨[7], [], []⟩
      rfl rfl⟩

/-- C18: in every evaluation started from fresh stacks, at the top of every
iteration of the scan loop the operand stack has the size of the operator
stack when an operand is expected and that size plus one when an operator is
expected; an `apply` called from the inner loop of the operator case returns
or divides by zero, so it never underflows; and the scan loop never ends in a
stack underflow, which can thus only be raised in the final loop. -/
theorem scan_loop_balance (expr : List Char) :
    (∀ (flag : Bool) (rest : List Char) (g : Globals),
      ScanReaches expr fresh flag rest g →
      g.operandStack.length = g.operatorStack.length + (if flag then 0 else 1)) ∧
    (∀ (c : Char) (cs : List Char) (gs g : Globals) (op : Char),
      ScanReaches expr fresh false (c :: cs) gs →
      (c = '+' ∨ c = '-' ∨ c = '*' ∨ c = '/' ∨ c = '^') →
      PendingReaches c gs g →
      Stack.Top g.operatorStack = some op →
      shouldApply op c = .ok true →
      (∃ g1, apply g = .ok () g1) ∨ (∃ g1, apply g = .panic .divideByZero g1)) ∧
    (∀ (p : Panic) (g : Globals), scan true expr fresh = .panic p g →
      p ≠ .text "operator stack underflow" ∧ p ≠ .text "operand stack underflow") := by
  refine ⟨fun flag rest g h => (reaches_balanced balanced_fresh h).2,
    fun c cs gs g op h _ hp htop _ => ?_, fun p g h => ?_⟩
  · obtain ⟨h1, h2⟩ := pendingReaches_balanced (reaches_balanced balanced_fresh h) hp
    obtain ⟨vs, ops, out⟩ := g
    cases ops with
    | nil => simp [Stack.Top] at htop
    | cons o ops =>
      cases vs with
      | nil => simp at h2
      | cons y vs =>
        cases vs with
        | nil => simp at h2
        | cons x vs =>
          rcases apply_operator_cases (h1 o (by simp)) y x vs ops out with ⟨v, k⟩ | k
          · exact Or.inl ⟨_, k⟩
          · exact Or.inr ⟨_, k⟩
  · rcases scan_panic_cases _ _ (le_refl _) _ _ balanced_fresh h with k | k | ⟨d, k⟩ | k
    · subst k; exact ⟨by decide, by decide⟩
    · subst k; exact ⟨by decide, by decide⟩
    · subst k; exact ⟨illegal_text_ne d (by decide), illegal_text_ne d (by decide)⟩
    · subst k; exact ⟨by decide, by decide⟩

/-- The instance of C18 for `2*3+4` when the `+` is reached: two operands, one
operator, and the `apply` of `*` returns. -/
theorem scan_loop_balance_witness :
    ([3, 2] : List Int).length = ['*'].length + (if false then 0 else 1) ∧
    ((∃ g1, apply ⟨[3, 2], ['*'], []⟩ = .ok () g1) ∨
      (∃ g1, apply ⟨[3, 2], ['*'], []⟩ = .panic .divideByZero g1)) :=
  have h : ScanReaches (bytes "2*3+4") fresh false ('+' :: ['4']) ⟨[3, 2], ['*'], []⟩ :=
    ScanReaches.step
      (ScanReaches.step
        (ScanReaches.step
          (ScanReaches.start : ScanReaches _ _ true ('2' :: ['*', '3', '+', '4']) fresh)
          (rfl : scanStep true '2' ['*', '3', '+', '4'] fresh =
            .ok (false, '*' :: ['3', '+', '4']) ⟨[2], [], []⟩))
        (rfl : scanStep false '*' ['3', '+', '4'] ⟨[2], [], []⟩ =
          .ok (true, '3' :: ['+', '4']) ⟨[2], ['*'], []⟩))
      (rfl : scanStep true '3' ['+', '4'] ⟨[2], ['*'], []⟩ =
        .ok (false, ['+', '4']) ⟨[3, 2], ['*'], []⟩)
  ⟨(scan_loop_balance (bytes "2*3+4")).1 false ['+', '4'] ⟨[3, 2], ['*'], []⟩ h,
   (scan_loop_balance (bytes "2*3+4")).2.1 '+' ['4'] ⟨[3, 2], ['*'], []⟩ ⟨[3, 2], ['*'], []⟩ '*'
      h (by decide) PendingReaches.start rfl rfl⟩

/-! ## The history of a run -/

/-- The globals of a trace of the inner loop are reached by that loop. -/
theorem pendingTrace_reaches {c : Char} {g0 g : Globals} {gh0 gh : Ghost}
    (h : PendingTrace c g0 gh0 g gh) : PendingReaches c g0 g := by
  induction h with
  | start => exact PendingReaches.start
  | step _ hsa hap ih => exact PendingReaches.step ih rfl hsa hap

/-- The globals of a trace of the final loop are reached by that loop. -/
theorem drainTrace_reaches {g0 g : Globals} {gh0 gh : Ghost}
    (h : DrainTrace g0 gh0 g gh) : DrainReaches g0 g := by
  induction h with
  | start => exact DrainReaches.start
  | step _ hap ih => exact DrainReaches.step ih rfl hap

/-- Where the inner loop of the operator case stops, it returns. -/
theorem pending_of_stops {c : Char} {g : Globals} (h : PendingStops c g) :
    pending c g = .ok () g := by
  obtain ⟨vs, ops, out⟩ := g
  cases ops with
  | nil => exact pending_nil _ _ _
  | cons op ops => rw [pending_cons, h op rfl]

/-- The configurations of a trace of the scan loop are reached by the scan. -/
theorem scanTrace_reaches {expr : List Char} {g0 : Globals} {flag : Bool} {rest : List Char}
    {g : Globals} {gh : Ghost} (h : ScanTrace expr g0 flag rest g gh) :
    ScanReaches expr g0 flag rest g := by
  induction h with
  | start => exact ScanReaches.start
  | digit _ hd ih => exact ScanReaches.step ih (scanStep_digit hd _ _)
  | operator _ hc hp hst ih =>
    refine ScanReaches.step ih ?_
    rw [scanStep_operator hc, pending_of_reaches (pendingTrace_reaches hp), pending_of_stops hst]
  | skip _ _ hs ih => exact ScanReaches.step ih hs

/-- A trace of the inner loop may be extended at its head. -/
theorem pendingTrace_head {c : Char} {right left : Int} {vs : Stack Int} {op : Char}
    {ops : Stack Char} {out : List String} {gh : Ghost} {g1 g : Globals} {gh1 : Ghost}
    (hsa : shouldApply op c = .ok true)
    (hap : apply ⟨right :: left :: vs, op :: ops, out⟩ = .ok () g1)
    (h : PendingTrace c g1 (gh.afterApply op (applyExact op left right)) g gh1) :
    PendingTrace c ⟨right :: left :: vs, op :: ops, out⟩ gh g gh1 := by
  induction h with
  | start => exact PendingTrace.step PendingTrace.start hsa hap
  | step _ hsa1 hap1 ih => exact PendingTrace.step ih hsa1 hap1

/-- A trace of the final loop may be extended at its head. -/
theorem drainTrace_head {right left : Int} {vs : Stack Int} {op : Char}
    {ops : Stack Char} {out : List String} {gh : Ghost} {g1 g : Globals} {gh1 : Ghost}
    (hap : apply ⟨right :: left :: vs, op :: ops, out⟩ = .ok () g1)
    (h : DrainTrace g1 (gh.afterApply op (applyExact op left right)) g gh1) :
    DrainTrace ⟨right :: left :: vs, op :: ops, out⟩ gh g gh1 := by
  induction h with
  | start => exact DrainTrace.step DrainTrace.start hap
  | step _ hap1 ih => exact DrainTrace.step ih hap1

/-- Every state the inner loop reaches has a history. -/
theorem pendingTrace_of_reaches {c : Char} {g0 g : Globals} (gh0 : Ghost)
    (h : PendingReaches c g0 g) : ∃ gh, PendingTrace c g0 gh0 g gh := by
  induction h with
  | start => exact ⟨gh0, PendingTrace.start⟩
  | @step g g1 op _ htop hsa hap ih =>
    obtain ⟨gh, ht⟩ := ih
    obtain ⟨y, x, vs, op1, ops, out, v, rfl, rfl⟩ := apply_ok_shape hap
    simp only [Stack.Top, Option.some.injEq] at htop
    subst htop
    exact ⟨_, PendingTrace.step ht hsa hap⟩

/-- Every state the final loop reaches has a history. -/
theorem drainTrace_of_reaches {g0 g : Globals} (gh0 : Ghost)
    (h : DrainReaches g0 g) : ∃ gh, DrainTrace g0 gh0 g gh := by
  induction h with
  | start => exact ⟨gh0, DrainTrace.start⟩
  | @step g g1 _ _ hap ih =>
    obtain ⟨gh, ht⟩ := ih
    obtain ⟨y, x, vs, op1, ops, out, v, rfl, rfl⟩ := apply_ok_shape hap
    exact ⟨_, DrainTrace.step ht hap⟩

/-- An inner loop that returns has a trace up to the state where it stops. -/
theorem pendingTrace_of_ok (c : Char) (out : List String) :
    ∀ (ops : Stack Char) (vs : Stack Int) (gh : Ghost) (g1 : Globals),
      pending c ⟨vs, ops, out⟩ = .ok () g1 →
      ∃ gh1, PendingTrace c ⟨vs, ops, out⟩ gh g1 gh1 ∧ PendingStops c g1 := by
  intro ops
  induction ops with
  | nil =>
    intro vs gh g1 h
    rw [pending_nil] at h
    simp only [Result.ok.injEq, true_and] at h
    subst h
    exact ⟨gh, PendingTrace.start, fun op hop => by cases hop⟩
  | cons op ops ih =>
    intro vs gh g1 h
    rw [pending_cons] at h
    cases hs : shouldApply op c with
    | error p => rw [hs] at h; cases h
    | ok b =>
      rw [hs] at h
      cases b with
      | false =>
        simp only [Result.ok.injEq, true_and] at h
        subst h
        refine ⟨gh, PendingTrace.start, fun o ho => ?_⟩
        simp only [Stack.Top, Option.mem_def, Option.some.injEq] at ho
        subst ho; exact hs
      | true =>
        simp only [] at h
        cases hap : apply ⟨vs, op :: ops, out⟩ with
        | ok u g2 =>
          rw [hap] at h
          obtain ⟨y, x, vs1, op1, ops1, out1, v, he, rfl⟩ := apply_ok_shape hap
          simp only [Globals.mk.injEq, List.cons.injEq] at he
          obtain ⟨rfl, ⟨rfl, rfl⟩, rfl⟩ := he
          obtain ⟨gh1, k1, k2⟩ := ih _ (gh.afterApply op (applyExact op x y)) g1 h
          exact ⟨gh1, pendingTrace_head hs hap k1, k2⟩
        | panic p g2 => rw [hap] at h; cases h
        | timeout => rw [hap] at h; cases h

/-- Every configuration the scan reaches has a history. -/
theorem scanTrace_of_reaches {expr : List Char} {g0 : Globals} {flag : Bool}
    {rest : List Char} {g : Globals} (h : ScanReaches expr g0 flag rest g) :
    ∃ gh, ScanTrace expr g0 flag rest g gh := by
  induction h with
  | start => exact ⟨_, ScanTrace.start⟩
  | @step flag c cs g flag1 rest g1 _ hs ih =>
    obtain ⟨gh, ht⟩ := ih
    by_cases hd : isDigit c = true
    · cases flag with
      | false => rw [scanStep_digit_unexpected hd] at hs; cases hs
      | true =>
        rw [scanStep_digit hd] at hs
        simp only [Result.ok.injEq, Prod.mk.injEq] at hs
        obtain ⟨⟨rfl, rfl⟩, rfl⟩ := hs
        exact ⟨_, ScanTrace.digit ht hd⟩
    · by_cases hc : c = '+' ∨ c = '-' ∨ c = '*' ∨ c = '/' ∨ c = '^'
      · cases flag with
        | true => rw [scanStep_operator_unexpected hc] at hs; cases hs
        | false =>
          rw [scanStep_operator hc] at hs
          cases hp : pending c g with
          | ok u g2 =>
            rw [hp] at hs
            simp only [Result.ok.injEq, Prod.mk.injEq] at hs
            obtain ⟨⟨rfl, rfl⟩, rfl⟩ := hs
            obtain ⟨vs, ops, out⟩ := g
            obtain ⟨gh1, k1, k2⟩ := pendingTrace_of_ok c out ops vs gh g2 hp
            exact ⟨gh1, ScanTrace.operator ht hc k1 k2⟩
          | panic p g2 => rw [hp] at hs; cases hs
          | timeout => rw [hp] at hs; cases hs
      · have hs1 := hs
        rw [scanStep, if_neg hd, if_neg hc] at hs1
        split_ifs at hs1 with h1 h2 h3 <;>
          simp only [Result.ok.injEq, Prod.mk.injEq] at hs1
        · obtain ⟨⟨rfl, rfl⟩, -⟩ := hs1
          exact ⟨gh, ScanTrace.skip ht (Or.inl h1) hs⟩
        · obtain ⟨⟨rfl, rfl⟩, -⟩ := hs1
          exact ⟨gh, ScanTrace.skip ht (Or.inr (Or.inl h2)) hs⟩
        · obtain ⟨⟨rfl, rfl⟩, -⟩ := hs1
          exact ⟨gh, ScanTrace.skip ht (Or.inr (Or.inr h3)) hs⟩

/-! ## Counting operands and applications -/

/-- The inner loop of the operator case keeps the count of the operands. -/
theorem pendingTrace_count {c : Char} {g0 g : Globals} {gh0 gh : Ghost}
    (h : PendingTrace c g0 gh0 g gh)
    (h0 : g0.operandStack.length + gh0.applied = gh0.pushed) :
    g.operandStack.length + gh.applied = gh.pushed := by
  induction h with
  | start => exact h0
  | step _ _ hap ih =>
    obtain ⟨y, x, vs1, op1, ops1, out1, v, he, rfl⟩ := apply_ok_shape hap
    simp only [Globals.mk.injEq, List.cons.injEq] at he
    obtain ⟨⟨-, -, rfl⟩, -, -⟩ := he
    simp only [Ghost.afterApply, List.length_cons] at ih ⊢
    omega

/-- The final loop keeps the count of the operands. -/
theorem drainTrace_count {g0 g : Globals} {gh0 gh : Ghost}
    (h : DrainTrace g0 gh0 g gh)
    (h0 : g0.operandStack.length + gh0.applied = gh0.pushed) :
    g.operandStack.length + gh.applied = gh.pushed := by
  induction h with
  | start => exact h0
  | step _ hap ih =>
    obtain ⟨y, x, vs1, op1, ops1, out1, v, he, rfl⟩ := apply_ok_shape hap
    simp only [Globals.mk.injEq, List.cons.injEq] at he
    obtain ⟨⟨-, -, rfl⟩, -, -⟩ := he
    simp only [Ghost.afterApply, List.length_cons] at ih ⊢
    omega

/-- The scan loop keeps the count of the operands. -/
theorem scanTrace_count {expr : List Char} {g0 : Globals} {flag : Bool} {rest : List Char}
    {g : Globals} {gh : Ghost} (h : ScanTrace expr g0 flag rest g gh)
    (h0 : g0.operandStack = []) :
    g.operandStack.length + gh.applied = gh.pushed := by
  induction h with
  | start => simp [h0, Ghost.start]
  | digit _ _ ih =>
    simp only [Ghost.afterPush, Stack.Push, List.length_cons]
    omega
  | operator _ _ hp _ ih =>
    have k := pendingTrace_count hp ih
    exact k
  | @skip flag c cs g g1 gh _ hc hs ih =>
    have e : g1.operandStack = g.operandStack := by
      rcases hc with rfl | rfl | rfl
      · rw [scanStep_open] at hs
        simp only [Result.ok.injEq, true_and] at hs
        rw [← hs]
      · rw [scanStep_close] at hs
        simp only [Result.ok.injEq, true_and] at hs
        rw [← hs]
      · rw [scanStep_space] at hs
        simp only [Result.ok.injEq, true_and] at hs
        rw [← hs]
    rw [e]; exact ih

/-- C19, refuted as stated: on `1`, after the final `Pop` has taken the result
off the stack, the operand stack is empty, although one operand has been
pushed and no call of `apply` has been made. -/
theorem operand_count_fails_after_result :
    Instant (bytes "1") fresh ⟨[], [], []⟩ ⟨1, 0, [Origin.literal], true⟩ ∧
    (⟨[], [], []⟩ : Globals).operandStack.length +
        (⟨1, 0, [Origin.literal], true⟩ : Ghost).applied ≠
      (⟨1, 0, [Origin.literal], true⟩ : Ghost).pushed ∧
    evaluateBody (bytes "1") fresh = .ok () ⟨[], [], ["1"]⟩ :=
  ⟨Instant.result
      (ScanTrace.digit (ScanTrace.start : ScanTrace (bytes "1") fresh true ('1' :: []) fresh _)
        rfl : ScanTrace (bytes "1") fresh false [] ⟨[1], [], []⟩ ⟨1, 0, [Origin.literal], true⟩)
      DrainTrace.start rfl,
   by decide, rfl⟩

/-- C19, amended: in every evaluation started from fresh stacks, at the top of
every iteration of the scan loop, of the inner loop of the operator case and of
the final loop, the size of the operand stack plus the number of calls of
`apply` that have returned equals the number of operands pushed by the scan;
and every configuration reached at the top of one of these loops is such an
instant. -/
theorem operand_count (expr : List Char) :
    (∀ (g : Globals) (gh : Ghost), LoopInstant expr fresh g gh →
      g.operandStack.length + gh.applied = gh.pushed) ∧
    (∀ (flag : Bool) (rest : List Char) (g : Globals),
      ScanReaches expr fresh flag rest g → ∃ gh, LoopInstant expr fresh g gh) ∧
    (∀ (c : Char) (cs : List Char) (gs g : Globals),
      ScanReaches expr fresh false (c :: cs) gs →
      (c = '+' ∨ c = '-' ∨ c = '*' ∨ c = '/' ∨ c = '^') →
      PendingReaches c gs g → ∃ gh, LoopInstant expr fresh g gh) ∧
    (∀ (gs g : Globals), scan true expr fresh = .ok () gs → DrainReaches gs g →
      ∃ gh, LoopInstant expr fresh g gh) := by
  refine ⟨fun g gh h => ?_, fun flag rest g h => ?_, fun c cs gs g h hc hp => ?_,
    fun gs g hs hd => ?_⟩
  · cases h with
    | scan ht => exact scanTrace_count ht rfl
    | pending ht _ hp => exact pendingTrace_count hp (scanTrace_count ht rfl)
    | drain ht hd => exact drainTrace_count hd (scanTrace_count ht rfl)
  · obtain ⟨gh, ht⟩ := scanTrace_of_reaches h
    exact ⟨gh, LoopInstant.scan ht⟩
  · obtain ⟨ghs, ht⟩ := scanTrace_of_reaches h
    obtain ⟨gh, hpt⟩ := pendingTrace_of_reaches ghs hp
    exact ⟨gh, LoopInstant.pending ht hc hpt⟩
  · obtain ⟨flag, hr⟩ := scan_ok_reaches _ _ (le_refl _) _ _ ScanReaches.start hs
    obtain ⟨ghs, ht⟩ := scanTrace_of_reaches hr
    obtain ⟨gh, hdt⟩ := drainTrace_of_reaches ghs hd
    exact ⟨gh, LoopInstant.drain ht hdt⟩

/-- The instance of the amended C19 for `1+2` in the final loop, after the
call of `apply` for `+`: one value on the stack, one call returned, two
operands pushed. -/
theorem operand_count_witness :
    (⟨[3], [], []⟩ : Globals).operandStack.length +
        (⟨2, 1, [Origin.other], true⟩ : Ghost).applied =
      (⟨2, 1, [Origin.other], true⟩ : Ghost).pushed :=
  have t1 : ScanTrace (bytes "1+2") fresh false ['+', '2'] ⟨[1], [], []⟩
      ⟨1, 0, [Origin.literal], true⟩ :=
    ScanTrace.digit
      (ScanTrace.start : ScanTrace (bytes "1+2") fresh true ('1' :: ['+', '2']) fresh _) rfl
  have t2 : ScanTrace (bytes "1+2") fresh true ['2'] ⟨[1], ['+'], []⟩
      ⟨1, 0, [Origin.literal], true⟩ :=
    ScanTrace.operator t1 (by decide) PendingTrace.start (fun _ hop => by cases hop)
  have t3 : ScanTrace (bytes "1+2") fresh false [] ⟨[2, 1], ['+'], []⟩
      ⟨2, 0, [Origin.literal, Origin.literal], true⟩ :=
    ScanTrace.digit t2 rfl
  have d1 : DrainTrace ⟨[2, 1], ['+'], []⟩ ⟨2, 0, [Origin.literal, Origin.literal], true⟩
      ⟨[3], [], []⟩ ⟨2, 1, [Origin.other], true⟩ :=
    DrainTrace.step DrainTrace.start rfl
  (operand_count (bytes "1+2")).1 _ _ (LoopInstant.drain t3 d1)

/-! ## The operands of a power -/

/-- A literal that fits an `int` is scanned as a non-negative value. -/
theorem digitLoop_nonneg {input : List Char} (h : literalExact input = true) :
    0 ≤ (digitLoop 0 input).1 := by
  have hv : digitsValue 0 (input.takeWhile isDigit) < 9223372036854775808 := by
    simpa [literalExact] using h
  have hr : NoLeadingDigit (input.dropWhile isDigit) := by
    intro c hc
    have := List.head?_dropWhile_not isDigit input
    rw [Option.mem_def.mp hc] at this
    simpa using this
  have hd : ∀ c ∈ input.takeWhile isDigit, isDigit c = true :=
    fun c hc => List.mem_takeWhile_imp hc
  have e := digitLoop_digits _ hr _ 0 hd hv
  rw [List.takeWhile_append_dropWhile] at e
  simp only [Nat.cast_zero] at e
  rw [e]
  exact Int.natCast_nonneg _

/-- An operator of the stack is never applied for an incoming `^`. -/
theorem shouldApply_incoming_power {op : Char}
    (hop : op = '+' ∨ op = '-' ∨ op = '*' ∨ op = '/' ∨ op = '^') :
    shouldApply op '^' = .ok false := by
  rcases hop with h | h | h | h | h <;> subst h <;> rfl

/-- The tail of a stack with the `^` operators on top has them on top. -/
theorem powersOnTop_tail {op : Char} {ops : List Char} (h : PowersOnTop (op :: ops)) :
    PowersOnTop ops := by
  cases ops with
  | nil => trivial
  | cons b rest => exact h.2

/-- Beneath a `^` on top of the stack, the top operator is a `^`. -/
theorem powersOnTop_head {op : Char} {ops : List Char} (h : PowersOnTop (op :: ops))
    (hp : ops.head? = some '^') : op = '^' := by
  cases ops with
  | nil => cases hp
  | cons b rest =>
    simp only [List.head?_cons, Option.some.injEq] at hp
    exact h.1 hp

/-- The pairing of operators and origins goes on beneath the first pair. -/
theorem leftsLiteral_tail {ops : List Char} {o : Origin} {os : List Origin}
    (h : LeftsLiteral ops (o :: os)) : LeftsLiteral ops.tail os := by
  cases ops with
  | nil => simp [LeftsLiteral]
  | cons op ops => exact h.2

/-- The result of a `^` without overflow on a non-negative base is not
negative. -/
theorem intPower_nonneg {left right : Int} (hl : 0 ≤ left)
    (he : InRange (left ^ right.toNat)) : 0 ≤ intPower left right := by
  have h : intPower left right = left ^ right.toNat := by
    have := intPower_loop_wrap left right.toNat 1
    rw [show wrapInt 1 = 1 from rfl, one_mul] at this
    rw [intPower, this, wrapInt_of_inRange he]
  rw [h]
  exact pow_nonneg hl _

/-- A call of `apply` that returns keeps what the histories guarantee about
`^`. -/
theorem powerInv_apply {shifted : Bool} {right left : Int} {vs : Stack Int} {op : Char}
    {ops : Stack Char} {out : List String} {gh : Ghost} {g1 : Globals}
    (hi : PowerInv shifted ⟨right :: left :: vs, op :: ops, out⟩ gh)
    (hap : apply ⟨right :: left :: vs, op :: ops, out⟩ = .ok () g1) :
    PowerInv shifted g1 (gh.afterApply op (applyExact op left right)) := by
  obtain ⟨pushed, applied, origins, exact⟩ := gh
  obtain ⟨hlen, hpt, hll, -, hnn⟩ := hi
  simp only [List.tail_cons] at hlen hpt hll hnn
  cases origins with
  | nil => simp at hlen
  | cons o0 origins =>
    cases origins with
    | nil => simp at hlen
    | cons o1 os =>
      simp only [List.length_cons, add_left_inj, List.tail_cons] at hlen hll
      have hleft : ops.head? = some '^' → o1 = Origin.literal := by
        intro hp
        cases shifted with
        | false =>
          simp only [Bool.false_eq_true, if_false] at hll
          exact hll.1 (powersOnTop_head hpt hp)
        | true =>
          simp only [if_true] at hll
          cases ops with
          | nil => cases hp
          | cons b rest =>
            simp only [List.head?_cons, Option.some.injEq] at hp
            exact hll.1 hp
      have hll1 : LeftsLiteral (if shifted then ops.tail else ops) os := by
        cases shifted with
        | false =>
          simp only [Bool.false_eq_true, if_false] at hll ⊢
          exact hll.2
        | true =>
          simp only [if_true] at hll ⊢
          exact leftsLiteral_tail hll
      obtain ⟨y, x, vs1, op1, ops1, out1, v, he, rfl⟩ := apply_ok_shape hap
      simp only [Globals.mk.injEq, List.cons.injEq] at he
      obtain ⟨⟨rfl, rfl, rfl⟩, ⟨rfl, rfl⟩, rfl⟩ := he
      refine ⟨?_, powersOnTop_tail hpt, ?_, ?_, ?_⟩
      · simp only [Ghost.afterApply, List.drop_succ_cons, List.drop_zero,
          List.length_cons, hlen]
      · simp only [Ghost.afterApply, List.drop_succ_cons, List.drop_zero,
          List.tail_cons]
        exact hll1
      · intro hp
        have hop : op = '^' := powersOnTop_head hpt hp
        subst hop
        rw [apply_power] at hap
        simp only [Result.ok.injEq, Globals.mk.injEq, List.cons.injEq, true_and, and_true] at hap
        refine ⟨Origin.power, v, os, vs, ?_, rfl, Or.inr rfl, ?_⟩
        · simp [Ghost.afterApply]
        · intro hex
          simp only [Ghost.afterApply, Bool.and_eq_true] at hex
          obtain ⟨hex1, hex2⟩ := hex
          have hl0 : 0 ≤ left := (hnn hex1).2.1 (hleft hp)
          rw [← hap]
          refine intPower_nonneg hl0 ?_
          simpa [applyExact] using hex2
      · intro hex
        simp only [Ghost.afterApply, Bool.and_eq_true] at hex
        have h2 := (hnn hex.1).2.2
        simp only [Ghost.afterApply, List.drop_succ_cons, List.drop_zero]
        refine ⟨?_, h2⟩
        intro hlit
        split_ifs at hlit

/-- No operator of the stack is applied for an incoming `^`. -/
theorem shouldApply_incoming_power_ne (op : Char) : shouldApply op '^' ≠ .ok true := by
  intro h
  by_cases h1 : op = '+' ∨ op = '-' ∨ op = '*' ∨ op = '/' ∨ op = '^'
  · rw [shouldApply_incoming_power h1] at h
    cases h
  · have hp : precedence op = .error (.text "unknown operator") := by
      unfold precedence
      rw [if_neg (fun k => h1 (k.elim Or.inl (fun k => Or.inr (Or.inl k)))),
        if_neg (fun k => h1 (k.elim (fun k => Or.inr (Or.inr (Or.inl k)))
          (fun k => Or.inr (Or.inr (Or.inr (Or.inl k)))))),
        if_neg (fun k => h1 (Or.inr (Or.inr (Or.inr (Or.inr k)))))]
    unfold shouldApply at h
    rw [hp] at h
    cases h

/-- The inner loop of the operator case does nothing for an incoming `^`. -/
theorem pendingTrace_power {g0 g : Globals} {gh0 gh : Ghost}
    (h : PendingTrace '^' g0 gh0 g gh) : g = g0 ∧ gh = gh0 := by
  cases h with
  | start => exact ⟨rfl, rfl⟩
  | step _ hsa _ => exact absurd hsa (shouldApply_incoming_power_ne _)

/-- The inner loop of the operator case keeps what the histories guarantee
about `^`. -/
theorem pendingTrace_powerInv {c : Char} {g0 g : Globals} {gh0 gh : Ghost}
    (hi : PowerInv false g0 gh0) (h : PendingTrace c g0 gh0 g gh) : PowerInv false g gh := by
  induction h with
  | start => exact hi
  | step _ _ hap ih => exact powerInv_apply ih hap

/-- The final loop keeps what the histories guarantee about `^`. -/
theorem drainTrace_powerInv {shifted : Bool} {g0 g : Globals} {gh0 gh : Ghost}
    (hi : PowerInv shifted g0 gh0) (h : DrainTrace g0 gh0 g gh) : PowerInv shifted g gh := by
  induction h with
  | start => exact hi
  | step _ hap ih => exact powerInv_apply ih hap

/-- Where the inner loop of the operator case stops, pushing the incoming
operator keeps the `^` operators on top. -/
theorem powersOnTop_push {c : Char} {g : Globals}
    (hc : c = '+' ∨ c = '-' ∨ c = '*' ∨ c = '/' ∨ c = '^')
    (hst : PendingStops c g) (hpt : PowersOnTop g.operatorStack) :
    PowersOnTop (Stack.Push g.operatorStack c) := by
  obtain ⟨vs, ops, out⟩ := g
  cases ops with
  | nil => simp [Stack.Push, PowersOnTop]
  | cons b rest =>
    refine ⟨fun hb => ?_, hpt⟩
    have hs : shouldApply b c = .ok false := hst b rfl
    subst hb
    rcases hc with k | k | k | k | k
    · rw [shouldApply_power (Or.inl k)] at hs; cases hs
    · rw [shouldApply_power (Or.inr (Or.inl k))] at hs; cases hs
    · rw [shouldApply_power (Or.inr (Or.inr (Or.inl k)))] at hs; cases hs
    · rw [shouldApply_power (Or.inr (Or.inr (Or.inr k)))] at hs; cases hs
    · exact k

/-- An iteration of the scan loop on a parenthesis or a space leaves both
stacks as they are. -/
theorem scanStep_skip_stacks {flag : Bool} {c : Char} {cs : List Char} {g g1 : Globals}
    {a : Bool × List Char} (hc : c = '(' ∨ c = ')' ∨ c = ' ')
    (hs : scanStep flag c cs g = .ok a g1) :
    g1.operandStack = g.operandStack ∧ g1.operatorStack = g.operatorStack := by
  rcases hc with rfl | rfl | rfl
  · rw [scanStep_open] at hs
    simp only [Result.ok.injEq] at hs
    obtain ⟨-, rfl⟩ := hs
    exact ⟨rfl, rfl⟩
  · rw [scanStep_close] at hs
    simp only [Result.ok.injEq] at hs
    obtain ⟨-, rfl⟩ := hs
    exact ⟨rfl, rfl⟩
  · rw [scanStep_space] at hs
    simp only [Result.ok.injEq] at hs
    obtain ⟨-, rfl⟩ := hs
    exact ⟨rfl, rfl⟩

/-- What the histories guarantee about `^` at the top of the scan loop of an
evaluation started from fresh stacks; where an operator is expected the top
operand is a literal. -/
theorem scanTrace_inv {expr : List Char} {flag : Bool} {rest : List Char} {g : Globals}
    {gh : Ghost} (h : ScanTrace expr fresh flag rest g gh) :
    (flag = true → GapInv g gh) ∧
    (flag = false → PowerInv false g gh ∧ gh.origins.head? = some Origin.literal) := by
  induction h with
  | start =>
    exact ⟨fun _ => ⟨rfl, trivial, trivial, fun _ => trivial⟩, fun h => by cases h⟩
  | @digit c cs g gh _ hd ih =>
    obtain ⟨hlen, hpt, hll, hnn⟩ := ih.1 rfl
    refine ⟨fun h => Bool.noConfusion h, fun _ => ⟨⟨?_, hpt, ?_, ?_, ?_⟩, rfl⟩⟩
    · simp [Ghost.afterPush, Stack.Push, hlen]
    · simpa [Ghost.afterPush] using hll
    · intro _
      refine ⟨Origin.literal, _, gh.origins, g.operandStack, rfl, rfl, Or.inl rfl, ?_⟩
      intro hex
      simp only [Ghost.afterPush, Bool.and_eq_true] at hex
      exact digitLoop_nonneg hex.2
    · intro hex
      simp only [Ghost.afterPush, Bool.and_eq_true] at hex
      exact ⟨fun _ => digitLoop_nonneg hex.2, hnn hex.1⟩
  | @operator c cs g g1 gh gh1 _ hc hp hst ih =>
    obtain ⟨hinv, hlit⟩ := ih.2 rfl
    obtain ⟨hlen, hpt, hll, -, hnn⟩ := pendingTrace_powerInv hinv hp
    refine ⟨fun _ => ⟨hlen, powersOnTop_push hc hst hpt, ?_, hnn⟩, fun h => by cases h⟩
    simp only [Bool.false_eq_true, if_false] at hll
    cases ho : gh1.origins with
    | nil => simp [Stack.Push, LeftsLiteral]
    | cons o os =>
      rw [ho] at hll
      refine ⟨?_, hll⟩
      intro hce
      subst hce
      obtain ⟨rfl, rfl⟩ := pendingTrace_power hp
      rw [ho] at hlit
      simpa using hlit
  | @skip flag c cs g g1 gh _ hc hs ih =>
    obtain ⟨h1, h2⟩ := scanStep_skip_stacks hc hs
    unfold GapInv PowerInv
    rw [h1, h2]
    exact ih

/-- No operator is paired with an origin when no origin is left. -/
theorem leftsLiteral_nil (ops : List Char) : LeftsLiteral ops [] := by
  cases ops <;> simp [LeftsLiteral]

/-- At the end of an input that ended where an operand was expected, what the
histories guarantee for the scan carries over to the final loop, where each
operator meets the operands of the one above it. -/
theorem powerInv_of_gapInv {g : Globals} {gh : Ghost} (hb : Balanced true g)
    (hi : GapInv g gh) : PowerInv true g gh := by
  obtain ⟨vs, ops, out⟩ := g
  obtain ⟨pushed, applied, origins, exact⟩ := gh
  obtain ⟨hlen, hpt, hll, hnn⟩ := hi
  have hsize : vs.length = ops.length := by simpa using hb.2
  simp only [] at hlen hpt hll hnn
  refine ⟨hlen, hpt, ?_, ?_, hnn⟩
  · simp only [if_true]
    cases origins with
    | nil => exact leftsLiteral_nil _
    | cons o os => exact leftsLiteral_tail hll
  · intro hp
    cases ops with
    | nil => cases hp
    | cons b rest =>
      simp only [List.head?_cons, Option.some.injEq] at hp
      cases vs with
      | nil => simp at hsize
      | cons v vs1 =>
        cases origins with
        | nil => simp at hlen
        | cons o os =>
          exact ⟨o, v, os, vs1, rfl, rfl, Or.inl (hll.1 hp), fun hex => (hnn hex).1 (hll.1 hp)⟩

/-- What the histories guarantee at a call of `apply`. -/
theorem applyInstant_powerInv {expr : List Char} {trailing : Bool} {g : Globals} {gh : Ghost}
    (h : ApplyInstant expr fresh trailing g gh) : PowerInv trailing g gh := by
  cases h with
  | pending ht _ hp _ _ => exact pendingTrace_powerInv ((scanTrace_inv ht).2 rfl).1 hp
  | drain ht hd _ =>
    cases trailing with
    | false => exact drainTrace_powerInv ((scanTrace_inv ht).2 rfl).1 hd
    | true =>
      exact drainTrace_powerInv
        (powerInv_of_gapInv (reaches_balanced balanced_fresh (scanTrace_reaches ht)) ((scanTrace_inv ht).1 rfl))
        hd

/-- Every call of `apply` of an evaluation has a history. -/
theorem applyInstant_of_appliesAt {expr : List Char} {g0 g : Globals}
    (h : AppliesAt expr g0 g) : ∃ trailing gh, ApplyInstant expr g0 trailing g gh := by
  cases h with
  | pending hr hc hp htop hsa =>
    obtain ⟨ghs, ht⟩ := scanTrace_of_reaches hr
    obtain ⟨gh, hpt⟩ := pendingTrace_of_reaches ghs hp
    exact ⟨false, gh, ApplyInstant.pending ht hc hpt htop hsa⟩
  | drain hs hd he =>
    obtain ⟨flag, hr⟩ := scan_ok_reaches _ _ (le_refl _) _ _ ScanReaches.start hs
    obtain ⟨ghs, ht⟩ := scanTrace_of_reaches hr
    obtain ⟨gh, hdt⟩ := drainTrace_of_reaches ghs hd
    exact ⟨flag, gh, ApplyInstant.drain ht hdt he⟩

/-- C20, refuted as stated: on `1-2-3^` the final loop calls `apply` with `^`
on top of the operator stack, the right operand 3 and the left operand -1; no
value has overflowed, and the left operand is negative and is not a literal but
the result of `1-2`. The call returns, with the power -1 on the stack. -/
theorem power_left_operand_not_literal :
    ApplyInstant (bytes "1-2-3^") fresh true ⟨[3, -1], ['^', '-'], []⟩
      ⟨3, 1, [Origin.literal, Origin.other], true⟩ ∧
    AppliesAt (bytes "1-2-3^") fresh ⟨[3, -1], ['^', '-'], []⟩ ∧
    apply ⟨[3, -1], ['^', '-'], []⟩ = .ok () ⟨[-1], ['-'], []⟩ ∧
    (-1 : Int) < 0 ∧ Origin.other ≠ Origin.literal :=
  have t1 : ScanTrace (bytes "1-2-3^") fresh false ['-', '2', '-', '3', '^'] ⟨[1], [], []⟩
      ⟨1, 0, [Origin.literal], true⟩ :=
    ScanTrace.digit
      (ScanTrace.start :
        ScanTrace (bytes "1-2-3^") fresh true ('1' :: ['-', '2', '-', '3', '^']) fresh _) rfl
  have t2 : ScanTrace (bytes "1-2-3^") fresh true ['2', '-', '3', '^'] ⟨[1], ['-'], []⟩
      ⟨1, 0, [Origin.literal], true⟩ :=
    ScanTrace.operator t1 (by decide) PendingTrace.start (fun _ hop => by cases hop)
  have t3 : ScanTrace (bytes "1-2-3^") fresh false ['-', '3', '^'] ⟨[2, 1], ['-'], []⟩
      ⟨2, 0, [Origin.literal, Origin.literal], true⟩ :=
    ScanTrace.digit t2 rfl
  have p3 : PendingTrace '-' ⟨[2, 1], ['-'], []⟩ ⟨2, 0, [Origin.literal, Origin.literal], true⟩
      ⟨[-1], [], []⟩ ⟨2, 1, [Origin.other], true⟩ :=
    PendingTrace.step PendingTrace.start rfl rfl
  have t4 : ScanTrace (bytes "1-2-3^") fresh true ['3', '^'] ⟨[-1], ['-'], []⟩
      ⟨2, 1, [Origin.other], true⟩ :=
    ScanTrace.operator t3 (by decide) p3 (fun _ hop => by cases hop)
  have t5 : ScanTrace (bytes "1-2-3^") fresh false ['^'] ⟨[3, -1], ['-'], []⟩
      ⟨3, 1, [Origin.literal, Origin.other], true⟩ :=
    ScanTrace.digit t4 rfl
  have s5 : PendingStops '^' ⟨[3, -1], ['-'], []⟩ := by
    intro op hop
    cases hop
    rfl
  have t6 : ScanTrace (bytes "1-2-3^") fresh true [] ⟨[3, -1], ['^', '-'], []⟩
      ⟨3, 1, [Origin.literal, Origin.other], true⟩ :=
    ScanTrace.operator t5 (by decide) PendingTrace.start s5
  ⟨ApplyInstant.drain t6 DrainTrace.start rfl,
    AppliesAt.drain (rfl : scan true (bytes "1-2-3^") fresh = .ok () ⟨[3, -1], ['^', '-'], []⟩)
      DrainReaches.start rfl,
    rfl, by decide, by decide⟩

/-- C20, amended: in every evaluation started from fresh stacks, whenever
`apply` is called with `^` on top of the operator stack and two operands, the
right operand is a literal or the result of another `^`, and it is not negative
if no literal and no result has overflowed so far; unless the call comes from
the final loop after an input that ended where an operand was expected, the
left operand is a literal, and not negative if nothing has overflowed so far.
So without overflow `intPower` is never called with a negative exponent. Every
call of `apply` of the evaluation is such an instant. -/
theorem power_operands (expr : List Char) :
    (∀ (trailing : Bool) (right left : Int) (vs : Stack Int) (ops : Stack Char)
        (out : List String) (gh : Ghost),
      ApplyInstant expr fresh trailing ⟨right :: left :: vs, '^' :: ops, out⟩ gh →
      ∃ o0 o1 os, gh.origins = o0 :: o1 :: os ∧
        (o0 = Origin.literal ∨ o0 = Origin.power) ∧
        (gh.exact = true → 0 ≤ right) ∧
        (trailing = false → o1 = Origin.literal ∧ (gh.exact = true → 0 ≤ left))) ∧
    (∀ g : Globals, AppliesAt expr fresh g →
      ∃ trailing gh, ApplyInstant expr fresh trailing g gh) := by
  refine ⟨fun trailing right left vs ops out gh h => ?_, fun g h => applyInstant_of_appliesAt h⟩
  obtain ⟨hlen, -, hll, hhead, hnn⟩ := applyInstant_powerInv h
  obtain ⟨pushed, applied, origins, exact⟩ := gh
  simp only [List.tail_cons] at hlen hll hhead hnn
  obtain ⟨o, v, os, vs1, ho, hv, hor, hv0⟩ := hhead rfl
  subst ho
  simp only [List.cons.injEq] at hv
  obtain ⟨rfl, rfl⟩ := hv
  cases os with
  | nil => simp at hlen
  | cons o1 os =>
    refine ⟨o, o1, os, rfl, hor, hv0, ?_⟩
    intro ht
    subst ht
    simp only [Bool.false_eq_true, if_false, List.tail_cons] at hll
    exact ⟨hll.1 rfl, fun hex => (hnn hex).2.1 (hll.1 rfl)⟩

/-- The instance of the amended C20 for `2^3` in the final loop: `^` is
applied to the literals 2 and 3. -/
theorem power_operands_witness :
    ∃ o0 o1 os, (⟨2, 0, [Origin.literal, Origin.literal], true⟩ : Ghost).origins = o0 :: o1 :: os ∧
      (o0 = Origin.literal ∨ o0 = Origin.power) ∧
      ((⟨2, 0, [Origin.literal, Origin.literal], true⟩ : Ghost).exact = true → (0 : Int) ≤ 3) ∧
      (false = false → o1 = Origin.literal ∧
        ((⟨2, 0, [Origin.literal, Origin.literal], true⟩ : Ghost).exact = true → (0 : Int) ≤ 2)) :=
  have t1 : ScanTrace (bytes "2^3") fresh false ['^', '3'] ⟨[2], [], []⟩
      ⟨1, 0, [Origin.literal], true⟩ :=
    ScanTrace.digit
      (ScanTrace.start : ScanTrace (bytes "2^3") fresh true ('2' :: ['^', '3']) fresh _) rfl
  have t2 : ScanTrace (bytes "2^3") fresh true ['3'] ⟨[2], ['^'], []⟩
      ⟨1, 0, [Origin.literal], true⟩ :=
    ScanTrace.operator t1 (by decide) PendingTrace.start (fun _ hop => by cases hop)
  have t3 : ScanTrace (bytes "2^3") fresh false [] ⟨[3, 2], ['^'], []⟩
      ⟨2, 0, [Origin.literal, Origin.literal], true⟩ :=
    ScanTrace.digit t2 rfl
  (power_operands (bytes "2^3")).1 false 3 2 [] [] [] _
    (ApplyInstant.drain t3 DrainTrace.start rfl)

end Calculator
